import Mathlib

/-!
# MPDec: message-passing decoder for binary LDPC codes

A shallow embedding of `src/MPDec/MPDecoder.cpp` and `src/MPDec/MPDecoder.h`.

* C arrays are lists; an access outside the array (undefined behaviour in C) reads a
  default value and writes nothing.
* `int` counters that only count upwards from zero (`nBit`, `nCheck`, `nEdge`, loop
  variables, degrees, `nIterationMax`, `*nIteration`) are natural numbers.  The entries of
  `idxBit`, `idxCheck` and of the adjacency rows are `Int`, because they are produced by an
  `unsigned int` to `int` conversion, respectively initialised with `-1`; the conversions are
  taken modulo `2 ^ 32`.
* The edge list `idxLinear` holds doubles whose values are non-negative integers; it is a list
  of naturals.
* `double` is an abstract carrier `D` with the primitive operations the code applies to it
  (`DoubleOps`); the decoder is written once, for every interpretation of these primitives,
  that of IEEE doubles among them.
* The output buffer `cHat` holds the doubles `0` and `1`; it is modelled by a list of
  naturals, `(int)cHat[i]` being the entry itself.  `HDD` overwrites all its `nBit` entries.
-/

namespace MPDec

/-! ## Loops and array accesses -/

/-- The loop `for (int i = 0; i != n; ++i) s = body(i, s);`. -/
def forLoop {σ : Type} (n : Nat) (body : Nat → σ → σ) (s : σ) : σ :=
  match n with
  | 0 => s
  | k + 1 => body k (forLoop k body s)

/-- Read `a[i]` for an `int` index `i`; outside the array the default `d` is read. -/
def getAt {α : Type} (a : List α) (i : Int) (d : α) : α :=
  if 0 ≤ i then a.getD i.toNat d else d

/-- Write `a[i] = v` for an `int` index `i`; outside the array nothing is written. -/
def setAt {α : Type} (a : List α) (i : Int) (v : α) : List α :=
  if 0 ≤ i then a.set i.toNat v else a

/-- The call `memcpy(dst, src, sizeof(T) * n)`. -/
def memcpy {α : Type} (dst src : List α) (n : Nat) : List α :=
  src.take n ++ dst.drop n

/-- The call `memset(dst, byte, sizeof(T) * n)` where the byte pattern spells the value `v`. -/
def memset {α : Type} (dst : List α) (v : α) (n : Nat) : List α :=
  List.replicate n v ++ dst.drop n

/-! ## Machine integers -/

/-- The conversion `(unsigned int)x` of a double holding the non-negative integer `x`; it is
exact below `2 ^ 32`. -/
def toUInt32 (x : Nat) : Nat := x % 2 ^ 32

/-- The conversion of an `unsigned int` value to `int` (two's complement wrap-around). -/
def toInt32 (u : Nat) : Int :=
  if u % 2 ^ 32 < 2 ^ 31 then ((u % 2 ^ 32 : Nat) : Int) else ((u % 2 ^ 32 : Nat) : Int) - 2 ^ 32

/-! ## The code structure (graph builder) -/

/-- The structural members of `class MPDecoder`. -/
structure Graph where
  nBit : Nat
  nCheck : Nat
  nEdge : Nat
  idxBit : List Int
  idxCheck : List Int
  degBit : List Nat
  degCheck : List Nat
  idxEdge2Bit : List (List Int)
  idxEdge2Check : List (List Int)
deriving DecidableEq

/-- The body of the loop of `MPDecoder::CalculateDegree` for edge `iEdge`. -/
def CalculateDegree.body (idxLinear : List Nat) (iEdge : Nat) (g : Graph) : Graph :=
  let idxBit := g.idxBit.set iEdge (toInt32 (toUInt32 (idxLinear.getD iEdge 0) / g.nCheck))
  let idxCheck := g.idxCheck.set iEdge (toInt32 (toUInt32 (idxLinear.getD iEdge 0) % g.nCheck))
  let degBit := setAt g.degBit (idxBit.getD iEdge 0) (getAt g.degBit (idxBit.getD iEdge 0) 0 + 1)
  let degCheck :=
    setAt g.degCheck (idxCheck.getD iEdge 0) (getAt g.degCheck (idxCheck.getD iEdge 0) 0 + 1)
  { g with idxBit := idxBit, idxCheck := idxCheck, degBit := degBit, degCheck := degCheck }

/-- The function `MPDecoder::CalculateDegree`: allocate and fill `idxBit`, `idxCheck`, `degBit`,
`degCheck`. -/
def CalculateDegree (g : Graph) (idxLinear : List Nat) : Graph :=
  forLoop g.nEdge (CalculateDegree.body idxLinear)
    { g with
      idxBit := List.replicate g.nEdge (-1)
      idxCheck := List.replicate g.nEdge (-1)
      degBit := List.replicate g.nBit 0
      degCheck := List.replicate g.nCheck 0 }

/-- The two statements of the edge loop of `MPDecoder::BuildEdge` for one side of the graph:
`rows[node][cursor[node]] = iEdge; ++cursor[node];` with `node = idx[iEdge]`. -/
def BuildEdge.step (idx : List Int) (iEdge : Nat) (s : List (List Int) × List Nat) :
    List (List Int) × List Nat :=
  let node := idx.getD iEdge 0
  (setAt s.1 node ((getAt s.1 node []).set (getAt s.2 node 0) (iEdge : Int)),
   setAt s.2 node (getAt s.2 node 0 + 1))

/-- The allocation loop of `MPDecoder::BuildEdge`: row `i` gets `deg[i]` entries, all `-1`. -/
def BuildEdge.alloc (n : Nat) (deg : List Nat) : List (List Int) :=
  forLoop n (fun i rows => rows.set i (List.replicate (deg.getD i 0) (-1))) (List.replicate n [])

/-- The function `MPDecoder::BuildEdge`. -/
def BuildEdge (g : Graph) : Graph :=
  let r := forLoop g.nEdge
    (fun iEdge (s : (List (List Int) × List Nat) × (List (List Int) × List Nat)) =>
      (BuildEdge.step g.idxBit iEdge s.1, BuildEdge.step g.idxCheck iEdge s.2))
    ((BuildEdge.alloc g.nBit g.degBit, List.replicate g.nBit 0),
     (BuildEdge.alloc g.nCheck g.degCheck, List.replicate g.nCheck 0))
  { g with idxEdge2Bit := r.1.1, idxEdge2Check := r.2.1 }

/-- The structural part of the constructor `MPDecoder::MPDecoder`: accept the input, then
`CalculateDegree` and `BuildEdge`. -/
def mkGraph (nBit nCheck nEdge : Nat) (idxLinear : List Nat) : Graph :=
  BuildEdge (CalculateDegree
    { nBit := nBit, nCheck := nCheck, nEdge := nEdge, idxBit := [], idxCheck := [],
      degBit := [], degCheck := [], idxEdge2Bit := [], idxEdge2Check := [] } idxLinear)

/-! ## Doubles and messages -/

/-- The primitive operations the decoder applies to values of type `double`: the literals
`0`, `1`, `2`, `0.5` and `19.07` (`sat`), unary minus, the four arithmetic operations, `tanh`
and `log` of `math.h`, and the comparisons `x < y` and `x <= y` (`y >= x`). -/
structure DoubleOps (D : Type) where
  zero : D
  one : D
  two : D
  half : D
  sat : D
  neg : D → D
  add : D → D → D
  sub : D → D → D
  mul : D → D → D
  div : D → D → D
  tanh : D → D
  log : D → D
  lt : D → D → Bool
  le : D → D → Bool

/-- The five message arrays of `class MPDecoder`. -/
structure Messages (D : Type) where
  msgChannel : List D
  msgBit : List D
  msgCheck : List D
  msgBit2Check : List D
  msgCheck2Bit : List D
deriving DecidableEq

/-- The inline function `atanh` of `MPDecoder.h`, with `19.07` called `sat`. -/
def atanh {D : Type} (ops : DoubleOps D) (x : D) : D :=
  if ops.le x (ops.neg ops.one) then ops.neg ops.sat
  else if ops.le ops.one x then ops.sat
  else ops.mul ops.half (ops.log (ops.div (ops.add ops.one x) (ops.sub ops.one x)))

/-- The function `MPDecoder::InitMessage`. -/
def InitMessage {D : Type} (ops : DoubleOps D) (g : Graph) : Messages D :=
  { msgChannel := List.replicate g.nBit ops.zero
    msgBit := List.replicate g.nBit ops.zero
    msgCheck := List.replicate g.nCheck ops.zero
    msgBit2Check := List.replicate g.nEdge ops.zero
    msgCheck2Bit := List.replicate g.nEdge ops.zero }

/-- The constructor `MPDecoder::MPDecoder`: the graph and its freshly initialised messages. -/
def MPDecoder {D : Type} (ops : DoubleOps D) (nBit nCheck nEdge : Nat) (idxLinear : List Nat) :
    Graph × Messages D :=
  (mkGraph nBit nCheck nEdge idxLinear, InitMessage ops (mkGraph nBit nCheck nEdge idxLinear))

/-- The function `MPDecoder::UpdateChannel`. -/
def UpdateChannel {D : Type} (g : Graph) (m : Messages D) (rxLLR : List D) : Messages D :=
  let msgChannel := memcpy m.msgChannel rxLLR g.nBit
  { m with msgChannel := msgChannel, msgBit := memcpy m.msgBit msgChannel g.nBit }

/-- The function `MPDecoder::UpdateCheck`. -/
def UpdateCheck {D : Type} (ops : DoubleOps D) (g : Graph) (m : Messages D) : Messages D :=
  let msgBit2Check := forLoop g.nEdge (fun iEdge a =>
      a.set iEdge (ops.tanh (ops.div
        (ops.sub (getAt m.msgBit (g.idxBit.getD iEdge 0) ops.zero)
          (m.msgCheck2Bit.getD iEdge ops.zero)) ops.two)))
    m.msgBit2Check
  let msgCheck := forLoop g.nCheck (fun iCheck a =>
      a.set iCheck (forLoop (g.degCheck.getD iCheck 0) (fun iEdge2Check msgCheck_iCheck =>
          ops.mul msgCheck_iCheck
            (getAt msgBit2Check ((g.idxEdge2Check.getD iCheck []).getD iEdge2Check 0) ops.zero))
        ops.one))
    m.msgCheck
  { m with msgBit2Check := msgBit2Check, msgCheck := msgCheck }

/-- The function `MPDecoder::UpdateBit`. -/
def UpdateBit {D : Type} (ops : DoubleOps D) (g : Graph) (m : Messages D) : Messages D :=
  let msgCheck2Bit := forLoop g.nEdge (fun iEdge a =>
      a.set iEdge (ops.mul ops.two (atanh ops (ops.div
        (getAt m.msgCheck (g.idxCheck.getD iEdge 0) ops.zero)
        (m.msgBit2Check.getD iEdge ops.zero)))))
    m.msgCheck2Bit
  let msgBit := forLoop g.nBit (fun iBit a =>
      a.set iBit (forLoop (g.degBit.getD iBit 0) (fun iEdge2Bit msgBit_iBit =>
          ops.add msgBit_iBit
            (getAt msgCheck2Bit ((g.idxEdge2Bit.getD iBit []).getD iEdge2Bit 0) ops.zero))
        (m.msgChannel.getD iBit ops.zero)))
    m.msgBit
  { m with msgCheck2Bit := msgCheck2Bit, msgBit := msgBit }

/-- The function `MPDecoder::HDD`, writing into a buffer of `nBit` entries. -/
def HDD {D : Type} (ops : DoubleOps D) (g : Graph) (m : Messages D) : List Nat :=
  forLoop g.nBit (fun iBit cHat =>
      cHat.set iBit (if ops.lt (m.msgBit.getD iBit ops.zero) ops.zero then 1 else 0))
    (List.replicate g.nBit 0)

/-- The inner loop of `MPDecoder::IsValid`: the value of `parity` for check `iCheck`. -/
def IsValid.parity (g : Graph) (cHat : List Nat) (iCheck : Nat) : Nat :=
  forLoop (g.degCheck.getD iCheck 0) (fun iEdge2Check parity =>
      parity + getAt cHat (getAt g.idxBit ((g.idxEdge2Check.getD iCheck []).getD iEdge2Check 0) 0) 0)
    0

/-- The outer loop of `MPDecoder::IsValid` with `remaining` checks to go, from check `iCheck`. -/
def IsValid.loop (g : Graph) (cHat : List Nat) : Nat → Nat → Bool
  | 0, _ => true
  | remaining + 1, iCheck =>
    if IsValid.parity g cHat iCheck &&& 1 ≠ 0 then false
    else IsValid.loop g cHat remaining (iCheck + 1)

/-- The function `MPDecoder::IsValid`. -/
def IsValid (g : Graph) (cHat : List Nat) : Bool :=
  IsValid.loop g cHat g.nCheck 0

/-- What a call of `MPDecoder::Decode` leaves behind: the two outputs and the message arrays. -/
structure DecodeResult (D : Type) where
  cHat : List Nat
  nIteration : Nat
  msgs : Messages D
deriving DecidableEq

/-- The iteration loop of `MPDecoder::Decode` with `remaining = nIterationMax - *nIteration`
rounds to go. -/
def Decode.loop {D : Type} (ops : DoubleOps D) (g : Graph) :
    Nat → Nat → Messages D → List Nat → DecodeResult D
  | 0, nIteration, m, cHat => { cHat := cHat, nIteration := nIteration, msgs := m }
  | remaining + 1, nIteration, m, _ =>
    let m1 := UpdateCheck ops g m
    let m2 := UpdateBit ops g m1
    let cHat := HDD ops g m2
    if IsValid g cHat then { cHat := cHat, nIteration := nIteration + 1, msgs := m2 }
    else Decode.loop ops g remaining (nIteration + 1) m2 cHat

/-- The statement `memset(msgCheck2Bit, 0, sizeof(double) * nEdge)` of `MPDecoder::Decode`. -/
def clearCheck2Bit {D : Type} (ops : DoubleOps D) (g : Graph) (m : Messages D) : Messages D :=
  { m with msgCheck2Bit := memset m.msgCheck2Bit ops.zero g.nEdge }

/-- The function `MPDecoder::Decode`. -/
def Decode {D : Type} (ops : DoubleOps D) (g : Graph) (m : Messages D) (rxLLR : List D)
    (nIterationMax : Nat) : DecodeResult D :=
  let m0 := UpdateChannel g m rxLLR
  let cHat := HDD ops g m0
  if IsValid g cHat then { cHat := cHat, nIteration := 0, msgs := m0 }
  else Decode.loop ops g nIterationMax 0 (clearCheck2Bit ops g m0) cHat

/-! ## A concrete arithmetic for running the decoder -/

/-- Exact arithmetic in an ordered field `K`, for given functions `tanh` and `log` and a given
saturation value `sat` (the literal `19.07` of `atanh`).  It has no rounding, no underflow, no
NaN and no infinity, so it is not the arithmetic of the program's doubles (that is `f64Ops`
below): it is the arithmetic in which the theorems stated for every `DoubleOps` are run on
concrete numbers. -/
def fieldOps (K : Type) [LinearOrderedField K] (tanh log : K → K) (sat : K) : DoubleOps K where
  zero := 0
  one := 1
  two := 2
  half := 1 / 2
  sat := sat
  neg := fun x => -x
  add := fun x y => x + y
  sub := fun x y => x - y
  mul := fun x y => x * y
  div := fun x y => x / y
  tanh := tanh
  log := log
  lt := fun x y => decide (x < y)
  le := fun x y => decide (x ≤ y)

/-- Exact rational arithmetic.  The transcendental `tanh x` is replaced by the rational sigmoid
`x / (1 + |x|)` and `log y` by `y - 1` for `1 ≤ y`, `(y - 1) / y` below; they keep the sign and
the zero of the functions they replace, and `0.5 * log ((1 + t) / (1 - t))` inverts the sigmoid
exactly, as `atanh` inverts `tanh` over the reals.  A quotient by zero is `0` here, where a
double gives an infinity or a NaN; the runs evaluated in this file never divide by zero. -/
def ratOps : DoubleOps ℚ :=
  fieldOps ℚ (fun x => x / (1 + |x|)) (fun y => if 1 ≤ y then y - 1 else (y - 1) / y)
    (1907 / 100)

/-! ## Doubles with their special values -/

/-- A double without rounding: a rational number, an infinity or a NaN.  The zero carries no
sign. -/
inductive XDouble where
  | nan : XDouble
  | negInf : XDouble
  | posInf : XDouble
  | fin (q : ℚ) : XDouble
deriving DecidableEq

/-- Unary minus of doubles. -/
def XDouble.neg : XDouble → XDouble
  | .nan => .nan
  | .negInf => .posInf
  | .posInf => .negInf
  | .fin q => .fin (-q)

/-- Addition of doubles: a NaN operand, or infinities of opposite signs, give NaN. -/
def XDouble.add : XDouble → XDouble → XDouble
  | .nan, _ => .nan
  | _, .nan => .nan
  | .posInf, .negInf => .nan
  | .negInf, .posInf => .nan
  | .posInf, _ => .posInf
  | _, .posInf => .posInf
  | .negInf, _ => .negInf
  | _, .negInf => .negInf
  | .fin p, .fin q => .fin (p + q)

/-- Subtraction of doubles. -/
def XDouble.sub (x y : XDouble) : XDouble := x.add y.neg

/-- The sign of a double that is not a NaN: `-1`, `0` or `1`. -/
def XDouble.sign : XDouble → Int
  | .nan => 0
  | .negInf => -1
  | .posInf => 1
  | .fin q => if q < 0 then -1 else if q = 0 then 0 else 1

/-- Multiplication of doubles: a NaN operand, or zero times an infinity, give NaN. -/
def XDouble.mul : XDouble → XDouble → XDouble
  | .nan, _ => .nan
  | _, .nan => .nan
  | .fin p, .fin q => .fin (p * q)
  | x, y =>
    if x.sign * y.sign = 0 then .nan else if x.sign * y.sign < 0 then .negInf else .posInf

/-- Division of doubles: a NaN operand, zero by zero, or an infinity by an infinity, give NaN;
a non-zero number by zero gives an infinity. -/
def XDouble.div : XDouble → XDouble → XDouble
  | .nan, _ => .nan
  | _, .nan => .nan
  | .fin p, .fin q =>
    if q = 0 then (if p = 0 then .nan else if p < 0 then .negInf else .posInf) else .fin (p / q)
  | .fin _, _ => .fin 0
  | .posInf, .fin q => if q < 0 then .negInf else .posInf
  | .negInf, .fin q => if q < 0 then .posInf else .negInf
  | _, _ => .nan

/-- The comparison `x <= y` of doubles, false when an operand is a NaN. -/
def XDouble.le : XDouble → XDouble → Bool
  | .nan, _ => false
  | _, .nan => false
  | .negInf, _ => true
  | _, .posInf => true
  | .posInf, _ => false
  | _, .negInf => false
  | .fin p, .fin q => decide (p ≤ q)

/-- The comparison `x < y` of doubles, false when an operand is a NaN. -/
def XDouble.lt : XDouble → XDouble → Bool
  | .nan, _ => false
  | _, .nan => false
  | .negInf, .negInf => false
  | .negInf, _ => true
  | .posInf, _ => false
  | _, .negInf => false
  | .fin _, .posInf => true
  | .fin p, .fin q => decide (p < q)

/-- The doubles with their special values and exact arithmetic on the finite ones.  On finite
arguments `tanh` and `log` are replaced as in `ratOps`; `tanh` of an infinity is `±1`, `log 0`
is `-∞`, `log` of a negative number is a NaN, and a NaN argument gives a NaN. -/
def xdOps : DoubleOps XDouble where
  zero := .fin 0
  one := .fin 1
  two := .fin 2
  half := .fin (1 / 2)
  sat := .fin (1907 / 100)
  neg := XDouble.neg
  add := XDouble.add
  sub := XDouble.sub
  mul := XDouble.mul
  div := XDouble.div
  tanh := fun x =>
    match x with
    | .nan => .nan
    | .negInf => .fin (-1)
    | .posInf => .fin 1
    | .fin q => .fin (q / (1 + |q|))
  log := fun x =>
    match x with
    | .nan => .nan
    | .negInf => .nan
    | .posInf => .posInf
    | .fin q =>
      if q < 0 then .nan else if q = 0 then .negInf
      else .fin (if 1 ≤ q then q - 1 else (q - 1) / q)
  lt := XDouble.lt
  le := XDouble.le

/-! ## Doubles with rounding -/

/-- The binary logarithm of `n ≥ 1` rounded down, by halving: at most `fuel` halvings. -/
def log2f : Nat → Nat → Nat
  | 0, _ => 0
  | fuel + 1, n => if n < 2 then 0 else log2f fuel (n / 2) + 1

/-- The binary logarithm of `n` rounded down, added to `acc`, for `1 ≤ n < 2 ^ (2 ^ j)`: the
binary digits of the result are found from the highest down. -/
def log2aux : Nat → Nat → Nat → Nat
  | 0, _, acc => acc
  | j + 1, n, acc =>
    if 2 ^ (2 ^ j) ≤ n then log2aux j (n / 2 ^ (2 ^ j)) (acc + 2 ^ j) else log2aux j n acc

/-- The binary logarithm of `n ≥ 1` rounded down: `2 ^ k ≤ n < 2 ^ (k + 1)`. -/
def bitLog (n : Nat) : Nat :=
  if n < 2 ^ (2 ^ 16) then log2aux 16 n 0 else log2f n n

/-- The exponent of a positive rational `x`: the integer `e` with `2 ^ e ≤ x < 2 ^ (e + 1)`. -/
def expOf (x : ℚ) : ℤ :=
  if (2 : ℚ) ^ ((bitLog x.num.natAbs : ℤ) - (bitLog x.den : ℤ)) ≤ x
  then (bitLog x.num.natAbs : ℤ) - (bitLog x.den : ℤ)
  else (bitLog x.num.natAbs : ℤ) - (bitLog x.den : ℤ) - 1

/-- Rounding of a rational to the nearest integer, a tie going to the even one. -/
def roundHalfEven (t : ℚ) : ℤ :=
  if t - ⌊t⌋ < 1 / 2 then ⌊t⌋
  else if 1 / 2 < t - ⌊t⌋ then ⌊t⌋ + 1
  else if ⌊t⌋ % 2 = 0 then ⌊t⌋ else ⌊t⌋ + 1

/-- The magnitude `|x|` of a non-zero rational rounded to the binary64 grid: 53 significant
bits, and the spacing `2 ^ (-1074)` of the subnormal numbers below `2 ^ (-1022)`. -/
def roundMag (a : ℚ) : ℚ :=
  (roundHalfEven (a / (2 : ℚ) ^ (max (expOf a) (-1022) - 52)) : ℚ)
    * (2 : ℚ) ^ (max (expOf a) (-1022) - 52)

/-- The IEEE 754 rounding of a real result to binary64, to nearest and ties to even: a result
that rounds to `2 ^ 1024` or beyond in magnitude becomes an infinity. -/
def roundD (x : ℚ) : XDouble :=
  if x = 0 then .fin 0
  else if (2 : ℚ) ^ (1024 : ℤ) ≤ roundMag |x| then (if x < 0 then .negInf else .posInf)
  else .fin (if x < 0 then -roundMag |x| else roundMag |x|)

/-- The rounding of the result of an operation: special values stay. -/
def XDouble.rnd : XDouble → XDouble
  | .fin q => roundD q
  | x => x

/-- The pair `(y ^ n / n !, y + y ^ 2 / 2 + ... + y ^ n / n !)`: the Taylor sum of
`exp y - 1`. -/
def expm1Q (y : ℚ) : Nat → ℚ × ℚ
  | 0 => (1, 0)
  | n + 1 => ((expm1Q y n).1 * y / (n + 1), (expm1Q y n).2 + (expm1Q y n).1 * y / (n + 1))

/-- The number of halvings that bring `y` to at most `1 / 2`, at most `fuel`. -/
def halvings (y : ℚ) : Nat → Nat
  | 0 => 0
  | fuel + 1 => if y ≤ 1 / 2 then 0 else halvings (y / 2) fuel + 1

/-- A non-negative rational cut to 200 binary digits after the point. -/
def cut200 (q : ℚ) : ℚ := (⌊q * 2 ^ 200⌋ : ℚ) / 2 ^ 200

/-- Squaring `k` times, cut to 200 binary digits after every step. -/
def squarings (E : ℚ) : Nat → ℚ
  | 0 => E
  | k + 1 => cut200 (squarings E k * squarings E k)

/-- The hyperbolic tangent of a rational `a ≥ 0` to far more than 53 significant bits: `1` from
`20` on (where `tanh` rounds to `1`), else `(E - 1) / (E + 1)` with `E = exp (2 a)` from the
Taylor sum at `2 a / 2 ^ k ≤ 1 / 2` and `k` squarings. -/
def tanhPos (a : ℚ) : ℚ :=
  if 20 ≤ a then 1
  else if halvings (2 * a) 7 = 0 then (expm1Q (2 * a) 40).2 / ((expm1Q (2 * a) 40).2 + 2)
  else
    (squarings (cut200 (1 + (expm1Q (2 * a / 2 ^ halvings (2 * a) 7) 40).2))
        (halvings (2 * a) 7) - 1)
      / (squarings (cut200 (1 + (expm1Q (2 * a / 2 ^ halvings (2 * a) 7) 40).2))
        (halvings (2 * a) 7) + 1)

/-- The hyperbolic tangent of a rational, an odd function. -/
def tanhQ (q : ℚ) : ℚ := if q < 0 then -tanhPos (-q) else tanhPos q

/-- The sum `z + z ^ 3 / 3 + ... ` of the first `n` terms of the series of `artanh z`. -/
def atanhSeries (z : ℚ) : Nat → ℚ
  | 0 => 0
  | n + 1 => atanhSeries z n + z ^ (2 * n + 1) / (2 * n + 1)

/-- The natural logarithm of 2 to far more than 53 significant bits: `2 artanh (1 / 3)`. -/
def ln2Q : ℚ := 2 * atanhSeries (1 / 3) 45

/-- The natural logarithm of a positive rational `q = 2 ^ e * m`, `1 ≤ m < 2`, to far more than
53 significant bits: `e * ln 2 + 2 artanh ((m - 1) / (m + 1))`. -/
def lnQ (q : ℚ) : ℚ :=
  (expOf q : ℚ) * ln2Q
    + 2 * atanhSeries ((q / (2 : ℚ) ^ expOf q - 1) / (q / (2 : ℚ) ^ expOf q + 1)) 45

/-- The doubles of IEEE 754 binary64: every result of `+`, `-`, `*` and `/` is rounded to
nearest, ties to even, with subnormal numbers, overflow to the infinities and NaN as in
`xdOps`.  The functions `tanh` and `log` of `math.h`, whose last digit the C standard leaves to
the library, are the real functions computed to far more than 53 significant bits and then
rounded to the nearest double.  The zero carries no sign: the decoder compares with `<` and
`<=` only, and a zero divisor meets a zero or NaN numerator after a check update. -/
def f64Ops : DoubleOps XDouble where
  zero := .fin 0
  one := .fin 1
  two := .fin 2
  half := .fin (1 / 2)
  sat := roundD (1907 / 100)
  neg := XDouble.neg
  add := fun x y => (x.add y).rnd
  sub := fun x y => (x.sub y).rnd
  mul := fun x y => (x.mul y).rnd
  div := fun x y => (x.div y).rnd
  tanh := fun x =>
    match x with
    | .nan => .nan
    | .negInf => .fin (-1)
    | .posInf => .fin 1
    | .fin q => roundD (tanhQ q)
  log := fun x =>
    match x with
    | .nan => .nan
    | .negInf => .nan
    | .posInf => .posInf
    | .fin q => if q < 0 then .nan else if q = 0 then .negInf else roundD (lnQ q)
  lt := XDouble.lt
  le := XDouble.le

/-- A double is a NaN or at most `B` in absolute value. -/
def XDouble.within (B : ℚ) : XDouble → Prop
  | .nan => True
  | .negInf => False
  | .posInf => False
  | .fin q => |q| ≤ B

/-! ## Bounds-checked execution

The functions of the graph builder and of the decoder once more, with every array access
checked: the result is `none` as soon as an index lies outside its array. -/

/-- Read `a[i]` for a loop index `i`. -/
def Checked.read {α : Type} (a : List α) (i : Nat) : Option α :=
  a[i]?

/-- Write `a[i] = v` for a loop index `i`. -/
def Checked.write {α : Type} (a : List α) (i : Nat) (v : α) : Option (List α) :=
  if i < a.length then some (a.set i v) else none

/-- Read `a[i]` for an `int` index `i`. -/
def Checked.readAt {α : Type} (a : List α) (i : Int) : Option α :=
  if 0 ≤ i then a[i.toNat]? else none

/-- Write `a[i] = v` for an `int` index `i`. -/
def Checked.writeAt {α : Type} (a : List α) (i : Int) (v : α) : Option (List α) :=
  if 0 ≤ i ∧ i.toNat < a.length then some (a.set i.toNat v) else none

/-- The loop `for (int i = 0; i != n; ++i) s = body(i, s);` with a body that may fail. -/
def Checked.forLoop {σ : Type} (n : Nat) (body : Nat → σ → Option σ) (s : σ) : Option σ :=
  match n with
  | 0 => some s
  | k + 1 => (Checked.forLoop k body s).bind (body k)

/-- The body of the loop of `MPDecoder::CalculateDegree`, bounds-checked. -/
def Checked.CalculateDegree.body (idxLinear : List Nat) (iEdge : Nat) (g : Graph) :
    Option Graph := do
  let x ← Checked.read idxLinear iEdge
  let idxBit ← Checked.write g.idxBit iEdge (toInt32 (toUInt32 x / g.nCheck))
  let idxCheck ← Checked.write g.idxCheck iEdge (toInt32 (toUInt32 x % g.nCheck))
  let idxBit_iEdge ← Checked.read idxBit iEdge
  let degBit_old ← Checked.readAt g.degBit idxBit_iEdge
  let degBit ← Checked.writeAt g.degBit idxBit_iEdge (degBit_old + 1)
  let idxCheck_iEdge ← Checked.read idxCheck iEdge
  let degCheck_old ← Checked.readAt g.degCheck idxCheck_iEdge
  let degCheck ← Checked.writeAt g.degCheck idxCheck_iEdge (degCheck_old + 1)
  pure { g with idxBit := idxBit, idxCheck := idxCheck, degBit := degBit, degCheck := degCheck }

/-- The function `MPDecoder::CalculateDegree`, bounds-checked. -/
def Checked.CalculateDegree (g : Graph) (idxLinear : List Nat) : Option Graph :=
  Checked.forLoop g.nEdge (Checked.CalculateDegree.body idxLinear)
    { g with
      idxBit := List.replicate g.nEdge (-1)
      idxCheck := List.replicate g.nEdge (-1)
      degBit := List.replicate g.nBit 0
      degCheck := List.replicate g.nCheck 0 }

/-- The two statements of the edge loop of `MPDecoder::BuildEdge` for one side of the graph,
bounds-checked: the write `rows[node][cursor[node]] = iEdge` fails when the cursor has reached
the end of the row. -/
def Checked.BuildEdge.step (idx : List Int) (iEdge : Nat) (s : List (List Int) × List Nat) :
    Option (List (List Int) × List Nat) := do
  let node ← Checked.read idx iEdge
  let cursor ← Checked.readAt s.2 node
  let row ← Checked.readAt s.1 node
  let row_new ← Checked.write row cursor (iEdge : Int)
  let rows ← Checked.writeAt s.1 node row_new
  let cursors ← Checked.writeAt s.2 node (cursor + 1)
  pure (rows, cursors)

/-- The allocation loop of `MPDecoder::BuildEdge`, bounds-checked. -/
def Checked.BuildEdge.alloc (n : Nat) (deg : List Nat) : Option (List (List Int)) :=
  Checked.forLoop n (fun i rows => do
      let row ← (do
        let deg_i ← Checked.read deg i
        pure (List.replicate deg_i (-1)))
      Checked.write rows i row)
    (List.replicate n [])

/-- The function `MPDecoder::BuildEdge`, bounds-checked. -/
def Checked.BuildEdge (g : Graph) : Option Graph := do
  let rowsBit ← Checked.BuildEdge.alloc g.nBit g.degBit
  let rowsCheck ← Checked.BuildEdge.alloc g.nCheck g.degCheck
  let r ← Checked.forLoop g.nEdge
    (fun iEdge (s : (List (List Int) × List Nat) × (List (List Int) × List Nat)) => do
      let s1 ← Checked.BuildEdge.step g.idxBit iEdge s.1
      let s2 ← Checked.BuildEdge.step g.idxCheck iEdge s.2
      pure (s1, s2))
    ((rowsBit, List.replicate g.nBit 0), (rowsCheck, List.replicate g.nCheck 0))
  pure { g with idxEdge2Bit := r.1.1, idxEdge2Check := r.2.1 }

/-- The structural part of the constructor `MPDecoder::MPDecoder`, bounds-checked. -/
def Checked.mkGraph (nBit nCheck nEdge : Nat) (idxLinear : List Nat) : Option Graph := do
  let g ← Checked.CalculateDegree
    { nBit := nBit, nCheck := nCheck, nEdge := nEdge, idxBit := [], idxCheck := [],
      degBit := [], degCheck := [], idxEdge2Bit := [], idxEdge2Check := [] } idxLinear
  Checked.BuildEdge g

/-- The call `memcpy(dst, src, sizeof(T) * n)`, bounds-checked on both arrays. -/
def Checked.memcpy {α : Type} (dst src : List α) (n : Nat) : Option (List α) :=
  if n ≤ src.length ∧ n ≤ dst.length then some (MPDec.memcpy dst src n) else none

/-- The call `memset(dst, byte, sizeof(T) * n)`, bounds-checked. -/
def Checked.memset {α : Type} (dst : List α) (v : α) (n : Nat) : Option (List α) :=
  if n ≤ dst.length then some (MPDec.memset dst v n) else none

/-- The function `MPDecoder::UpdateChannel`, bounds-checked. -/
def Checked.UpdateChannel {D : Type} (g : Graph) (m : Messages D) (rxLLR : List D) :
    Option (Messages D) := do
  let msgChannel ← Checked.memcpy m.msgChannel rxLLR g.nBit
  let msgBit ← Checked.memcpy m.msgBit msgChannel g.nBit
  pure { m with msgChannel := msgChannel, msgBit := msgBit }

/-- The function `MPDecoder::UpdateCheck`, bounds-checked. -/
def Checked.UpdateCheck {D : Type} (ops : DoubleOps D) (g : Graph) (m : Messages D) :
    Option (Messages D) := do
  let msgBit2Check ← Checked.forLoop g.nEdge (fun iEdge a => do
      let v ← (do
        let idxBit_iEdge ← Checked.read g.idxBit iEdge
        let x ← Checked.readAt m.msgBit idxBit_iEdge
        let y ← Checked.read m.msgCheck2Bit iEdge
        pure (ops.tanh (ops.div (ops.sub x y) ops.two)))
      Checked.write a iEdge v)
    m.msgBit2Check
  let msgCheck ← Checked.forLoop g.nCheck (fun iCheck a => do
      let v ← (do
        let degCheck_iCheck ← Checked.read g.degCheck iCheck
        let idxEdge2Check_iCheck ← Checked.read g.idxEdge2Check iCheck
        Checked.forLoop degCheck_iCheck (fun iEdge2Check msgCheck_iCheck => do
            let e ← Checked.read idxEdge2Check_iCheck iEdge2Check
            let x ← Checked.readAt msgBit2Check e
            pure (ops.mul msgCheck_iCheck x))
          ops.one)
      Checked.write a iCheck v)
    m.msgCheck
  pure { m with msgBit2Check := msgBit2Check, msgCheck := msgCheck }

/-- The function `MPDecoder::UpdateBit`, bounds-checked. -/
def Checked.UpdateBit {D : Type} (ops : DoubleOps D) (g : Graph) (m : Messages D) :
    Option (Messages D) := do
  let msgCheck2Bit ← Checked.forLoop g.nEdge (fun iEdge a => do
      let v ← (do
        let idxCheck_iEdge ← Checked.read g.idxCheck iEdge
        let x ← Checked.readAt m.msgCheck idxCheck_iEdge
        let y ← Checked.read m.msgBit2Check iEdge
        pure (ops.mul ops.two (atanh ops (ops.div x y))))
      Checked.write a iEdge v)
    m.msgCheck2Bit
  let msgBit ← Checked.forLoop g.nBit (fun iBit a => do
      let v ← (do
        let msgChannel_iBit ← Checked.read m.msgChannel iBit
        let degBit_iBit ← Checked.read g.degBit iBit
        let idxEdge2Bit_iBit ← Checked.read g.idxEdge2Bit iBit
        Checked.forLoop degBit_iBit (fun iEdge2Bit msgBit_iBit => do
            let e ← Checked.read idxEdge2Bit_iBit iEdge2Bit
            let x ← Checked.readAt msgCheck2Bit e
            pure (ops.add msgBit_iBit x))
          msgChannel_iBit)
      Checked.write a iBit v)
    m.msgBit
  pure { m with msgCheck2Bit := msgCheck2Bit, msgBit := msgBit }

/-- The function `MPDecoder::HDD`, bounds-checked. -/
def Checked.HDD {D : Type} (ops : DoubleOps D) (g : Graph) (m : Messages D) :
    Option (List Nat) :=
  Checked.forLoop g.nBit (fun iBit cHat => do
      let v ← (do
        let x ← Checked.read m.msgBit iBit
        pure (if ops.lt x ops.zero then 1 else 0))
      Checked.write cHat iBit v)
    (List.replicate g.nBit 0)

/-- The inner loop of `MPDecoder::IsValid`, bounds-checked. -/
def Checked.IsValid.parity (g : Graph) (cHat : List Nat) (iCheck : Nat) : Option Nat := do
  let degCheck_iCheck ← Checked.read g.degCheck iCheck
  let idxEdge2Check_iCheck ← Checked.read g.idxEdge2Check iCheck
  Checked.forLoop degCheck_iCheck (fun iEdge2Check parity => do
      let e ← Checked.read idxEdge2Check_iCheck iEdge2Check
      let b ← Checked.readAt g.idxBit e
      let x ← Checked.readAt cHat b
      pure (parity + x))
    0

/-- The outer loop of `MPDecoder::IsValid`, bounds-checked. -/
def Checked.IsValid.loop (g : Graph) (cHat : List Nat) : Nat → Nat → Option Bool
  | 0, _ => some true
  | remaining + 1, iCheck =>
    (Checked.IsValid.parity g cHat iCheck).bind fun parity =>
      if parity &&& 1 ≠ 0 then some false
      else Checked.IsValid.loop g cHat remaining (iCheck + 1)

/-- The function `MPDecoder::IsValid`, bounds-checked. -/
def Checked.IsValid (g : Graph) (cHat : List Nat) : Option Bool :=
  Checked.IsValid.loop g cHat g.nCheck 0

/-- The iteration loop of `MPDecoder::Decode`, bounds-checked. -/
def Checked.Decode.loop {D : Type} (ops : DoubleOps D) (g : Graph) :
    Nat → Nat → Messages D → List Nat → Option (DecodeResult D)
  | 0, nIteration, m, cHat => some { cHat := cHat, nIteration := nIteration, msgs := m }
  | remaining + 1, nIteration, m, _ =>
    (Checked.UpdateCheck ops g m).bind fun m1 =>
    (Checked.UpdateBit ops g m1).bind fun m2 =>
    (Checked.HDD ops g m2).bind fun cHat =>
    (Checked.IsValid g cHat).bind fun valid =>
      if valid then some { cHat := cHat, nIteration := nIteration + 1, msgs := m2 }
      else Checked.Decode.loop ops g remaining (nIteration + 1) m2 cHat

/-- The function `MPDecoder::Decode`, bounds-checked. -/
def Checked.Decode {D : Type} (ops : DoubleOps D) (g : Graph) (m : Messages D) (rxLLR : List D)
    (nIterationMax : Nat) : Option (DecodeResult D) :=
  (Checked.UpdateChannel g m rxLLR).bind fun m0 =>
  (Checked.HDD ops g m0).bind fun cHat =>
  (Checked.IsValid g cHat).bind fun valid =>
    if valid then some { cHat := cHat, nIteration := 0, msgs := m0 }
    else
      (Checked.memset m0.msgCheck2Bit ops.zero g.nEdge).bind fun msgCheck2Bit =>
      Checked.Decode.loop ops g nIterationMax 0 { m0 with msgCheck2Bit := msgCheck2Bit } cHat

/-! ## Vocabulary of the specification -/

/-- The edges `e < k` to which `f` assigns node `b`, in increasing order. -/
def edgesAt (f : Nat → Int) (k b : Nat) : List Nat :=
  (List.range k).filter (fun e => decide (f e = (b : Int)))

/-- The entry `CalculateDegree` computes for `idxBit[e]`. -/
def edgeBit (nCheck : Nat) (idxLinear : List Nat) (e : Nat) : Int :=
  toInt32 (toUInt32 (idxLinear.getD e 0) / nCheck)

/-- The entry `CalculateDegree` computes for `idxCheck[e]`. -/
def edgeCheck (nCheck : Nat) (idxLinear : List Nat) (e : Nat) : Int :=
  toInt32 (toUInt32 (idxLinear.getD e 0) % nCheck)

/-- The inputs the constructor accepts: `nBit` and `nCheck` are C `int`s, the edge list has
`nEdge` entries and every entry is a linear index below `nBit * nCheck`. -/
structure ValidInput (nBit nCheck nEdge : Nat) (idxLinear : List Nat) : Prop where
  nBit_int : nBit < 2 ^ 31
  nCheck_int : nCheck < 2 ^ 31
  length_eq : idxLinear.length = nEdge
  index_lt : ∀ e, e < nEdge → idxLinear.getD e 0 < nBit * nCheck

/-- The sum of `cHat[idxBit[e]]` over all edges `e` with `idxCheck[e] = c`. -/
def checkSum (g : Graph) (cHat : List Nat) (c : Nat) : Nat :=
  ((edgesAt (fun e => g.idxCheck.getD e 0) g.nEdge c).map
    (fun e => getAt cHat (g.idxBit.getD e 0) 0)).sum

/-- Every parity check is satisfied: at every check the sum of the incident bits is even. -/
def SatisfiesChecks (g : Graph) (cHat : List Nat) : Prop :=
  ∀ c, c < g.nCheck → checkSum g cHat c % 2 = 0

/-- The adjacency arrays agree with `idxBit` and `idxCheck`: node `i` has as many edges as its
degree says, and its row lists exactly its edges, by increasing edge index. -/
structure Adjacent (g : Graph) : Prop where
  idxBit_length : g.idxBit.length = g.nEdge
  idxCheck_length : g.idxCheck.length = g.nEdge
  degBit_eq : g.degBit = (List.range g.nBit).map
    (fun b => (edgesAt (fun e => g.idxBit.getD e 0) g.nEdge b).length)
  degCheck_eq : g.degCheck = (List.range g.nCheck).map
    (fun c => (edgesAt (fun e => g.idxCheck.getD e 0) g.nEdge c).length)
  idxEdge2Bit_eq : g.idxEdge2Bit = (List.range g.nBit).map
    (fun b => (edgesAt (fun e => g.idxBit.getD e 0) g.nEdge b).map Int.ofNat)
  idxEdge2Check_eq : g.idxEdge2Check = (List.range g.nCheck).map
    (fun c => (edgesAt (fun e => g.idxCheck.getD e 0) g.nEdge c).map Int.ofNat)

/-- The sign-based hard decision of a vector of LLRs: bit `1` iff the LLR is negative. -/
def hardDecision {D : Type} (ops : DoubleOps D) (llr : List D) : List Nat :=
  llr.map (fun x => if ops.lt x ops.zero then 1 else 0)

/-- One round of belief propagation: a check update followed by a bit update. -/
def round {D : Type} (ops : DoubleOps D) (g : Graph) (m : Messages D) : Messages D :=
  UpdateBit ops g (UpdateCheck ops g m)

/-- The sizes with which `InitMessage` allocates the five message arrays. -/
structure MsgShape {D : Type} (g : Graph) (m : Messages D) : Prop where
  msgChannel_length : m.msgChannel.length = g.nBit
  msgBit_length : m.msgBit.length = g.nBit
  msgCheck_length : m.msgCheck.length = g.nCheck
  msgBit2Check_length : m.msgBit2Check.length = g.nEdge
  msgCheck2Bit_length : m.msgCheck2Bit.length = g.nEdge

/-- The messages from which the rounds start: `msgBit = msgChannel = channelLLR` and
`msgCheck2Bit = 0`; `msgCheck` and `msgBit2Check` still hold what the previous call left. -/
def startState {D : Type} (ops : DoubleOps D) (g : Graph) (m : Messages D) (channelLLR : List D) :
    Messages D :=
  { msgChannel := channelLLR
    msgBit := channelLLR
    msgCheck := m.msgCheck
    msgBit2Check := m.msgBit2Check
    msgCheck2Bit := List.replicate g.nEdge ops.zero }

/-- The indices stored in a graph stay inside the arrays they index. -/
structure IndexSafe (g : Graph) : Prop where
  idxBit_length : g.idxBit.length = g.nEdge
  idxCheck_length : g.idxCheck.length = g.nEdge
  degBit_length : g.degBit.length = g.nBit
  degCheck_length : g.degCheck.length = g.nCheck
  idxEdge2Bit_length : g.idxEdge2Bit.length = g.nBit
  idxEdge2Check_length : g.idxEdge2Check.length = g.nCheck
  idxBit_range : ∀ e, e < g.nEdge → 0 ≤ g.idxBit.getD e 0 ∧ (g.idxBit.getD e 0).toNat < g.nBit
  idxCheck_range : ∀ e, e < g.nEdge →
    0 ≤ g.idxCheck.getD e 0 ∧ (g.idxCheck.getD e 0).toNat < g.nCheck
  rowBit_length : ∀ b, b < g.nBit → (g.idxEdge2Bit.getD b []).length = g.degBit.getD b 0
  rowCheck_length : ∀ c, c < g.nCheck → (g.idxEdge2Check.getD c []).length = g.degCheck.getD c 0
  rowBit_range : ∀ b, b < g.nBit → ∀ x ∈ g.idxEdge2Bit.getD b [], 0 ≤ x ∧ x.toNat < g.nEdge
  rowCheck_range : ∀ c, c < g.nCheck → ∀ x ∈ g.idxEdge2Check.getD c [], 0 ≤ x ∧ x.toNat < g.nEdge


/-- The graph as `CalculateDegree` leaves it, before `BuildEdge` runs. -/
def degreeGraph (nBit nCheck nEdge : Nat) (idxLinear : List Nat) : Graph :=
  CalculateDegree
    { nBit := nBit, nCheck := nCheck, nEdge := nEdge, idxBit := [], idxCheck := [],
      degBit := [], degCheck := [], idxEdge2Bit := [], idxEdge2Check := [] } idxLinear

/-- The state of the edge loop of `BuildEdge` when it reaches edge `k`: the adjacency rows and
write cursors of the bit side, then those of the check side. -/
def BuildEdge.loopState (g : Graph) (k : Nat) :
    (List (List Int) × List Nat) × (List (List Int) × List Nat) :=
  forLoop k
    (fun iEdge (s : (List (List Int) × List Nat) × (List (List Int) × List Nat)) =>
      (BuildEdge.step g.idxBit iEdge s.1, BuildEdge.step g.idxCheck iEdge s.2))
    ((BuildEdge.alloc g.nBit g.degBit, List.replicate g.nBit 0),
     (BuildEdge.alloc g.nCheck g.degCheck, List.replicate g.nCheck 0))

/-! ## Loops over tabulated arrays -/

theorem forLoop_succ {σ : Type} (n : Nat) (body : Nat → σ → σ) (s : σ) :
    forLoop (n + 1) body s = body n (forLoop n body s) := rfl

theorem set_map_range {α : Type} (n j : Nat) (F : Nat → α) (v : α) :
    ((List.range n).map F).set j v = (List.range n).map (fun b => if j = b then v else F b) := by
  apply List.ext_getElem
  · simp
  · intro i h1 h2
    simp at h1
    simp [List.getElem_set]

theorem getD_map_range {α : Type} (n b : Nat) (F : Nat → α) (d : α) (h : b < n) :
    ((List.range n).map F).getD b d = F b := by
  rw [List.getD_eq_getElem?_getD, List.getElem?_eq_getElem (by simpa using h)]
  simp

theorem getAt_map_range {α : Type} (n b : Nat) (F : Nat → α) (d : α) (h : b < n) :
    getAt ((List.range n).map F) (b : Int) d = F b := by
  have h0 : (0 : Int) ≤ (b : Int) := Int.ofNat_nonneg b
  unfold getAt
  rw [if_pos h0, Int.toNat_ofNat]
  exact getD_map_range n b F d h

theorem setAt_map_range {α : Type} (n : Nat) (i : Int) (F : Nat → α) (v : α) :
    setAt ((List.range n).map F) i v
      = (List.range n).map (fun (b : Nat) => if i = (b : Int) then v else F b) := by
  unfold setAt
  split
  · rename_i h
    rw [set_map_range]
    apply List.map_congr_left
    intro b _
    have : (i.toNat = b) ↔ (i = (b : Int)) := by omega
    simp [this]
  · rename_i h
    apply List.map_congr_left
    intro b _
    have : ¬ (i = (b : Int)) := by omega
    simp [this]

theorem replicate_eq_map_range {α : Type} (n : Nat) (v : α) :
    List.replicate n v = (List.range n).map (fun _ => v) := by
  apply List.ext_getElem <;> simp

theorem forLoop_set {α : Type} (f : Nat → α) (n : Nat) (l : List α) (h : l.length = n) :
    forLoop n (fun i a => a.set i (f i)) l = (List.range n).map f := by
  have key : ∀ k, k ≤ n → forLoop k (fun i a => a.set i (f i)) l
      = (List.range n).map (fun i => if i < k then f i else l.getD i (f i)) := by
    intro k
    induction k with
    | zero =>
      intro _
      apply List.ext_getElem
      · simp [forLoop, h]
      · intro i h1 h2
        have h3 : i < l.length := by simpa [forLoop] using h1
        simp [forLoop, List.getD_eq_getElem?_getD, List.getElem?_eq_getElem h3]
    | succ k ih =>
      intro hk
      rw [forLoop_succ, ih (by omega), set_map_range]
      apply List.map_congr_left
      intro b _
      by_cases hb : k = b
      · subst hb; simp
      · have : (b < k + 1) ↔ b < k := by omega
        simp [hb, this]
  rw [key n (le_refl n)]
  apply List.map_congr_left
  intro b hb
  simp at hb
  simp [hb]

theorem edgesAt_succ (f : Nat → Int) (k b : Nat) :
    edgesAt f (k + 1) b = edgesAt f k b ++ (if f k = (b : Int) then [k] else []) := by
  unfold edgesAt
  rw [List.range_succ, List.filter_append]
  by_cases h : f k = (b : Int) <;> simp [h]

theorem incr_map_range (n : Nat) (i : Int) (F : Nat → Nat) :
    setAt ((List.range n).map F) i (getAt ((List.range n).map F) i 0 + 1)
      = (List.range n).map (fun (b : Nat) => F b + if i = (b : Int) then 1 else 0) := by
  rw [setAt_map_range]
  apply List.map_congr_left
  intro b hb
  simp at hb
  by_cases h : i = (b : Int)
  · subst h
    simp [getAt_map_range n b F 0 hb]
  · simp [h]

theorem calculateDegree_loop (g0 : Graph) (idxLinear : List Nat) (k : Nat) (hk : k ≤ g0.nEdge) :
    forLoop k (CalculateDegree.body idxLinear)
      { g0 with
        idxBit := List.replicate g0.nEdge (-1)
        idxCheck := List.replicate g0.nEdge (-1)
        degBit := List.replicate g0.nBit 0
        degCheck := List.replicate g0.nCheck 0 }
    = { g0 with
        idxBit := (List.range g0.nEdge).map
          (fun e => if e < k then edgeBit g0.nCheck idxLinear e else -1)
        idxCheck := (List.range g0.nEdge).map
          (fun e => if e < k then edgeCheck g0.nCheck idxLinear e else -1)
        degBit := (List.range g0.nBit).map
          (fun b => (edgesAt (edgeBit g0.nCheck idxLinear) k b).length)
        degCheck := (List.range g0.nCheck).map
          (fun c => (edgesAt (edgeCheck g0.nCheck idxLinear) k c).length) } := by
  induction k with
  | zero =>
    simp only [forLoop, replicate_eq_map_range]
    simp [edgesAt]
  | succ k ih =>
    rw [forLoop_succ, ih (by omega)]
    have hk' : k < g0.nEdge := by omega
    unfold CalculateDegree.body
    simp only [set_map_range]
    rw [getD_map_range _ _ _ _ hk', getD_map_range _ _ _ _ hk']
    rw [incr_map_range, incr_map_range]
    simp only [if_true]
    congr 1
    · apply List.map_congr_left
      intro e _
      by_cases he : k = e
      · subst he; simp [edgeBit]
      · have : (e < k + 1) ↔ e < k := by omega
        simp [he, this]
    · apply List.map_congr_left
      intro e _
      by_cases he : k = e
      · subst he; simp [edgeCheck]
      · have : (e < k + 1) ↔ e < k := by omega
        simp [he, this]
    · apply List.map_congr_left
      intro b _
      rw [edgesAt_succ]
      by_cases hb : edgeBit g0.nCheck idxLinear k = (b : Int)
      · simp [hb, edgeBit] at *; simp [hb]
      · simp [hb, edgeBit] at *; simp [hb]
    · apply List.map_congr_left
      intro b _
      rw [edgesAt_succ]
      by_cases hb : edgeCheck g0.nCheck idxLinear k = (b : Int)
      · simp [hb, edgeCheck] at *; simp [hb]
      · simp [hb, edgeCheck] at *; simp [hb]

theorem calculateDegree_eq (g0 : Graph) (idxLinear : List Nat) :
    CalculateDegree g0 idxLinear
    = { g0 with
        idxBit := (List.range g0.nEdge).map (edgeBit g0.nCheck idxLinear)
        idxCheck := (List.range g0.nEdge).map (edgeCheck g0.nCheck idxLinear)
        degBit := (List.range g0.nBit).map
          (fun b => (edgesAt (edgeBit g0.nCheck idxLinear) g0.nEdge b).length)
        degCheck := (List.range g0.nCheck).map
          (fun c => (edgesAt (edgeCheck g0.nCheck idxLinear) g0.nEdge c).length) } := by
  unfold CalculateDegree
  rw [calculateDegree_loop g0 idxLinear g0.nEdge (le_refl _)]
  congr 1
  · apply List.map_congr_left
    intro e he
    simp at he
    simp [he]
  · apply List.map_congr_left
    intro e he
    simp at he
    simp [he]

theorem edgesAt_length_mono (f : Nat → Int) (b k n : Nat) (h : k ≤ n) :
    (edgesAt f k b).length ≤ (edgesAt f n b).length := by
  induction n with
  | zero =>
    have : k = 0 := by omega
    subst this
    exact le_refl _
  | succ n ih =>
    by_cases hk : k = n + 1
    · subst hk; exact le_refl _
    · have := ih (by omega)
      rw [edgesAt_succ, List.length_append]
      omega

theorem alloc_eq (n : Nat) (deg : List Nat) :
    BuildEdge.alloc n deg = (List.range n).map (fun i => List.replicate (deg.getD i 0) (-1)) := by
  unfold BuildEdge.alloc
  exact forLoop_set _ n _ (by simp)

theorem forLoop_prod {σ τ : Type} (n : Nat) (f : Nat → σ → σ) (g : Nat → τ → τ) (a : σ) (b : τ) :
    forLoop n (fun i (s : σ × τ) => (f i s.1, g i s.2)) (a, b) = (forLoop n f a, forLoop n g b) := by
  induction n with
  | zero => rfl
  | succ n ih => rw [forLoop_succ, ih]; rfl

theorem set_append_replicate (A : List Int) (m : Nat) (v : Int) (h : 0 < m) :
    (A ++ List.replicate m (-1)).set A.length v = (A ++ [v]) ++ List.replicate (m - 1) (-1) := by
  obtain ⟨m', rfl⟩ : ∃ m', m = m' + 1 := ⟨m - 1, by omega⟩
  rw [List.set_append]
  simp [List.replicate_succ]

theorem buildEdge_side (n nEdge : Nat) (f : Nat → Int) (k : Nat) (hk : k ≤ nEdge) :
    forLoop k (BuildEdge.step ((List.range nEdge).map f))
      ((List.range n).map (fun b => List.replicate (edgesAt f nEdge b).length (-1)),
        List.replicate n 0)
    = ((List.range n).map (fun b => (edgesAt f k b).map Int.ofNat
          ++ List.replicate ((edgesAt f nEdge b).length - (edgesAt f k b).length) (-1)),
        (List.range n).map (fun b => (edgesAt f k b).length)) := by
  induction k with
  | zero =>
    simp only [forLoop, replicate_eq_map_range]
    simp [edgesAt]
  | succ k ih =>
    rw [forLoop_succ, ih (by omega)]
    have hk' : k < nEdge := by omega
    unfold BuildEdge.step
    simp only []
    rw [getD_map_range _ _ _ _ hk', setAt_map_range, incr_map_range]
    congr 1
    · apply List.map_congr_left
      intro b hb
      simp at hb
      by_cases h : f k = (b : Int)
      · have hlt : (edgesAt f k b).length < (edgesAt f nEdge b).length := by
          have h1 := edgesAt_length_mono f b (k + 1) nEdge (by omega)
          rw [edgesAt_succ, List.length_append] at h1
          simp [h] at h1
          omega
        rw [if_pos h, h, getAt_map_range _ _ _ _ hb, getAt_map_range _ _ _ _ hb, edgesAt_succ,
          if_pos h]
        have := set_append_replicate ((edgesAt f k b).map Int.ofNat)
          ((edgesAt f nEdge b).length - (edgesAt f k b).length) (k : Int) (by omega)
        rw [List.length_map] at this
        rw [this]
        simp
        rfl
      · rw [if_neg h, edgesAt_succ, if_neg h]
        simp
    · apply List.map_congr_left
      intro b _
      rw [edgesAt_succ]
      by_cases h : f k = (b : Int) <;> simp [h]

/-! ## The graph the constructor builds -/

theorem mkGraph_eq (nBit nCheck nEdge : Nat) (idxLinear : List Nat) :
    mkGraph nBit nCheck nEdge idxLinear
    = { nBit := nBit, nCheck := nCheck, nEdge := nEdge
        idxBit := (List.range nEdge).map (edgeBit nCheck idxLinear)
        idxCheck := (List.range nEdge).map (edgeCheck nCheck idxLinear)
        degBit := (List.range nBit).map
          (fun b => (edgesAt (edgeBit nCheck idxLinear) nEdge b).length)
        degCheck := (List.range nCheck).map
          (fun c => (edgesAt (edgeCheck nCheck idxLinear) nEdge c).length)
        idxEdge2Bit := (List.range nBit).map
          (fun b => (edgesAt (edgeBit nCheck idxLinear) nEdge b).map Int.ofNat)
        idxEdge2Check := (List.range nCheck).map
          (fun c => (edgesAt (edgeCheck nCheck idxLinear) nEdge c).map Int.ofNat) } := by
  have hal : ∀ (n : Nat) (f : Nat → Int),
      BuildEdge.alloc n ((List.range n).map (fun b => (edgesAt f nEdge b).length))
        = (List.range n).map (fun b => List.replicate (edgesAt f nEdge b).length (-1)) := by
    intro n f
    rw [alloc_eq]
    apply List.map_congr_left
    intro b hb
    simp at hb
    rw [getD_map_range _ _ _ _ hb]
  have hfin : ∀ (n : Nat) (f : Nat → Int),
      (List.range n).map (fun b => (edgesAt f nEdge b).map Int.ofNat
          ++ List.replicate ((edgesAt f nEdge b).length - (edgesAt f nEdge b).length) (-1))
        = (List.range n).map (fun b => (edgesAt f nEdge b).map Int.ofNat) := by
    intro n f
    apply List.map_congr_left
    intro b _
    simp
  unfold mkGraph
  rw [calculateDegree_eq]
  unfold BuildEdge
  simp only []
  rw [forLoop_prod, hal, hal, buildEdge_side _ _ _ _ (le_refl _),
    buildEdge_side _ _ _ _ (le_refl _), hfin, hfin]

theorem edgesAt_congr (f g : Nat → Int) (n b : Nat) (h : ∀ e, e < n → f e = g e) :
    edgesAt f n b = edgesAt g n b := by
  unfold edgesAt
  apply List.filter_congr
  intro e he
  simp at he
  rw [h e he]

theorem mkGraph_adjacent (nBit nCheck nEdge : Nat) (idxLinear : List Nat) :
    Adjacent (mkGraph nBit nCheck nEdge idxLinear) := by
  rw [mkGraph_eq]
  have hB : ∀ b, edgesAt (fun e => ((List.range nEdge).map (edgeBit nCheck idxLinear)).getD e 0)
      nEdge b = edgesAt (edgeBit nCheck idxLinear) nEdge b := by
    intro b
    apply edgesAt_congr
    intro e he
    exact getD_map_range _ _ _ _ he
  have hC : ∀ c, edgesAt (fun e => ((List.range nEdge).map (edgeCheck nCheck idxLinear)).getD e 0)
      nEdge c = edgesAt (edgeCheck nCheck idxLinear) nEdge c := by
    intro c
    apply edgesAt_congr
    intro e he
    exact getD_map_range _ _ _ _ he
  constructor <;> simp only [hB, hC] <;> simp

theorem getAt_ofNat {α : Type} (a : List α) (e : Nat) (d : α) :
    getAt a (Int.ofNat e) d = a.getD e d := by
  have h0 : (0 : Int) ≤ Int.ofNat e := Int.ofNat_nonneg e
  unfold getAt
  rw [if_pos h0]
  rfl

theorem forLoop_fold {α β : Type} (op : β → α → β) (l : List α) (d : α) (n : Nat)
    (h : n ≤ l.length) (a : β) :
    forLoop n (fun k acc => op acc (l.getD k d)) a = (l.take n).foldl op a := by
  induction n with
  | zero => simp [forLoop]
  | succ n ih =>
    have hn : n < l.length := by omega
    rw [forLoop_succ, ih (by omega), List.take_succ, List.foldl_append,
      List.getD_eq_getElem?_getD, List.getElem?_eq_getElem hn]
    simp

theorem foldl_add_map (F : Nat → Nat) (l : List Nat) (a : Nat) :
    l.foldl (fun p e => p + F e) a = a + (l.map F).sum := by
  induction l generalizing a with
  | nil => simp
  | cons x xs ih => simp [ih]; omega

theorem parity_eq_checkSum (g : Graph) (hg : Adjacent g) (cHat : List Nat) (c : Nat)
    (hc : c < g.nCheck) : IsValid.parity g cHat c = checkSum g cHat c := by
  unfold IsValid.parity checkSum
  rw [hg.degCheck_eq, hg.idxEdge2Check_eq, getD_map_range _ _ _ _ hc, getD_map_range _ _ _ _ hc]
  generalize edgesAt (fun e => g.idxCheck.getD e 0) g.nEdge c = l
  have := forLoop_fold
    (fun (p : Nat) (x : Int) => p + getAt cHat (getAt g.idxBit x 0) 0)
    (l.map Int.ofNat) 0 l.length (by simp) 0
  rw [this, List.take_of_length_le (by simp), List.foldl_map]
  simp only [getAt_ofNat]
  rw [foldl_add_map]
  simp

theorem isValid_loop_iff (g : Graph) (cHat : List Nat) (r i : Nat) :
    IsValid.loop g cHat r i = true
      ↔ ∀ c, i ≤ c → c < i + r → IsValid.parity g cHat c % 2 = 0 := by
  induction r generalizing i with
  | zero =>
    simp [IsValid.loop]
    intro c h1 h2
    omega
  | succ r ih =>
    unfold IsValid.loop
    by_cases hp : IsValid.parity g cHat i &&& 1 ≠ 0
    · rw [if_pos hp]
      simp
      refine ⟨i, le_refl _, by omega, ?_⟩
      rw [Nat.and_one_is_mod] at hp
      omega
    · rw [if_neg hp, ih]
      rw [Nat.and_one_is_mod] at hp
      constructor
      · intro h c h1 h2
        by_cases hci : c = i
        · subst hci; omega
        · exact h c (by omega) (by omega)
      · intro h c h1 h2
        exact h c (by omega) (by omega)

theorem isValid_iff (g : Graph) (hg : Adjacent g) (cHat : List Nat) :
    IsValid g cHat = true ↔ SatisfiesChecks g cHat := by
  unfold IsValid SatisfiesChecks
  rw [isValid_loop_iff]
  constructor
  · intro h c hc
    rw [← parity_eq_checkSum g hg cHat c hc]
    exact h c (Nat.zero_le _) (by omega)
  · intro h c _ hc
    rw [parity_eq_checkSum g hg cHat c (by omega)]
    exact h c (by omega)

/-! ## Message arrays keep their sizes -/

theorem map_range_getD {α β : Type} (F : α → β) (l : List α) (d : α) (n : Nat)
    (h : l.length = n) : (List.range n).map (fun i => F (l.getD i d)) = l.map F := by
  apply List.ext_getElem
  · simp [h]
  · intro i h1 h2
    have h3 : i < l.length := by simpa using h2
    simp [List.getD_eq_getElem?_getD, List.getElem?_eq_getElem h3]

theorem HDD_eq {D : Type} (ops : DoubleOps D) (g : Graph) (m : Messages D)
    (h : m.msgBit.length = g.nBit) : HDD ops g m = hardDecision ops m.msgBit := by
  unfold HDD hardDecision
  rw [forLoop_set _ _ _ (by simp)]
  exact map_range_getD (fun x => if ops.lt x ops.zero then 1 else 0) m.msgBit ops.zero g.nBit h

theorem memcpy_eq {α : Type} (dst src : List α) (n : Nat) (hd : dst.length = n)
    (hs : src.length = n) : memcpy dst src n = src := by
  unfold memcpy
  rw [List.take_of_length_le (by omega), List.drop_of_length_le (by omega)]
  simp

theorem memset_eq {α : Type} (dst : List α) (v : α) (n : Nat) (hd : dst.length = n) :
    memset dst v n = List.replicate n v := by
  unfold memset
  rw [List.drop_of_length_le (by omega)]
  simp

theorem updateChannel_eq {D : Type} (g : Graph) (m : Messages D) (rxLLR : List D)
    (hm : MsgShape g m) (hrx : rxLLR.length = g.nBit) :
    UpdateChannel g m rxLLR = { m with msgChannel := rxLLR, msgBit := rxLLR } := by
  unfold UpdateChannel
  simp only []
  rw [memcpy_eq _ _ _ hm.msgChannel_length hrx, memcpy_eq _ _ _ hm.msgBit_length hrx]

theorem length_forLoop_set {α : Type} (f : Nat → List α → α) (n : Nat) (l : List α) :
    (forLoop n (fun i a => a.set i (f i a)) l).length = l.length := by
  induction n with
  | zero => rfl
  | succ n ih => rw [forLoop_succ, List.length_set, ih]

theorem msgShape_updateCheck {D : Type} (ops : DoubleOps D) (g : Graph) (m : Messages D)
    (hm : MsgShape g m) : MsgShape g (UpdateCheck ops g m) := by
  unfold UpdateCheck
  constructor
  · exact hm.msgChannel_length
  · exact hm.msgBit_length
  · simp only []
    rw [length_forLoop_set (fun i _ => _)]
    exact hm.msgCheck_length
  · simp only []
    rw [length_forLoop_set (fun i _ => _)]
    exact hm.msgBit2Check_length
  · exact hm.msgCheck2Bit_length

theorem msgShape_updateBit {D : Type} (ops : DoubleOps D) (g : Graph) (m : Messages D)
    (hm : MsgShape g m) : MsgShape g (UpdateBit ops g m) := by
  unfold UpdateBit
  constructor
  · exact hm.msgChannel_length
  · simp only []
    rw [length_forLoop_set (fun i _ => _)]
    exact hm.msgBit_length
  · exact hm.msgCheck_length
  · exact hm.msgBit2Check_length
  · simp only []
    rw [length_forLoop_set (fun i _ => _)]
    exact hm.msgCheck2Bit_length

theorem msgShape_round {D : Type} (ops : DoubleOps D) (g : Graph) (m : Messages D)
    (hm : MsgShape g m) : MsgShape g (round ops g m) :=
  msgShape_updateBit ops g _ (msgShape_updateCheck ops g m hm)

theorem msgShape_iterate {D : Type} (ops : DoubleOps D) (g : Graph) (j : Nat) (m : Messages D)
    (hm : MsgShape g m) : MsgShape g ((round ops g)^[j] m) := by
  induction j generalizing m with
  | zero => exact hm
  | succ j ih =>
    rw [Function.iterate_succ_apply]
    exact ih _ (msgShape_round ops g m hm)

theorem msgShape_initMessage {D : Type} (ops : DoubleOps D) (g : Graph) :
    MsgShape g (InitMessage ops g) := by
  constructor <;> simp [InitMessage]

/-! ## The iteration loop -/

theorem decode_loop_succ {D : Type} (ops : DoubleOps D) (g : Graph) (r it : Nat)
    (m : Messages D) (c : List Nat) :
    Decode.loop ops g (r + 1) it m c
      = if IsValid g (HDD ops g (round ops g m)) then
          { cHat := HDD ops g (round ops g m), nIteration := it + 1, msgs := round ops g m }
        else Decode.loop ops g r (it + 1) (round ops g m) (HDD ops g (round ops g m)) := rfl

theorem decode_loop_stop {D : Type} (ops : DoubleOps D) (g : Graph) (r : Nat) :
    ∀ (it : Nat) (m : Messages D) (c : List Nat) (k : Nat), 1 ≤ k → k ≤ r →
      (∀ j, 1 ≤ j → j < k → IsValid g (HDD ops g ((round ops g)^[j] m)) = false) →
      IsValid g (HDD ops g ((round ops g)^[k] m)) = true →
      Decode.loop ops g r it m c
        = { cHat := HDD ops g ((round ops g)^[k] m), nIteration := it + k,
            msgs := (round ops g)^[k] m } := by
  induction r with
  | zero => intro it m c k h1 h2; omega
  | succ r ih =>
    intro it m c k h1 h2 hb hk
    rw [decode_loop_succ]
    by_cases hk1 : k = 1
    · subst hk1
      rw [Function.iterate_one] at hk
      rw [if_pos hk, Function.iterate_one]
    · obtain ⟨k', rfl⟩ : ∃ k', k = k' + 1 := ⟨k - 1, by omega⟩
      have h1' := hb 1 (le_refl _) (by omega)
      rw [Function.iterate_one] at h1'
      rw [h1']
      simp only [Bool.false_eq_true, if_false]
      rw [Function.iterate_succ_apply] at hk
      rw [ih (it + 1) (round ops g m) (HDD ops g (round ops g m)) k' (by omega) (by omega)
        (fun j hj1 hj2 => by
          have := hb (j + 1) (by omega) (by omega)
          rwa [Function.iterate_succ_apply] at this) hk]
      rw [Function.iterate_succ_apply]
      congr 1
      omega

theorem decode_loop_exhaust {D : Type} (ops : DoubleOps D) (g : Graph) (r : Nat) :
    ∀ (it : Nat) (m : Messages D) (c : List Nat),
      (∀ j, 1 ≤ j → j ≤ r → IsValid g (HDD ops g ((round ops g)^[j] m)) = false) →
      Decode.loop ops g r it m c
        = { cHat := if r = 0 then c else HDD ops g ((round ops g)^[r] m), nIteration := it + r,
            msgs := (round ops g)^[r] m } := by
  induction r with
  | zero => intro it m c _; rfl
  | succ r ih =>
    intro it m c hb
    rw [decode_loop_succ]
    have h1' := hb 1 (le_refl _) (by omega)
    rw [Function.iterate_one] at h1'
    rw [h1']
    simp only [Bool.false_eq_true, if_false]
    rw [ih (it + 1) (round ops g m) (HDD ops g (round ops g m))
      (fun j hj1 hj2 => by
        have := hb (j + 1) (by omega) (by omega)
        rwa [Function.iterate_succ_apply] at this)]
    congr 1
    · by_cases hr : r = 0
      · subst hr; simp
      · simp [hr, Function.iterate_succ_apply]
    · omega

theorem decode_loop_spec {D : Type} (ops : DoubleOps D) (g : Graph) (r : Nat) :
    ∀ (it : Nat) (m : Messages D) (c : List Nat),
      ∃ j, j ≤ r ∧ (Decode.loop ops g r it m c).nIteration = it + j
        ∧ (Decode.loop ops g r it m c).msgs = (round ops g)^[j] m
        ∧ (Decode.loop ops g r it m c).cHat
            = (if j = 0 then c else HDD ops g ((round ops g)^[j] m))
        ∧ (j < r → IsValid g (Decode.loop ops g r it m c).cHat = true) := by
  induction r with
  | zero =>
    intro it m c
    exact ⟨0, le_refl _, rfl, rfl, rfl, fun h => absurd h (by omega)⟩
  | succ r ih =>
    intro it m c
    rw [decode_loop_succ]
    by_cases hv : IsValid g (HDD ops g (round ops g m)) = true
    · rw [if_pos hv]
      exact ⟨1, by omega, rfl, rfl, rfl, fun _ => hv⟩
    · rw [if_neg hv]
      obtain ⟨j, hj, h1, h2, h3, h4⟩ := ih (it + 1) (round ops g m) (HDD ops g (round ops g m))
      refine ⟨j + 1, by omega, by omega, ?_, ?_, fun h => h4 (by omega)⟩
      · rw [h2, Function.iterate_succ_apply]
      · rw [h3, Function.iterate_succ_apply]
        by_cases hj0 : j = 0
        · subst hj0; simp
        · simp [hj0]

/-! ## The first steps of a decode call -/

theorem decode_eq {D : Type} (ops : DoubleOps D) (g : Graph) (m : Messages D) (rxLLR : List D)
    (nIterationMax : Nat) (hm : MsgShape g m) (hrx : rxLLR.length = g.nBit) :
    Decode ops g m rxLLR nIterationMax
      = if IsValid g (hardDecision ops rxLLR) then
          { cHat := hardDecision ops rxLLR, nIteration := 0,
            msgs := { m with msgChannel := rxLLR, msgBit := rxLLR } }
        else Decode.loop ops g nIterationMax 0 (startState ops g m rxLLR)
          (hardDecision ops rxLLR) := by
  unfold Decode clearCheck2Bit
  simp only []
  rw [updateChannel_eq g m rxLLR hm hrx, HDD_eq ops g _ (by exact hrx),
    memset_eq _ _ _ (by exact hm.msgCheck2Bit_length)]
  rfl

theorem msgShape_startState {D : Type} (ops : DoubleOps D) (g : Graph) (m : Messages D)
    (rxLLR : List D) (hm : MsgShape g m) (hrx : rxLLR.length = g.nBit) :
    MsgShape g (startState ops g m rxLLR) := by
  constructor
  · exact hrx
  · exact hrx
  · exact hm.msgCheck_length
  · exact hm.msgBit2Check_length
  · simp [startState]

theorem HDD_iterate {D : Type} (ops : DoubleOps D) (g : Graph) (m : Messages D) (rxLLR : List D)
    (hm : MsgShape g m) (hrx : rxLLR.length = g.nBit) (j : Nat) :
    HDD ops g ((round ops g)^[j] (startState ops g m rxLLR))
      = hardDecision ops ((round ops g)^[j] (startState ops g m rxLLR)).msgBit :=
  HDD_eq ops g _ (msgShape_iterate ops g j _ (msgShape_startState ops g m rxLLR hm hrx)).msgBit_length

theorem updateCheck_congr {D : Type} (ops : DoubleOps D) (g : Graph) (m m' : Messages D)
    (h1 : m.msgChannel = m'.msgChannel) (h2 : m.msgBit = m'.msgBit)
    (h3 : m.msgCheck2Bit = m'.msgCheck2Bit)
    (h4 : m.msgBit2Check.length = g.nEdge) (h4' : m'.msgBit2Check.length = g.nEdge)
    (h5 : m.msgCheck.length = g.nCheck) (h5' : m'.msgCheck.length = g.nCheck) :
    UpdateCheck ops g m = UpdateCheck ops g m' := by
  unfold UpdateCheck
  simp only []
  rw [forLoop_set _ _ _ h4, forLoop_set _ _ _ h4', forLoop_set _ _ _ h5, forLoop_set _ _ _ h5',
    h1, h2, h3]

theorem HDD_congr {D : Type} (ops : DoubleOps D) (g : Graph) (m m' : Messages D)
    (h : m.msgBit = m'.msgBit) : HDD ops g m = HDD ops g m' := by
  unfold HDD
  rw [h]

/-! ## The decode controller -/

theorem decode_isValid_of_lt {D : Type} (ops : DoubleOps D) (g : Graph) (m : Messages D)
    (rxLLR : List D) (nIterationMax : Nat)
    (h : (Decode ops g m rxLLR nIterationMax).nIteration < nIterationMax) :
    IsValid g (Decode ops g m rxLLR nIterationMax).cHat = true := by
  unfold Decode at h ⊢
  simp only [] at h ⊢
  by_cases hv : IsValid g (HDD ops g (UpdateChannel g m rxLLR)) = true
  · rw [if_pos hv]
    exact hv
  · rw [if_neg hv] at h ⊢
    obtain ⟨j, _, h1, _, _, h4⟩ := decode_loop_spec ops g nIterationMax 0
      (clearCheck2Bit ops g (UpdateChannel g m rxLLR)) (HDD ops g (UpdateChannel g m rxLLR))
    exact h4 (by omega)

/-- C1. Validity on termination: for every graph the constructor builds, every prior content of
the message arrays, every LLR vector and every iteration budget, when `Decode` reports fewer
iterations than the budget, the codeword it returns satisfies every parity check: at every
check the sum of `cHat[idxBit[e]]` over the edges `e` with `idxCheck[e] = c` is even. -/
theorem decode_valid_on_early_termination {D : Type} (ops : DoubleOps D)
    (nBit nCheck nEdge : Nat) (idxLinear : List Nat) (m : Messages D) (rxLLR : List D)
    (nIterationMax : Nat)
    (h : (Decode ops (mkGraph nBit nCheck nEdge idxLinear) m rxLLR nIterationMax).nIteration
      < nIterationMax) :
    SatisfiesChecks (mkGraph nBit nCheck nEdge idxLinear)
      (Decode ops (mkGraph nBit nCheck nEdge idxLinear) m rxLLR nIterationMax).cHat :=
  (isValid_iff _ (mkGraph_adjacent nBit nCheck nEdge idxLinear) _).mp
    (decode_isValid_of_lt ops _ m rxLLR nIterationMax h)

/-- C1, at the (3, 1) repetition code with LLRs `4 4 -4` and a budget of ten rounds. -/
theorem decode_valid_on_early_termination_witness :
    (Decode ratOps (mkGraph 3 2 4 [0, 1, 2, 5]) (InitMessage ratOps (mkGraph 3 2 4 [0, 1, 2, 5]))
        [4, 4, -4] 10).nIteration < 10
    ∧ SatisfiesChecks (mkGraph 3 2 4 [0, 1, 2, 5])
      (Decode ratOps (mkGraph 3 2 4 [0, 1, 2, 5])
        (InitMessage ratOps (mkGraph 3 2 4 [0, 1, 2, 5])) [4, 4, -4] 10).cHat :=
  ⟨by decide!, decode_valid_on_early_termination ratOps 3 2 4 [0, 1, 2, 5] _ [4, 4, -4] 10
    (by decide!)⟩

/-- C2. Iteration count on convergence: when the hard decision of the channel LLRs is not valid
and round `k`, with `1 ≤ k ≤ nIterationMax`, is the first round after which the hard decision
of `msgBit` is valid, the rounds starting from `msgBit = msgChannel = channelLLR` and
`msgCheck2Bit = 0`, then `Decode` reports `k` iterations and returns the hard decision taken
after exactly `k` rounds. -/
theorem decode_stops_at_first_valid_round {D : Type} (ops : DoubleOps D) (g : Graph)
    (m : Messages D) (channelLLR : List D) (nIterationMax k : Nat)
    (hm : MsgShape g m) (hrx : channelLLR.length = g.nBit)
    (h0 : IsValid g (hardDecision ops channelLLR) = false)
    (hk1 : 1 ≤ k) (hk2 : k ≤ nIterationMax)
    (hbefore : ∀ j, 1 ≤ j → j < k →
      IsValid g (hardDecision ops ((round ops g)^[j] (startState ops g m channelLLR)).msgBit)
        = false)
    (hk : IsValid g (hardDecision ops ((round ops g)^[k] (startState ops g m channelLLR)).msgBit)
      = true) :
    (Decode ops g m channelLLR nIterationMax).nIteration = k
    ∧ (Decode ops g m channelLLR nIterationMax).cHat
      = hardDecision ops ((round ops g)^[k] (startState ops g m channelLLR)).msgBit := by
  rw [decode_eq ops g m channelLLR nIterationMax hm hrx, h0]
  simp only [Bool.false_eq_true, if_false]
  rw [decode_loop_stop ops g nIterationMax 0 _ _ k hk1 hk2
    (fun j hj1 hj2 => by rw [HDD_iterate ops g m channelLLR hm hrx]; exact hbefore j hj1 hj2)
    (by rw [HDD_iterate ops g m channelLLR hm hrx]; exact hk)]
  exact ⟨by simp, HDD_iterate ops g m channelLLR hm hrx k⟩

/-- C2, at the (3, 1) repetition code with LLRs `1 1 -4`: the hard decision is first valid
after round 2. -/
theorem decode_stops_at_first_valid_round_witness :
    (Decode ratOps (mkGraph 3 2 4 [0, 1, 2, 5]) (InitMessage ratOps (mkGraph 3 2 4 [0, 1, 2, 5]))
        [1, 1, -4] 10).nIteration = 2
    ∧ (Decode ratOps (mkGraph 3 2 4 [0, 1, 2, 5])
        (InitMessage ratOps (mkGraph 3 2 4 [0, 1, 2, 5])) [1, 1, -4] 10).cHat
      = hardDecision ratOps ((round ratOps (mkGraph 3 2 4 [0, 1, 2, 5]))^[2]
          (startState ratOps (mkGraph 3 2 4 [0, 1, 2, 5])
            (InitMessage ratOps (mkGraph 3 2 4 [0, 1, 2, 5])) [1, 1, -4])).msgBit :=
  decode_stops_at_first_valid_round ratOps (mkGraph 3 2 4 [0, 1, 2, 5])
    (InitMessage ratOps (mkGraph 3 2 4 [0, 1, 2, 5])) [1, 1, -4] 10 2
    (msgShape_initMessage ratOps _) (by decide) (by decide!) (by decide) (by decide)
    (fun j hj1 hj2 => by
      have hj : j = 1 := by omega
      subst hj
      decide!)
    (by decide!)

/-- C3. Non-convergence is a normal outcome: when neither the hard decision of the channel LLRs
nor the hard decision after any of the rounds `1 .. nIterationMax` is valid, `Decode` reports
`nIterationMax` iterations and returns the hard decision after the last round (that of the
channel LLRs when `nIterationMax = 0`); `Decode` is a total function, it raises nothing. -/
theorem decode_reports_budget_when_never_valid {D : Type} (ops : DoubleOps D) (g : Graph)
    (m : Messages D) (channelLLR : List D) (nIterationMax : Nat)
    (hm : MsgShape g m) (hrx : channelLLR.length = g.nBit)
    (h0 : IsValid g (hardDecision ops channelLLR) = false)
    (hnever : ∀ j, 1 ≤ j → j ≤ nIterationMax →
      IsValid g (hardDecision ops ((round ops g)^[j] (startState ops g m channelLLR)).msgBit)
        = false) :
    (Decode ops g m channelLLR nIterationMax).nIteration = nIterationMax
    ∧ (Decode ops g m channelLLR nIterationMax).cHat
      = hardDecision ops ((round ops g)^[nIterationMax] (startState ops g m channelLLR)).msgBit := by
  rw [decode_eq ops g m channelLLR nIterationMax hm hrx, h0]
  simp only [Bool.false_eq_true, if_false]
  rw [decode_loop_exhaust ops g nIterationMax 0 _ _
    (fun j hj1 hj2 => by rw [HDD_iterate ops g m channelLLR hm hrx]; exact hnever j hj1 hj2)]
  refine ⟨by simp, ?_⟩
  by_cases hz : nIterationMax = 0
  · subst hz
    simp [startState]
  · simp only [hz, if_false]
    exact HDD_iterate ops g m channelLLR hm hrx nIterationMax

/-- C3, at the graph with one bit, one check and one edge, with LLR `-100` and a budget of three
rounds: the bit stays `1` and the check stays unsatisfied. -/
theorem decode_reports_budget_when_never_valid_witness :
    (Decode ratOps (mkGraph 1 1 1 [0]) (InitMessage ratOps (mkGraph 1 1 1 [0]))
        [-100] 3).nIteration = 3
    ∧ (Decode ratOps (mkGraph 1 1 1 [0]) (InitMessage ratOps (mkGraph 1 1 1 [0])) [-100] 3).cHat
      = hardDecision ratOps ((round ratOps (mkGraph 1 1 1 [0]))^[3]
          (startState ratOps (mkGraph 1 1 1 [0])
            (InitMessage ratOps (mkGraph 1 1 1 [0])) [-100])).msgBit :=
  decode_reports_budget_when_never_valid ratOps (mkGraph 1 1 1 [0])
    (InitMessage ratOps (mkGraph 1 1 1 [0])) [-100] 3
    (msgShape_initMessage ratOps _) (by decide) (by decide!)
    (fun j hj1 hj2 => by
      have hj : j = 1 ∨ j = 2 ∨ j = 3 := by omega
      rcases hj with rfl | rfl | rfl <;> decide!)

/-- C4. Zero-iteration shortcut: for every graph the constructor builds and every iteration
budget, when the sign-based hard decision of the channel LLRs (bit `1` iff the LLR is negative)
satisfies every parity check, `Decode` reports `0` iterations, returns that hard decision, and
leaves `msgCheck`, `msgBit2Check` and `msgCheck2Bit` as they were: only the channel LLRs have
been loaded, no check update and no bit update has run. -/
theorem decode_zero_iteration_shortcut {D : Type} (ops : DoubleOps D)
    (nBit nCheck nEdge : Nat) (idxLinear : List Nat) (m : Messages D) (channelLLR : List D)
    (nIterationMax : Nat)
    (hm : MsgShape (mkGraph nBit nCheck nEdge idxLinear) m)
    (hrx : channelLLR.length = nBit)
    (h : SatisfiesChecks (mkGraph nBit nCheck nEdge idxLinear) (hardDecision ops channelLLR)) :
    Decode ops (mkGraph nBit nCheck nEdge idxLinear) m channelLLR nIterationMax
      = { cHat := hardDecision ops channelLLR, nIteration := 0,
          msgs := { m with msgChannel := channelLLR, msgBit := channelLLR } } := by
  have hn : (mkGraph nBit nCheck nEdge idxLinear).nBit = nBit := by rw [mkGraph_eq]
  rw [decode_eq ops _ m channelLLR nIterationMax hm (by rw [hn]; exact hrx),
    if_pos ((isValid_iff _ (mkGraph_adjacent nBit nCheck nEdge idxLinear) _).mpr h)]

/-- C4, at the (3, 1) repetition code with LLRs `4 4 4`. -/
theorem decode_zero_iteration_shortcut_witness :
    Decode ratOps (mkGraph 3 2 4 [0, 1, 2, 5]) (InitMessage ratOps (mkGraph 3 2 4 [0, 1, 2, 5]))
        [4, 4, 4] 10
      = { cHat := hardDecision ratOps [4, 4, 4], nIteration := 0,
          msgs := { InitMessage ratOps (mkGraph 3 2 4 [0, 1, 2, 5]) with
            msgChannel := [4, 4, 4], msgBit := [4, 4, 4] } } :=
  decode_zero_iteration_shortcut ratOps 3 2 4 [0, 1, 2, 5]
    (InitMessage ratOps (mkGraph 3 2 4 [0, 1, 2, 5])) [4, 4, 4] 10
    (msgShape_initMessage ratOps _) (by decide)
    (by unfold SatisfiesChecks; decide!)

/-- C5. Budget respect and termination: `Decode` is a total function; the iteration count it
reports is at most `nIterationMax`, and the message arrays it leaves are those obtained from
the loaded channel LLRs by exactly that many rounds (none at all on the zero-iteration
shortcut, where not even `msgCheck2Bit` is cleared). -/
theorem decode_respects_budget {D : Type} (ops : DoubleOps D) (g : Graph) (m : Messages D)
    (rxLLR : List D) (nIterationMax : Nat) :
    (Decode ops g m rxLLR nIterationMax).nIteration ≤ nIterationMax
    ∧ (((Decode ops g m rxLLR nIterationMax).nIteration = 0
        ∧ (Decode ops g m rxLLR nIterationMax).msgs = UpdateChannel g m rxLLR)
      ∨ (Decode ops g m rxLLR nIterationMax).msgs
        = (round ops g)^[(Decode ops g m rxLLR nIterationMax).nIteration]
            (clearCheck2Bit ops g (UpdateChannel g m rxLLR))) := by
  unfold Decode
  simp only []
  by_cases hv : IsValid g (HDD ops g (UpdateChannel g m rxLLR)) = true
  · rw [if_pos hv]
    exact ⟨Nat.zero_le _, Or.inl ⟨rfl, rfl⟩⟩
  · rw [if_neg hv]
    obtain ⟨j, hj, h1, h2, _, _⟩ := decode_loop_spec ops g nIterationMax 0
      (clearCheck2Bit ops g (UpdateChannel g m rxLLR)) (HDD ops g (UpdateChannel g m rxLLR))
    refine ⟨by omega, Or.inr ?_⟩
    rw [h2, h1, Nat.zero_add]

theorem memcpy_congr {α : Type} (dst dst' src : List α) (n : Nat) (hd : dst.length = n)
    (hd' : dst'.length = n) : memcpy dst src n = memcpy dst' src n := by
  unfold memcpy
  rw [List.drop_of_length_le (by omega), List.drop_of_length_le (by omega)]

theorem decode_loop_congr {D : Type} (ops : DoubleOps D) (g : Graph) (r it : Nat)
    (m m' : Messages D) (c : List Nat)
    (h1 : m.msgChannel = m'.msgChannel) (h2 : m.msgBit = m'.msgBit)
    (h3 : m.msgCheck2Bit = m'.msgCheck2Bit)
    (h4 : m.msgBit2Check.length = g.nEdge) (h4' : m'.msgBit2Check.length = g.nEdge)
    (h5 : m.msgCheck.length = g.nCheck) (h5' : m'.msgCheck.length = g.nCheck) :
    (Decode.loop ops g r it m c).cHat = (Decode.loop ops g r it m' c).cHat
    ∧ (Decode.loop ops g r it m c).nIteration = (Decode.loop ops g r it m' c).nIteration := by
  cases r with
  | zero => exact ⟨rfl, rfl⟩
  | succ r =>
    have hr : round ops g m = round ops g m' := by
      unfold round
      rw [updateCheck_congr ops g m m' h1 h2 h3 h4 h4' h5 h5']
    rw [decode_loop_succ, decode_loop_succ, hr]
    exact ⟨rfl, rfl⟩

theorem msgShape_decode {D : Type} (ops : DoubleOps D) (g : Graph) (m : Messages D)
    (rxLLR : List D) (nIterationMax : Nat) (hm : MsgShape g m) (hrx : rxLLR.length = g.nBit) :
    MsgShape g (Decode ops g m rxLLR nIterationMax).msgs := by
  rw [decode_eq ops g m rxLLR nIterationMax hm hrx]
  by_cases hv : IsValid g (hardDecision ops rxLLR) = true
  · rw [if_pos hv]
    exact ⟨hrx, hrx, hm.msgCheck_length, hm.msgBit2Check_length, hm.msgCheck2Bit_length⟩
  · rw [if_neg hv]
    obtain ⟨j, _, _, h2, _, _⟩ := decode_loop_spec ops g nIterationMax 0
      (startState ops g m rxLLR) (hardDecision ops rxLLR)
    rw [h2]
    exact msgShape_iterate ops g j _ (msgShape_startState ops g m rxLLR hm hrx)

/-- C6. Determinism, no leakage between calls: for a fixed graph, fixed channel LLRs and a fixed
iteration budget, `Decode` returns the same codeword and the same iteration count whatever the
five message arrays (of the sizes the constructor allocates) held before the call. -/
theorem decode_independent_of_prior_messages {D : Type} (ops : DoubleOps D) (g : Graph)
    (m m' : Messages D) (rxLLR : List D) (nIterationMax : Nat)
    (hm : MsgShape g m) (hm' : MsgShape g m') :
    (Decode ops g m rxLLR nIterationMax).cHat = (Decode ops g m' rxLLR nIterationMax).cHat
    ∧ (Decode ops g m rxLLR nIterationMax).nIteration
      = (Decode ops g m' rxLLR nIterationMax).nIteration := by
  have hc : (UpdateChannel g m rxLLR).msgChannel = (UpdateChannel g m' rxLLR).msgChannel :=
    memcpy_congr _ _ _ _ hm.msgChannel_length hm'.msgChannel_length
  have hb : (UpdateChannel g m rxLLR).msgBit = (UpdateChannel g m' rxLLR).msgBit := by
    show memcpy m.msgBit (memcpy m.msgChannel rxLLR g.nBit) g.nBit
      = memcpy m'.msgBit (memcpy m'.msgChannel rxLLR g.nBit) g.nBit
    rw [memcpy_congr m.msgChannel m'.msgChannel rxLLR g.nBit hm.msgChannel_length
      hm'.msgChannel_length]
    exact memcpy_congr _ _ _ _ hm.msgBit_length hm'.msgBit_length
  have hh : HDD ops g (UpdateChannel g m rxLLR) = HDD ops g (UpdateChannel g m' rxLLR) :=
    HDD_congr ops g _ _ hb
  unfold Decode
  simp only []
  rw [hh]
  by_cases hv : IsValid g (HDD ops g (UpdateChannel g m' rxLLR)) = true
  · rw [if_pos hv, if_pos hv]
    exact ⟨rfl, rfl⟩
  · rw [if_neg hv, if_neg hv]
    apply decode_loop_congr
    · exact hc
    · exact hb
    · show memset m.msgCheck2Bit ops.zero g.nEdge = memset m'.msgCheck2Bit ops.zero g.nEdge
      rw [memset_eq _ _ _ hm.msgCheck2Bit_length, memset_eq _ _ _ hm'.msgCheck2Bit_length]
    · exact hm.msgBit2Check_length
    · exact hm'.msgBit2Check_length
    · exact hm.msgCheck_length
    · exact hm'.msgCheck_length

/-- C6, at the (3, 1) repetition code: an instance that has already decoded `1 1 -4` returns
for `4 4 -4` what a freshly constructed instance returns. -/
theorem decode_independent_of_prior_messages_witness :
    (Decode ratOps (mkGraph 3 2 4 [0, 1, 2, 5])
        (Decode ratOps (mkGraph 3 2 4 [0, 1, 2, 5])
          (InitMessage ratOps (mkGraph 3 2 4 [0, 1, 2, 5])) [1, 1, -4] 10).msgs
        [4, 4, -4] 10).cHat
      = (Decode ratOps (mkGraph 3 2 4 [0, 1, 2, 5])
          (InitMessage ratOps (mkGraph 3 2 4 [0, 1, 2, 5])) [4, 4, -4] 10).cHat
    ∧ (Decode ratOps (mkGraph 3 2 4 [0, 1, 2, 5])
        (Decode ratOps (mkGraph 3 2 4 [0, 1, 2, 5])
          (InitMessage ratOps (mkGraph 3 2 4 [0, 1, 2, 5])) [1, 1, -4] 10).msgs
        [4, 4, -4] 10).nIteration
      = (Decode ratOps (mkGraph 3 2 4 [0, 1, 2, 5])
          (InitMessage ratOps (mkGraph 3 2 4 [0, 1, 2, 5])) [4, 4, -4] 10).nIteration :=
  decode_independent_of_prior_messages ratOps (mkGraph 3 2 4 [0, 1, 2, 5]) _ _ [4, 4, -4] 10
    (msgShape_decode ratOps _ _ [1, 1, -4] 10 (msgShape_initMessage ratOps _) (by decide))
    (msgShape_initMessage ratOps _)

/-! ## The graph builder -/

theorem toInt32_of_lt (u : Nat) (h : u < 2 ^ 31) : toInt32 u = (u : Int) := by
  unfold toInt32
  have h1 : u % 2 ^ 32 = u := Nat.mod_eq_of_lt (by omega)
  rw [h1, if_pos h]

theorem mkGraph_idxBit_getD (nBit nCheck nEdge : Nat) (idxLinear : List Nat) (e : Nat)
    (he : e < nEdge) :
    (mkGraph nBit nCheck nEdge idxLinear).idxBit.getD e 0 = edgeBit nCheck idxLinear e := by
  rw [mkGraph_eq]
  exact getD_map_range _ _ _ _ he

theorem mkGraph_idxCheck_getD (nBit nCheck nEdge : Nat) (idxLinear : List Nat) (e : Nat)
    (he : e < nEdge) :
    (mkGraph nBit nCheck nEdge idxLinear).idxCheck.getD e 0 = edgeCheck nCheck idxLinear e := by
  rw [mkGraph_eq]
  exact getD_map_range _ _ _ _ he

/-- C7 as stated fails: with `nCheck = 1` and the linear index `2 ^ 31`, which is below
`2 ^ 32`, the quotient `2 ^ 31` does not fit the `int` entry `idxBit[0]`, which becomes
`-2 ^ 31`. -/
theorem edge_decoding_counterexample :
    0 < 1 ∧ [2147483648].getD 0 0 < 2 ^ 32
    ∧ (mkGraph 1 1 1 [2147483648]).idxBit.getD 0 0 = -2147483648
    ∧ (mkGraph 1 1 1 [2147483648]).idxBit.getD 0 0 ≠ (([2147483648].getD 0 0 / 1 : Nat) : Int) := by
  decide

/-- C7, amended. Edge decoding: for an `int` `nCheck > 0` and every edge `e` whose linear index
is below `2 ^ 32` and whose quotient by `nCheck` fits an `int` (it is below `2 ^ 31`), the graph
builder sets `idxBit[e] = idxLinear[e] div nCheck` and `idxCheck[e] = idxLinear[e] mod nCheck`,
hence `nCheck * idxBit[e] + idxCheck[e] = idxLinear[e]`. -/
theorem edge_decoding (nBit nCheck nEdge : Nat) (idxLinear : List Nat) (e : Nat)
    (he : e < nEdge) (hc0 : 0 < nCheck) (hc : nCheck < 2 ^ 31)
    (hx : idxLinear.getD e 0 < 2 ^ 32) (hq : idxLinear.getD e 0 / nCheck < 2 ^ 31) :
    (mkGraph nBit nCheck nEdge idxLinear).idxBit.getD e 0
      = ((idxLinear.getD e 0 / nCheck : Nat) : Int)
    ∧ (mkGraph nBit nCheck nEdge idxLinear).idxCheck.getD e 0
      = ((idxLinear.getD e 0 % nCheck : Nat) : Int)
    ∧ (nCheck : Int) * (mkGraph nBit nCheck nEdge idxLinear).idxBit.getD e 0
        + (mkGraph nBit nCheck nEdge idxLinear).idxCheck.getD e 0
      = ((idxLinear.getD e 0 : Nat) : Int) := by
  have hu : toUInt32 (idxLinear.getD e 0) = idxLinear.getD e 0 := Nat.mod_eq_of_lt hx
  have hr : idxLinear.getD e 0 % nCheck < 2 ^ 31 :=
    lt_trans (Nat.mod_lt _ hc0) hc
  rw [mkGraph_idxBit_getD _ _ _ _ _ he, mkGraph_idxCheck_getD _ _ _ _ _ he]
  unfold edgeBit edgeCheck
  rw [hu, toInt32_of_lt _ hq, toInt32_of_lt _ hr]
  refine ⟨rfl, rfl, ?_⟩
  have := Nat.div_add_mod (idxLinear.getD e 0) nCheck
  exact_mod_cast this

/-- C7, amended, at the (3, 1) repetition code: edge 3 has linear index 5 = 2 * 2 + 1. -/
theorem edge_decoding_witness :
    (mkGraph 3 2 4 [0, 1, 2, 5]).idxBit.getD 3 0 = (([0, 1, 2, 5].getD 3 0 / 2 : Nat) : Int)
    ∧ (mkGraph 3 2 4 [0, 1, 2, 5]).idxCheck.getD 3 0 = (([0, 1, 2, 5].getD 3 0 % 2 : Nat) : Int)
    ∧ ((2 : Nat) : Int) * (mkGraph 3 2 4 [0, 1, 2, 5]).idxBit.getD 3 0
        + (mkGraph 3 2 4 [0, 1, 2, 5]).idxCheck.getD 3 0
      = (([0, 1, 2, 5].getD 3 0 : Nat) : Int) :=
  edge_decoding 3 2 4 [0, 1, 2, 5] 3 (by decide) (by decide) (by decide) (by decide) (by decide)

theorem edgeBit_range (nBit nCheck nEdge : Nat) (idxLinear : List Nat)
    (h : ValidInput nBit nCheck nEdge idxLinear) (e : Nat) (he : e < nEdge) :
    ∃ b, b < nBit ∧ edgeBit nCheck idxLinear e = (b : Int) := by
  have hx := h.index_lt e he
  have hc0 : 0 < nCheck := by
    rcases Nat.eq_zero_or_pos nCheck with h0 | h0
    · rw [h0] at hx; simp at hx
    · exact h0
  refine ⟨toUInt32 (idxLinear.getD e 0) / nCheck, ?_, ?_⟩
  · have h1 : toUInt32 (idxLinear.getD e 0) ≤ idxLinear.getD e 0 := Nat.mod_le _ _
    rw [Nat.div_lt_iff_lt_mul hc0]
    omega
  · unfold edgeBit
    apply toInt32_of_lt
    have h1 : toUInt32 (idxLinear.getD e 0) ≤ idxLinear.getD e 0 := Nat.mod_le _ _
    have h2 : toUInt32 (idxLinear.getD e 0) / nCheck < nBit := by
      rw [Nat.div_lt_iff_lt_mul hc0]
      omega
    have := h.nBit_int
    omega

theorem edgeCheck_range (nBit nCheck nEdge : Nat) (idxLinear : List Nat)
    (h : ValidInput nBit nCheck nEdge idxLinear) (e : Nat) (he : e < nEdge) :
    ∃ c, c < nCheck ∧ edgeCheck nCheck idxLinear e = (c : Int) := by
  have hx := h.index_lt e he
  have hc0 : 0 < nCheck := by
    rcases Nat.eq_zero_or_pos nCheck with h0 | h0
    · rw [h0] at hx; simp at hx
    · exact h0
  refine ⟨toUInt32 (idxLinear.getD e 0) % nCheck, Nat.mod_lt _ hc0, ?_⟩
  unfold edgeCheck
  apply toInt32_of_lt
  have := Nat.mod_lt (toUInt32 (idxLinear.getD e 0)) hc0
  have := h.nCheck_int
  omega

theorem mem_edgesAt (f : Nat → Int) (n b e : Nat) :
    e ∈ edgesAt f n b ↔ e < n ∧ f e = (b : Int) := by
  unfold edgesAt
  simp

theorem nodup_edgesAt (f : Nat → Int) (n b : Nat) : (edgesAt f n b).Nodup :=
  List.Nodup.filter _ (List.nodup_range n)

theorem pairwise_edgesAt (f : Nat → Int) (n b : Nat) :
    (edgesAt f n b).Pairwise (fun x y => x < y) :=
  List.Pairwise.filter _ (List.pairwise_lt_range n)

theorem sum_indicator (n b0 : Nat) (i : Int) (hi : i = (b0 : Int)) (hb : b0 < n) :
    ((List.range n).map (fun (b : Nat) => if i = (b : Int) then 1 else 0)).sum = 1 := by
  subst hi
  have key : ∀ k, ((List.range k).map (fun (b : Nat) => if (b0 : Int) = (b : Int) then 1 else 0)).sum
      = if b0 < k then 1 else 0 := by
    intro k
    induction k with
    | zero => simp
    | succ k ih =>
      rw [List.range_succ, List.map_append, List.sum_append, ih]
      by_cases h1 : b0 < k
      · have h2 : ¬ (b0 = k) := by omega
        have h3 : b0 < k + 1 := by omega
        simp [h1, h2, h3]
      · by_cases h2 : b0 = k
        · subst h2; simp
        · have h4 : ¬ b0 < k + 1 := by omega
          simp [h1, h2, h4]
  rw [key n, if_pos hb]

theorem sum_length_edgesAt (f : Nat → Int) (n k : Nat)
    (h : ∀ e, e < k → ∃ b, b < n ∧ f e = (b : Int)) :
    ((List.range n).map (fun b => (edgesAt f k b).length)).sum = k := by
  induction k with
  | zero => simp [edgesAt]
  | succ k ih =>
    obtain ⟨b0, hb0, hf⟩ := h k (by omega)
    have hstep : (List.range n).map (fun b => (edgesAt f (k + 1) b).length)
        = (List.range n).map (fun (b : Nat) => (edgesAt f k b).length
            + (if f k = (b : Int) then 1 else 0)) := by
      apply List.map_congr_left
      intro b _
      rw [edgesAt_succ, List.length_append]
      by_cases hb : f k = (b : Int) <;> simp [hb]
    rw [hstep, List.sum_map_add, ih (fun e he => h e (by omega)), sum_indicator n b0 (f k) hf hb0]

theorem count_map_ofNat (l : List Nat) (e : Nat) :
    List.count (e : Int) (l.map Int.ofNat) = List.count e l :=
  List.count_map_of_injective l Int.ofNat (fun _ _ h => Int.ofNat.inj h) e

theorem mem_map_ofNat (l : List Nat) (e : Nat) : (e : Int) ∈ l.map Int.ofNat ↔ e ∈ l := by
  constructor
  · intro h
    obtain ⟨x, hx, hxe⟩ := List.mem_map.mp h
    have : x = e := Int.ofNat.inj hxe
    rwa [this] at hx
  · intro h
    exact List.mem_map.mpr ⟨e, h, rfl⟩

theorem adjacency_row_exactly_once (f : Nat → Int) (n nEdge e b0 : Nat) (he : e < nEdge)
    (hb0 : b0 < n) (hf : f e = (b0 : Int)) :
    List.count (e : Int)
        (((List.range n).map (fun b => (edgesAt f nEdge b).map Int.ofNat)).getD b0 []) = 1
    ∧ ∀ b, b < n → b ≠ b0 →
      (e : Int) ∉ ((List.range n).map (fun b => (edgesAt f nEdge b).map Int.ofNat)).getD b [] := by
  constructor
  · rw [getD_map_range _ _ _ _ hb0, count_map_ofNat]
    exact List.count_eq_one_of_mem (nodup_edgesAt f nEdge b0)
      ((mem_edgesAt f nEdge b0 e).mpr ⟨he, hf⟩)
  · intro b hb hne hmem
    rw [getD_map_range _ _ _ _ hb, mem_map_ofNat, mem_edgesAt] at hmem
    have : (b : Int) = (b0 : Int) := by rw [← hmem.2, hf]
    omega

/-- C8. Adjacency partition invariant: after construction from an edge list whose entries lie
in `[0, nBit * nCheck)`, every edge index below `nEdge` occurs in exactly one bit adjacency row,
once, and in exactly one check adjacency row, once; and the bit degrees as well as the check
degrees add up to `nEdge`. -/
theorem adjacency_partition (nBit nCheck nEdge : Nat) (idxLinear : List Nat)
    (h : ValidInput nBit nCheck nEdge idxLinear) :
    (∀ e, e < nEdge →
      (∃ b, b < nBit
        ∧ List.count (e : Int) ((mkGraph nBit nCheck nEdge idxLinear).idxEdge2Bit.getD b []) = 1
        ∧ ∀ b', b' < nBit → b' ≠ b →
          (e : Int) ∉ (mkGraph nBit nCheck nEdge idxLinear).idxEdge2Bit.getD b' [])
      ∧ (∃ c, c < nCheck
        ∧ List.count (e : Int) ((mkGraph nBit nCheck nEdge idxLinear).idxEdge2Check.getD c []) = 1
        ∧ ∀ c', c' < nCheck → c' ≠ c →
          (e : Int) ∉ (mkGraph nBit nCheck nEdge idxLinear).idxEdge2Check.getD c' []))
    ∧ (mkGraph nBit nCheck nEdge idxLinear).idxEdge2Bit.length = nBit
    ∧ (mkGraph nBit nCheck nEdge idxLinear).idxEdge2Check.length = nCheck
    ∧ (mkGraph nBit nCheck nEdge idxLinear).degBit.sum = nEdge
    ∧ (mkGraph nBit nCheck nEdge idxLinear).degCheck.sum = nEdge := by
  rw [mkGraph_eq]
  refine ⟨fun e he => ⟨?_, ?_⟩, by simp, by simp, ?_, ?_⟩
  · obtain ⟨b, hb, hf⟩ := edgeBit_range nBit nCheck nEdge idxLinear h e he
    obtain ⟨h1, h2⟩ := adjacency_row_exactly_once (edgeBit nCheck idxLinear) nBit nEdge e b he hb hf
    exact ⟨b, hb, h1, h2⟩
  · obtain ⟨c, hc, hf⟩ := edgeCheck_range nBit nCheck nEdge idxLinear h e he
    obtain ⟨h1, h2⟩ :=
      adjacency_row_exactly_once (edgeCheck nCheck idxLinear) nCheck nEdge e c he hc hf
    exact ⟨c, hc, h1, h2⟩
  · exact sum_length_edgesAt _ nBit nEdge (edgeBit_range nBit nCheck nEdge idxLinear h)
  · exact sum_length_edgesAt _ nCheck nEdge (edgeCheck_range nBit nCheck nEdge idxLinear h)

/-- C8, at the (3, 1) repetition code. -/
theorem adjacency_partition_witness :
    ValidInput 3 2 4 [0, 1, 2, 5]
    ∧ (∀ e : Nat, e < 4 →
      (∃ b, b < 3
        ∧ List.count (e : Int) ((mkGraph 3 2 4 [0, 1, 2, 5]).idxEdge2Bit.getD b []) = 1
        ∧ ∀ b', b' < 3 → b' ≠ b → (e : Int) ∉ (mkGraph 3 2 4 [0, 1, 2, 5]).idxEdge2Bit.getD b' [])
      ∧ (∃ c, c < 2
        ∧ List.count (e : Int) ((mkGraph 3 2 4 [0, 1, 2, 5]).idxEdge2Check.getD c []) = 1
        ∧ ∀ c', c' < 2 → c' ≠ c →
          (e : Int) ∉ (mkGraph 3 2 4 [0, 1, 2, 5]).idxEdge2Check.getD c' []))
    ∧ (mkGraph 3 2 4 [0, 1, 2, 5]).idxEdge2Bit.length = 3
    ∧ (mkGraph 3 2 4 [0, 1, 2, 5]).idxEdge2Check.length = 2
    ∧ (mkGraph 3 2 4 [0, 1, 2, 5]).degBit.sum = 4
    ∧ (mkGraph 3 2 4 [0, 1, 2, 5]).degCheck.sum = 4 :=
  ⟨⟨by decide, by decide, by decide, by decide⟩,
    adjacency_partition 3 2 4 [0, 1, 2, 5] ⟨by decide, by decide, by decide, by decide⟩⟩

theorem adjacent_row (f : Nat → Int) (n nEdge b : Nat) (hb : b < n) (deg : List Nat)
    (rows : List (List Int))
    (hdeg : deg = (List.range n).map (fun b => (edgesAt f nEdge b).length))
    (hrows : rows = (List.range n).map (fun b => (edgesAt f nEdge b).map Int.ofNat)) :
    rows.getD b [] = ((List.range nEdge).filter (fun e => decide (f e = (b : Int)))).map Int.ofNat
    ∧ (rows.getD b []).length = deg.getD b 0
    ∧ (rows.getD b []).Pairwise (fun x y => x < y)
    ∧ (-1 : Int) ∉ rows.getD b [] := by
  rw [hdeg, hrows, getD_map_range _ _ _ _ hb, getD_map_range _ _ _ _ hb]
  refine ⟨rfl, by simp, ?_, ?_⟩
  · exact List.Pairwise.map Int.ofNat (fun x y hxy => Int.ofNat_lt.mpr hxy)
      (pairwise_edgesAt f nEdge b)
  · intro hmem
    obtain ⟨x, _, hx⟩ := List.mem_map.mp hmem
    have : (0 : Int) ≤ Int.ofNat x := Int.ofNat_nonneg x
    omega

/-- C9. Adjacency content and order: after construction, for every bit `b` the row
`idxEdge2Bit[b]` has `degBit[b]` entries and lists exactly the edges `e` with `idxBit[e] = b`,
by strictly increasing edge index; for every check `c` the row `idxEdge2Check[c]` has
`degCheck[c]` entries and lists exactly the edges `e` with `idxCheck[e] = c`, by strictly
increasing edge index; no entry is left at the placeholder `-1`. -/
theorem adjacency_content_and_order (nBit nCheck nEdge : Nat) (idxLinear : List Nat) :
    (∀ b, b < nBit →
      (mkGraph nBit nCheck nEdge idxLinear).idxEdge2Bit.getD b []
        = ((List.range nEdge).filter (fun e =>
            decide ((mkGraph nBit nCheck nEdge idxLinear).idxBit.getD e 0 = (b : Int)))).map
              Int.ofNat
      ∧ ((mkGraph nBit nCheck nEdge idxLinear).idxEdge2Bit.getD b []).length
        = (mkGraph nBit nCheck nEdge idxLinear).degBit.getD b 0
      ∧ ((mkGraph nBit nCheck nEdge idxLinear).idxEdge2Bit.getD b []).Pairwise (fun x y => x < y)
      ∧ (-1 : Int) ∉ (mkGraph nBit nCheck nEdge idxLinear).idxEdge2Bit.getD b [])
    ∧ (∀ c, c < nCheck →
      (mkGraph nBit nCheck nEdge idxLinear).idxEdge2Check.getD c []
        = ((List.range nEdge).filter (fun e =>
            decide ((mkGraph nBit nCheck nEdge idxLinear).idxCheck.getD e 0 = (c : Int)))).map
              Int.ofNat
      ∧ ((mkGraph nBit nCheck nEdge idxLinear).idxEdge2Check.getD c []).length
        = (mkGraph nBit nCheck nEdge idxLinear).degCheck.getD c 0
      ∧ ((mkGraph nBit nCheck nEdge idxLinear).idxEdge2Check.getD c []).Pairwise
          (fun x y => x < y)
      ∧ (-1 : Int) ∉ (mkGraph nBit nCheck nEdge idxLinear).idxEdge2Check.getD c []) := by
  have hg := mkGraph_adjacent nBit nCheck nEdge idxLinear
  have hnB : (mkGraph nBit nCheck nEdge idxLinear).nBit = nBit := by rw [mkGraph_eq]
  have hnC : (mkGraph nBit nCheck nEdge idxLinear).nCheck = nCheck := by rw [mkGraph_eq]
  have hnE : (mkGraph nBit nCheck nEdge idxLinear).nEdge = nEdge := by rw [mkGraph_eq]
  constructor
  · intro b hb
    have h1 := hg.degBit_eq
    have h2 := hg.idxEdge2Bit_eq
    rw [hnB, hnE] at h1 h2
    exact adjacent_row (fun e => (mkGraph nBit nCheck nEdge idxLinear).idxBit.getD e 0)
      nBit nEdge b hb _ _ h1 h2
  · intro c hc
    have h1 := hg.degCheck_eq
    have h2 := hg.idxEdge2Check_eq
    rw [hnC, hnE] at h1 h2
    exact adjacent_row (fun e => (mkGraph nBit nCheck nEdge idxLinear).idxCheck.getD e 0)
      nCheck nEdge c hc _ _ h1 h2

/-! ## The update engine -/

theorem updateCheck_msgBit2Check {D : Type} (ops : DoubleOps D) (g : Graph) (m : Messages D)
    (h : m.msgBit2Check.length = g.nEdge) :
    (UpdateCheck ops g m).msgBit2Check
      = (List.range g.nEdge).map (fun iEdge => ops.tanh (ops.div
          (ops.sub (getAt m.msgBit (g.idxBit.getD iEdge 0) ops.zero)
            (m.msgCheck2Bit.getD iEdge ops.zero)) ops.two)) := by
  unfold UpdateCheck
  simp only []
  rw [forLoop_set _ _ _ h]

theorem updateCheck_msgCheck {D : Type} (ops : DoubleOps D) (g : Graph) (m : Messages D)
    (h : m.msgCheck.length = g.nCheck) :
    (UpdateCheck ops g m).msgCheck
      = (List.range g.nCheck).map (fun iCheck =>
          forLoop (g.degCheck.getD iCheck 0) (fun iEdge2Check msgCheck_iCheck =>
            ops.mul msgCheck_iCheck
              (getAt (UpdateCheck ops g m).msgBit2Check
                ((g.idxEdge2Check.getD iCheck []).getD iEdge2Check 0) ops.zero))
          ops.one) := by
  unfold UpdateCheck
  simp only []
  rw [forLoop_set _ _ _ h]

theorem updateBit_msgCheck2Bit {D : Type} (ops : DoubleOps D) (g : Graph) (m : Messages D)
    (h : m.msgCheck2Bit.length = g.nEdge) :
    (UpdateBit ops g m).msgCheck2Bit
      = (List.range g.nEdge).map (fun iEdge => ops.mul ops.two (atanh ops (ops.div
          (getAt m.msgCheck (g.idxCheck.getD iEdge 0) ops.zero)
          (m.msgBit2Check.getD iEdge ops.zero)))) := by
  unfold UpdateBit
  simp only []
  rw [forLoop_set _ _ _ h]

theorem updateBit_msgBit {D : Type} (ops : DoubleOps D) (g : Graph) (m : Messages D)
    (h : m.msgBit.length = g.nBit) :
    (UpdateBit ops g m).msgBit
      = (List.range g.nBit).map (fun iBit =>
          forLoop (g.degBit.getD iBit 0) (fun iEdge2Bit msgBit_iBit =>
            ops.add msgBit_iBit
              (getAt (UpdateBit ops g m).msgCheck2Bit
                ((g.idxEdge2Bit.getD iBit []).getD iEdge2Bit 0) ops.zero))
          (m.msgChannel.getD iBit ops.zero)) := by
  unfold UpdateBit
  simp only []
  rw [forLoop_set _ _ _ h]

/-! ## Behaviour of the decode controller -/

theorem getAt_replicate_zero (n : Nat) (i : Int) : getAt (List.replicate n 0) i 0 = 0 := by
  unfold getAt
  split
  · rw [List.getD_eq_getElem?_getD]
    cases h : (List.replicate n 0)[i.toNat]? with
    | none => rfl
    | some x =>
      have := List.getElem?_mem h
      simp only [Option.getD_some]
      exact (List.mem_replicate.mp this).2
  · rfl

theorem parity_replicate_zero (g : Graph) (n iCheck : Nat) :
    IsValid.parity g (List.replicate n 0) iCheck = 0 := by
  unfold IsValid.parity
  generalize g.degCheck.getD iCheck 0 = d
  induction d with
  | zero => rfl
  | succ d ih => rw [forLoop_succ, ih, getAt_replicate_zero]

theorem isValid_replicate_zero (g : Graph) (n : Nat) : IsValid g (List.replicate n 0) = true := by
  unfold IsValid
  rw [isValid_loop_iff]
  intro c _ _
  rw [parity_replicate_zero]

/-- C13. Zero-LLR tie-break and all-erasure input: for every graph, every iteration budget and
every vector of `nBit` channel LLRs none of which is negative (`LLR < 0` is false for each, as
for an LLR of exactly zero), `Decode` assigns bit `0` to every position, returns the all-zero
codeword with `0` iterations, and leaves `msgCheck`, `msgBit2Check` and `msgCheck2Bit` as they
were: the iteration loop is not entered. -/
theorem decode_no_negative_llr {D : Type} (ops : DoubleOps D) (g : Graph) (m : Messages D)
    (channelLLR : List D) (nIterationMax : Nat)
    (hm : MsgShape g m) (hrx : channelLLR.length = g.nBit)
    (h : ∀ x ∈ channelLLR, ops.lt x ops.zero = false) :
    Decode ops g m channelLLR nIterationMax
      = { cHat := List.replicate g.nBit 0, nIteration := 0,
          msgs := { m with msgChannel := channelLLR, msgBit := channelLLR } } := by
  have hd : hardDecision ops channelLLR = List.replicate g.nBit 0 := by
    unfold hardDecision
    rw [← hrx]
    apply List.ext_getElem
    · simp
    · intro i h1 h2
      have hi : i < channelLLR.length := by simpa using h1
      simp [h _ (List.getElem_mem hi)]
  rw [decode_eq ops g m channelLLR nIterationMax hm hrx, hd, if_pos (isValid_replicate_zero g _)]

/-- C13, at the (3, 1) repetition code with the all-zero LLR vector. -/
theorem decode_no_negative_llr_witness :
    Decode ratOps (mkGraph 3 2 4 [0, 1, 2, 5]) (InitMessage ratOps (mkGraph 3 2 4 [0, 1, 2, 5]))
        [0, 0, 0] 10
      = { cHat := List.replicate (mkGraph 3 2 4 [0, 1, 2, 5]).nBit 0, nIteration := 0,
          msgs := { InitMessage ratOps (mkGraph 3 2 4 [0, 1, 2, 5]) with
            msgChannel := [0, 0, 0], msgBit := [0, 0, 0] } } :=
  decode_no_negative_llr ratOps (mkGraph 3 2 4 [0, 1, 2, 5])
    (InitMessage ratOps (mkGraph 3 2 4 [0, 1, 2, 5])) [0, 0, 0] 10
    (msgShape_initMessage ratOps _) (by decide) (by decide!)

/-- C16. The validity test is the parity-check test: on every graph the constructor builds and
for every vector `cHat`, `IsValid` returns true if and only if at every check `c` the sum of
`cHat[idxBit[e]]` over the edges `e` with `idxCheck[e] = c` is `0` modulo 2; a check to which no
edge is attached has the sum `0`. -/
theorem isValid_iff_parity_checks (nBit nCheck nEdge : Nat) (idxLinear : List Nat)
    (cHat : List Nat) :
    (IsValid (mkGraph nBit nCheck nEdge idxLinear) cHat = true
      ↔ ∀ c, c < nCheck →
        ((((List.range nEdge).filter (fun e =>
            decide ((mkGraph nBit nCheck nEdge idxLinear).idxCheck.getD e 0 = (c : Int)))).map
          (fun e => getAt cHat ((mkGraph nBit nCheck nEdge idxLinear).idxBit.getD e 0) 0)).sum)
          % 2 = 0)
    ∧ (∀ c, c < nCheck → (mkGraph nBit nCheck nEdge idxLinear).degCheck.getD c 0 = 0 →
        ((((List.range nEdge).filter (fun e =>
            decide ((mkGraph nBit nCheck nEdge idxLinear).idxCheck.getD e 0 = (c : Int)))).map
          (fun e => getAt cHat ((mkGraph nBit nCheck nEdge idxLinear).idxBit.getD e 0) 0)).sum)
          = 0) := by
  have hg := mkGraph_adjacent nBit nCheck nEdge idxLinear
  have hnC : (mkGraph nBit nCheck nEdge idxLinear).nCheck = nCheck := by rw [mkGraph_eq]
  have hnE : (mkGraph nBit nCheck nEdge idxLinear).nEdge = nEdge := by rw [mkGraph_eq]
  constructor
  · rw [isValid_iff _ hg]
    unfold SatisfiesChecks checkSum edgesAt
    rw [hnC, hnE]
  · intro c hc hdeg
    have h1 := hg.degCheck_eq
    rw [hnC, hnE] at h1
    rw [h1, getD_map_range _ _ _ _ hc] at hdeg
    unfold edgesAt at hdeg
    rw [List.length_eq_zero] at hdeg
    rw [hdeg]
    rfl

theorem decode_loop_stable {D : Type} (ops : DoubleOps D) (g : Graph) (r : Nat) :
    ∀ (r' it : Nat) (m : Messages D) (c : List Nat),
      (Decode.loop ops g r it m c).nIteration < it + r →
      (Decode.loop ops g r it m c).nIteration ≤ it + r' →
      Decode.loop ops g r' it m c = Decode.loop ops g r it m c := by
  induction r with
  | zero =>
    intro r' it m c h _
    change it < it + 0 at h
    omega
  | succ r ih =>
    intro r' it m c h h'
    rw [decode_loop_succ] at h h' ⊢
    by_cases hv : IsValid g (HDD ops g (round ops g m)) = true
    · rw [if_pos hv] at h h' ⊢
      obtain ⟨r'', rfl⟩ : ∃ r'', r' = r'' + 1 := ⟨r' - 1, by simp at h'; omega⟩
      rw [decode_loop_succ, if_pos hv]
    · rw [if_neg hv] at h h' ⊢
      obtain ⟨j, _, hj, _⟩ := decode_loop_spec ops g r (it + 1) (round ops g m)
        (HDD ops g (round ops g m))
      obtain ⟨r'', rfl⟩ : ∃ r'', r' = r'' + 1 := ⟨r' - 1, by omega⟩
      rw [decode_loop_succ, if_neg hv]
      exact ih r'' (it + 1) _ _ (by omega) (by omega)

/-- C19. Budget stability: for a fixed graph, fixed prior messages and fixed channel LLRs, when
`Decode` with budget `budget` reports `k` iterations with `k < budget`, then `Decode` with any
budget `budget'` with `k ≤ budget'` returns the same codeword and reports the same `k`
iterations. -/
theorem decode_budget_stable {D : Type} (ops : DoubleOps D) (g : Graph) (m : Messages D)
    (rxLLR : List D) (budget budget' : Nat)
    (h : (Decode ops g m rxLLR budget).nIteration < budget)
    (h' : (Decode ops g m rxLLR budget).nIteration ≤ budget') :
    (Decode ops g m rxLLR budget').cHat = (Decode ops g m rxLLR budget).cHat
    ∧ (Decode ops g m rxLLR budget').nIteration = (Decode ops g m rxLLR budget).nIteration := by
  unfold Decode at h h' ⊢
  simp only [] at h h' ⊢
  by_cases hv : IsValid g (HDD ops g (UpdateChannel g m rxLLR)) = true
  · rw [if_pos hv, if_pos hv]
    exact ⟨rfl, rfl⟩
  · rw [if_neg hv] at h h'
    rw [if_neg hv, if_neg hv,
      decode_loop_stable ops g budget budget' 0 _ _ (by omega) (by omega)]
    exact ⟨rfl, rfl⟩

/-- C19, at the (3, 1) repetition code with LLRs `1 1 -4`: two rounds are needed under a budget
of ten, and a budget of two gives the same result. -/
theorem decode_budget_stable_witness :
    (Decode ratOps (mkGraph 3 2 4 [0, 1, 2, 5]) (InitMessage ratOps (mkGraph 3 2 4 [0, 1, 2, 5]))
        [1, 1, -4] 2).cHat
      = (Decode ratOps (mkGraph 3 2 4 [0, 1, 2, 5])
          (InitMessage ratOps (mkGraph 3 2 4 [0, 1, 2, 5])) [1, 1, -4] 10).cHat
    ∧ (Decode ratOps (mkGraph 3 2 4 [0, 1, 2, 5])
        (InitMessage ratOps (mkGraph 3 2 4 [0, 1, 2, 5])) [1, 1, -4] 2).nIteration
      = (Decode ratOps (mkGraph 3 2 4 [0, 1, 2, 5])
          (InitMessage ratOps (mkGraph 3 2 4 [0, 1, 2, 5])) [1, 1, -4] 10).nIteration :=
  decode_budget_stable ratOps (mkGraph 3 2 4 [0, 1, 2, 5])
    (InitMessage ratOps (mkGraph 3 2 4 [0, 1, 2, 5])) [1, 1, -4] 10 2 (by decide!) (by decide!)

/-! ## Behaviour of the update engine -/

theorem forLoop_row {α β : Type} (op : β → α → β) (L : List α) (d : α) (l : List Nat) (a : β) :
    forLoop l.length (fun k acc => op acc (getAt L ((l.map Int.ofNat).getD k 0) d)) a
      = l.foldl (fun acc e => op acc (L.getD e d)) a := by
  have h := forLoop_fold (fun (acc : β) (x : Int) => op acc (getAt L x d)) (l.map Int.ofNat) 0
    l.length (by simp) a
  rw [h, List.take_of_length_le (by simp), List.foldl_map]
  simp only [getAt_ofNat]

theorem adjacent_checkRow {α β : Type} (g : Graph) (hg : Adjacent g) (c : Nat) (hc : c < g.nCheck)
    (op : β → α → β) (L : List α) (d : α) (a : β) :
    forLoop (g.degCheck.getD c 0)
        (fun k acc => op acc (getAt L ((g.idxEdge2Check.getD c []).getD k 0) d)) a
      = (edgesAt (fun e => g.idxCheck.getD e 0) g.nEdge c).foldl
          (fun acc e => op acc (L.getD e d)) a := by
  rw [hg.degCheck_eq, hg.idxEdge2Check_eq, getD_map_range _ _ _ _ hc,
    getD_map_range _ _ _ _ hc]
  exact forLoop_row op L d _ a

theorem adjacent_bitRow {α β : Type} (g : Graph) (hg : Adjacent g) (b : Nat) (hb : b < g.nBit)
    (op : β → α → β) (L : List α) (d : α) (a : β) :
    forLoop (g.degBit.getD b 0)
        (fun k acc => op acc (getAt L ((g.idxEdge2Bit.getD b []).getD k 0) d)) a
      = (edgesAt (fun e => g.idxBit.getD e 0) g.nEdge b).foldl
          (fun acc e => op acc (L.getD e d)) a := by
  rw [hg.degBit_eq, hg.idxEdge2Bit_eq, getD_map_range _ _ _ _ hb, getD_map_range _ _ _ _ hb]
  exact forLoop_row op L d _ a

theorem updateCheck_msgCheck_getD {D : Type} (ops : DoubleOps D) (g : Graph) (hg : Adjacent g)
    (m : Messages D) (hm : MsgShape g m) (c : Nat) (hc : c < g.nCheck) :
    (UpdateCheck ops g m).msgCheck.getD c ops.zero
      = (edgesAt (fun e => g.idxCheck.getD e 0) g.nEdge c).foldl
          (fun p e => ops.mul p ((UpdateCheck ops g m).msgBit2Check.getD e ops.zero)) ops.one := by
  rw [updateCheck_msgCheck ops g m hm.msgCheck_length, getD_map_range _ _ _ _ hc]
  exact adjacent_checkRow g hg c hc ops.mul _ ops.zero ops.one

theorem updateBit_msgBit_getD {D : Type} (ops : DoubleOps D) (g : Graph) (hg : Adjacent g)
    (m : Messages D) (hm : MsgShape g m) (b : Nat) (hb : b < g.nBit) :
    (UpdateBit ops g m).msgBit.getD b ops.zero
      = (edgesAt (fun e => g.idxBit.getD e 0) g.nEdge b).foldl
          (fun s e => ops.add s ((UpdateBit ops g m).msgCheck2Bit.getD e ops.zero))
          (m.msgChannel.getD b ops.zero) := by
  rw [updateBit_msgBit ops g m hm.msgBit_length, getD_map_range _ _ _ _ hb]
  exact adjacent_bitRow g hg b hb ops.add _ ops.zero _

/-- C17. Check update: after `UpdateCheck` on a graph the constructor builds, with message
arrays of the allocated sizes, for every edge `e`
`msgBit2Check[e] = tanh ((msgBit[idxBit[e]] - msgCheck2Bit[e]) / 2)`, computed from the
`msgBit` and `msgCheck2Bit` of before the update; for every check `c`, `msgCheck[c]` is the
product of the new `msgBit2Check[e]` over the edges `e` with `idxCheck[e] = c`, multiplied up
from `1` by increasing edge index (so `1` for a check without edges); `msgChannel`, `msgBit`
and `msgCheck2Bit` are unchanged. -/
theorem updateCheck_spec {D : Type} (ops : DoubleOps D) (nBit nCheck nEdge : Nat)
    (idxLinear : List Nat) (m : Messages D)
    (hm : MsgShape (mkGraph nBit nCheck nEdge idxLinear) m) :
    (∀ e, e < nEdge →
      (UpdateCheck ops (mkGraph nBit nCheck nEdge idxLinear) m).msgBit2Check.getD e ops.zero
        = ops.tanh (ops.div
            (ops.sub
              (getAt m.msgBit ((mkGraph nBit nCheck nEdge idxLinear).idxBit.getD e 0) ops.zero)
              (m.msgCheck2Bit.getD e ops.zero))
            ops.two))
    ∧ (∀ c, c < nCheck →
      (UpdateCheck ops (mkGraph nBit nCheck nEdge idxLinear) m).msgCheck.getD c ops.zero
        = ((List.range nEdge).filter (fun e =>
            decide ((mkGraph nBit nCheck nEdge idxLinear).idxCheck.getD e 0 = (c : Int)))).foldl
          (fun p e => ops.mul p
            ((UpdateCheck ops (mkGraph nBit nCheck nEdge idxLinear) m).msgBit2Check.getD e
              ops.zero))
          ops.one)
    ∧ (UpdateCheck ops (mkGraph nBit nCheck nEdge idxLinear) m).msgChannel = m.msgChannel
    ∧ (UpdateCheck ops (mkGraph nBit nCheck nEdge idxLinear) m).msgBit = m.msgBit
    ∧ (UpdateCheck ops (mkGraph nBit nCheck nEdge idxLinear) m).msgCheck2Bit = m.msgCheck2Bit := by
  have hg := mkGraph_adjacent nBit nCheck nEdge idxLinear
  have hnC : (mkGraph nBit nCheck nEdge idxLinear).nCheck = nCheck := by rw [mkGraph_eq]
  have hnE : (mkGraph nBit nCheck nEdge idxLinear).nEdge = nEdge := by rw [mkGraph_eq]
  refine ⟨?_, ?_, rfl, rfl, rfl⟩
  · intro e he
    rw [updateCheck_msgBit2Check ops _ m hm.msgBit2Check_length,
      getD_map_range _ _ _ _ (by rw [hnE]; exact he)]
  · intro c hc
    have := updateCheck_msgCheck_getD ops _ hg m hm c (by rw [hnC]; exact hc)
    rw [hnE] at this
    exact this

/-- C17, at the (3, 1) repetition code for the channel values 4, 4, -4: the products of the
first check update. -/
theorem updateCheck_spec_witness :
    MsgShape (mkGraph 3 2 4 [0, 1, 2, 5])
      (startState ratOps (mkGraph 3 2 4 [0, 1, 2, 5])
        (InitMessage ratOps (mkGraph 3 2 4 [0, 1, 2, 5])) [4, 4, -4])
    ∧ ∀ c : Nat, c < 2 →
      (UpdateCheck ratOps (mkGraph 3 2 4 [0, 1, 2, 5])
        (startState ratOps (mkGraph 3 2 4 [0, 1, 2, 5])
          (InitMessage ratOps (mkGraph 3 2 4 [0, 1, 2, 5])) [4, 4, -4])).msgCheck.getD c
            ratOps.zero
        = ((List.range 4).filter (fun e =>
            decide ((mkGraph 3 2 4 [0, 1, 2, 5]).idxCheck.getD e 0 = (c : Int)))).foldl
          (fun p e => ratOps.mul p
            ((UpdateCheck ratOps (mkGraph 3 2 4 [0, 1, 2, 5])
              (startState ratOps (mkGraph 3 2 4 [0, 1, 2, 5])
                (InitMessage ratOps (mkGraph 3 2 4 [0, 1, 2, 5])) [4, 4, -4])).msgBit2Check.getD e
                  ratOps.zero))
          ratOps.one :=
  ⟨msgShape_startState ratOps _ _ _ (msgShape_initMessage ratOps _) (by decide),
    (updateCheck_spec ratOps 3 2 4 [0, 1, 2, 5]
      (startState ratOps (mkGraph 3 2 4 [0, 1, 2, 5])
        (InitMessage ratOps (mkGraph 3 2 4 [0, 1, 2, 5])) [4, 4, -4])
      (msgShape_startState ratOps _ _ _ (msgShape_initMessage ratOps _) (by decide))).2.1⟩

/-- C18. Bit update: after `UpdateBit` on a graph the constructor builds, with message arrays
of the allocated sizes, for every edge `e`
`msgCheck2Bit[e] = 2 * atanh (msgCheck[idxCheck[e]] / msgBit2Check[e])`, where `atanh x` is
`-19.07` for `x <= -1`, `19.07` for `x >= 1` and `0.5 * log ((1 + x) / (1 - x))` otherwise; for
every bit `b`, `msgBit[b]` is `msgChannel[b]` plus the new `msgCheck2Bit[e]` of the edges `e`
with `idxBit[e] = b`, added one after the other by increasing edge index (so `msgChannel[b]`
for a bit without edges); `msgChannel`, `msgCheck` and `msgBit2Check` are unchanged. -/
theorem updateBit_spec {D : Type} (ops : DoubleOps D) (nBit nCheck nEdge : Nat)
    (idxLinear : List Nat) (m : Messages D)
    (hm : MsgShape (mkGraph nBit nCheck nEdge idxLinear) m) :
    (∀ e, e < nEdge →
      (UpdateBit ops (mkGraph nBit nCheck nEdge idxLinear) m).msgCheck2Bit.getD e ops.zero
        = ops.mul ops.two (atanh ops (ops.div
            (getAt m.msgCheck ((mkGraph nBit nCheck nEdge idxLinear).idxCheck.getD e 0) ops.zero)
            (m.msgBit2Check.getD e ops.zero))))
    ∧ (∀ x, atanh ops x
        = if ops.le x (ops.neg ops.one) then ops.neg ops.sat
          else if ops.le ops.one x then ops.sat
          else ops.mul ops.half (ops.log (ops.div (ops.add ops.one x) (ops.sub ops.one x))))
    ∧ (∀ b, b < nBit →
      (UpdateBit ops (mkGraph nBit nCheck nEdge idxLinear) m).msgBit.getD b ops.zero
        = ((List.range nEdge).filter (fun e =>
            decide ((mkGraph nBit nCheck nEdge idxLinear).idxBit.getD e 0 = (b : Int)))).foldl
          (fun s e => ops.add s
            ((UpdateBit ops (mkGraph nBit nCheck nEdge idxLinear) m).msgCheck2Bit.getD e ops.zero))
          (m.msgChannel.getD b ops.zero))
    ∧ (UpdateBit ops (mkGraph nBit nCheck nEdge idxLinear) m).msgChannel = m.msgChannel
    ∧ (UpdateBit ops (mkGraph nBit nCheck nEdge idxLinear) m).msgCheck = m.msgCheck
    ∧ (UpdateBit ops (mkGraph nBit nCheck nEdge idxLinear) m).msgBit2Check = m.msgBit2Check := by
  have hg := mkGraph_adjacent nBit nCheck nEdge idxLinear
  have hnB : (mkGraph nBit nCheck nEdge idxLinear).nBit = nBit := by rw [mkGraph_eq]
  have hnE : (mkGraph nBit nCheck nEdge idxLinear).nEdge = nEdge := by rw [mkGraph_eq]
  refine ⟨?_, fun x => rfl, ?_, rfl, rfl, rfl⟩
  · intro e he
    rw [updateBit_msgCheck2Bit ops _ m hm.msgCheck2Bit_length,
      getD_map_range _ _ _ _ (by rw [hnE]; exact he)]
  · intro b hb
    have := updateBit_msgBit_getD ops _ hg m hm b (by rw [hnB]; exact hb)
    rw [hnE] at this
    exact this

/-- C18, at the (3, 1) repetition code for the channel values 4, 4, -4: the sums of the first
bit update. -/
theorem updateBit_spec_witness :
    MsgShape (mkGraph 3 2 4 [0, 1, 2, 5])
      (UpdateCheck ratOps (mkGraph 3 2 4 [0, 1, 2, 5])
        (startState ratOps (mkGraph 3 2 4 [0, 1, 2, 5])
          (InitMessage ratOps (mkGraph 3 2 4 [0, 1, 2, 5])) [4, 4, -4]))
    ∧ ∀ b : Nat, b < 3 →
      (UpdateBit ratOps (mkGraph 3 2 4 [0, 1, 2, 5])
        (UpdateCheck ratOps (mkGraph 3 2 4 [0, 1, 2, 5])
          (startState ratOps (mkGraph 3 2 4 [0, 1, 2, 5])
            (InitMessage ratOps (mkGraph 3 2 4 [0, 1, 2, 5])) [4, 4, -4]))).msgBit.getD b
              ratOps.zero
        = ((List.range 4).filter (fun e =>
            decide ((mkGraph 3 2 4 [0, 1, 2, 5]).idxBit.getD e 0 = (b : Int)))).foldl
          (fun s e => ratOps.add s
            ((UpdateBit ratOps (mkGraph 3 2 4 [0, 1, 2, 5])
              (UpdateCheck ratOps (mkGraph 3 2 4 [0, 1, 2, 5])
                (startState ratOps (mkGraph 3 2 4 [0, 1, 2, 5])
                  (InitMessage ratOps (mkGraph 3 2 4 [0, 1, 2, 5]))
                  [4, 4, -4]))).msgCheck2Bit.getD e ratOps.zero))
          ((UpdateCheck ratOps (mkGraph 3 2 4 [0, 1, 2, 5])
            (startState ratOps (mkGraph 3 2 4 [0, 1, 2, 5])
              (InitMessage ratOps (mkGraph 3 2 4 [0, 1, 2, 5])) [4, 4, -4])).msgChannel.getD b
                ratOps.zero) :=
  ⟨msgShape_updateCheck ratOps _ _
      (msgShape_startState ratOps _ _ _ (msgShape_initMessage ratOps _) (by decide)),
    (updateBit_spec ratOps 3 2 4 [0, 1, 2, 5]
      (UpdateCheck ratOps (mkGraph 3 2 4 [0, 1, 2, 5])
        (startState ratOps (mkGraph 3 2 4 [0, 1, 2, 5])
          (InitMessage ratOps (mkGraph 3 2 4 [0, 1, 2, 5])) [4, 4, -4]))
      (msgShape_updateCheck ratOps _ _
        (msgShape_startState ratOps _ _ _ (msgShape_initMessage ratOps _) (by decide)))).2.2.1⟩

/-! ## Extrinsic messages -/

theorem mkGraph_single : mkGraph 1 1 1 [0]
    = { nBit := 1, nCheck := 1, nEdge := 1, idxBit := [0], idxCheck := [0], degBit := [1],
        degCheck := [1], idxEdge2Bit := [[0]], idxEdge2Check := [[0]] } := by
  decide

theorem atanh_one {K : Type} [LinearOrderedField K] (tanh log : K → K) (sat : K) :
    atanh (fieldOps K tanh log sat) 1 = sat := by
  unfold atanh fieldOps
  simp only [decide_eq_true_eq]
  rw [if_neg (by norm_num), if_pos (le_refl _)]

theorem round_single {K : Type} [LinearOrderedField K] (tanh log : K → K) (sat llr x y p q : K)
    (ht : tanh ((x - y) / 2) ≠ 0) :
    round (fieldOps K tanh log sat) (mkGraph 1 1 1 [0])
      { msgChannel := [llr], msgBit := [x], msgCheck := [p], msgBit2Check := [q],
        msgCheck2Bit := [y] }
    = { msgChannel := [llr], msgBit := [llr + 2 * sat], msgCheck := [tanh ((x - y) / 2)],
        msgBit2Check := [tanh ((x - y) / 2)], msgCheck2Bit := [2 * sat] } := by
  have h1 := atanh_one tanh log sat
  rw [mkGraph_single]
  simp only [round, UpdateCheck, UpdateBit, forLoop, getAt]
  simp [fieldOps] at h1 ⊢
  rw [div_self ht, h1]

theorem updateCheck_single {K : Type} [LinearOrderedField K] (tanh log : K → K)
    (sat llr x y p q : K) :
    (UpdateCheck (fieldOps K tanh log sat) (mkGraph 1 1 1 [0])
      { msgChannel := [llr], msgBit := [x], msgCheck := [p], msgBit2Check := [q],
        msgCheck2Bit := [y] }).msgBit2Check.getD 0 0 = tanh ((x - y) / 2) := by
  rw [mkGraph_single]
  simp [UpdateCheck, forLoop, getAt, fieldOps]

theorem iterate_single {K : Type} [LinearOrderedField K] (tanh log : K → K) (sat llr p q : K)
    (ht : tanh (llr / 2) ≠ 0) (j : Nat) :
    ∃ x y p' q', (round (fieldOps K tanh log sat) (mkGraph 1 1 1 [0]))^[j]
        { msgChannel := [llr], msgBit := [llr], msgCheck := [p], msgBit2Check := [q],
          msgCheck2Bit := [0] }
      = { msgChannel := [llr], msgBit := [x], msgCheck := [p'], msgBit2Check := [q'],
          msgCheck2Bit := [y] } ∧ x - y = llr := by
  induction j with
  | zero => exact ⟨llr, 0, p, q, rfl, by ring⟩
  | succ j ih =>
    obtain ⟨x, y, p', q', hs, hxy⟩ := ih
    rw [Function.iterate_succ_apply', hs, round_single tanh log sat llr x y p' q'
      (by rw [hxy]; exact ht)]
    exact ⟨_, _, _, _, rfl, by ring⟩

theorem llr_neg_of_iterations {K : Type} [LinearOrderedField K] (tanh log : K → K) (sat : K)
    (m : Messages K) (hm : MsgShape (mkGraph 1 1 1 [0]) m) (llr : K) (nIterationMax : Nat)
    (h : 0 < (Decode (fieldOps K tanh log sat) (mkGraph 1 1 1 [0]) m [llr]
      nIterationMax).nIteration) : llr < 0 := by
  by_contra hneg
  rw [decode_eq _ _ m [llr] nIterationMax hm (by rw [mkGraph_single]; rfl)] at h
  have hhd : hardDecision (fieldOps K tanh log sat) [llr] = [0] := by
    simp [hardDecision, fieldOps, hneg]
  have hv : IsValid (mkGraph 1 1 1 [0]) [0] = true := by decide
  rw [hhd, if_pos hv] at h
  exact absurd h (Nat.lt_irrefl 0)

/-- In exact arithmetic the divisor on the graph with a single edge is never zero: with a
`tanh` that has no zero among the negative numbers, for every channel value and every
iteration budget, in each of the rounds `1 .. nIteration` that `Decode` performs, the divisor
`msgBit2Check[0]` which the bit update of that round finds after the check update is not
zero. -/
theorem single_edge_divisor_ne_zero_exact {K : Type} [LinearOrderedField K] (tanh log : K → K)
    (sat : K) (ht : ∀ x, x < 0 → tanh x ≠ 0)
    (m : Messages K) (hm : MsgShape (mkGraph 1 1 1 [0]) m) (llr : K) (nIterationMax j : Nat)
    (hj : j < (Decode (fieldOps K tanh log sat) (mkGraph 1 1 1 [0]) m [llr]
      nIterationMax).nIteration) :
    (UpdateCheck (fieldOps K tanh log sat) (mkGraph 1 1 1 [0])
      ((round (fieldOps K tanh log sat) (mkGraph 1 1 1 [0]))^[j]
        (startState (fieldOps K tanh log sat) (mkGraph 1 1 1 [0]) m [llr]))).msgBit2Check.getD 0 0
      ≠ 0 := by
  have hneg : llr < 0 := llr_neg_of_iterations tanh log sat m hm llr nIterationMax (by omega)
  have ht' : tanh (llr / 2) ≠ 0 := ht _ (by linarith)
  obtain ⟨p, hp⟩ := List.length_eq_one.mp (by
    have := hm.msgCheck_length
    rw [mkGraph_single] at this
    exact this)
  obtain ⟨q, hq⟩ := List.length_eq_one.mp (by
    have := hm.msgBit2Check_length
    rw [mkGraph_single] at this
    exact this)
  have hstart : startState (fieldOps K tanh log sat) (mkGraph 1 1 1 [0]) m [llr]
      = { msgChannel := [llr], msgBit := [llr], msgCheck := [p], msgBit2Check := [q],
          msgCheck2Bit := [0] } := by
    unfold startState
    rw [hp, hq, mkGraph_single]
    rfl
  obtain ⟨x, y, p', q', hs, hxy⟩ := iterate_single tanh log sat llr p q ht' j
  rw [hstart, hs, updateCheck_single, hxy]
  exact ht'

/-- C14. On the graph with a single edge the divisor can be zero: `-2 ^ (-1074)` is a double,
the smallest negative one, and as a channel value it is negative, so a round runs; its half
underflows to zero, the check update stores `msgBit2Check[0] = tanh 0 = 0` and
`msgCheck[0] = 0`, and the bit update divides zero by zero: `msgCheck2Bit[0]` and `msgBit[0]`
are NaN. -/
theorem single_edge_zero_divisor :
    roundD (-(1 / 2 ^ 1074)) = .fin (-(1 / 2 ^ 1074))
    ∧ f64Ops.lt (.fin (-(1 / 2 ^ 1074))) f64Ops.zero = true
    ∧ (UpdateCheck f64Ops (mkGraph 1 1 1 [0])
        (startState f64Ops (mkGraph 1 1 1 [0]) (InitMessage f64Ops (mkGraph 1 1 1 [0]))
          [.fin (-(1 / 2 ^ 1074))])).msgBit2Check = [.fin 0]
    ∧ (UpdateCheck f64Ops (mkGraph 1 1 1 [0])
        (startState f64Ops (mkGraph 1 1 1 [0]) (InitMessage f64Ops (mkGraph 1 1 1 [0]))
          [.fin (-(1 / 2 ^ 1074))])).msgCheck = [.fin 0]
    ∧ (Decode f64Ops (mkGraph 1 1 1 [0]) (InitMessage f64Ops (mkGraph 1 1 1 [0]))
        [.fin (-(1 / 2 ^ 1074))] 1).nIteration = 1
    ∧ (Decode f64Ops (mkGraph 1 1 1 [0]) (InitMessage f64Ops (mkGraph 1 1 1 [0]))
        [.fin (-(1 / 2 ^ 1074))] 1).msgs.msgCheck2Bit = [.nan]
    ∧ (Decode f64Ops (mkGraph 1 1 1 [0]) (InitMessage f64Ops (mkGraph 1 1 1 [0]))
        [.fin (-(1 / 2 ^ 1074))] 1).msgs.msgBit = [.nan] := by
  decide!

/-! ## The worked example of the demo program -/

theorem mkGraph_repetition : mkGraph 3 2 4 [0, 1, 2, 5]
    = { nBit := 3, nCheck := 2, nEdge := 4, idxBit := [0, 0, 1, 2], idxCheck := [0, 1, 0, 1],
        degBit := [2, 1, 1], degCheck := [2, 2], idxEdge2Bit := [[0, 1], [2], [3]],
        idxEdge2Check := [[0, 2], [1, 3]] } := by
  decide

theorem atanh_mid {K : Type} [LinearOrderedField K] (tanh log : K → K) (sat x : K)
    (h1 : -1 < x) (h2 : x < 1) :
    atanh (fieldOps K tanh log sat) x = 1 / 2 * log ((1 + x) / (1 - x)) := by
  unfold atanh fieldOps
  simp only [decide_eq_true_eq]
  rw [if_neg (not_le.mpr h1), if_neg (not_le.mpr h2)]

theorem updateCheck_repetition {K : Type} [LinearOrderedField K] (tanh log : K → K) (sat : K) :
    UpdateCheck (fieldOps K tanh log sat) (mkGraph 3 2 4 [0, 1, 2, 5])
      { msgChannel := [4, 4, -4], msgBit := [4, 4, -4], msgCheck := [0, 0],
        msgBit2Check := [0, 0, 0, 0], msgCheck2Bit := [0, 0, 0, 0] }
    = { msgChannel := [4, 4, -4], msgBit := [4, 4, -4],
        msgCheck := [1 * tanh ((4 - 0) / 2) * tanh ((4 - 0) / 2),
          1 * tanh ((4 - 0) / 2) * tanh ((-4 - 0) / 2)],
        msgBit2Check := [tanh ((4 - 0) / 2), tanh ((4 - 0) / 2), tanh ((4 - 0) / 2),
          tanh ((-4 - 0) / 2)],
        msgCheck2Bit := [0, 0, 0, 0] } := by
  rw [mkGraph_repetition]
  rfl

theorem updateBit_repetition {K : Type} [LinearOrderedField K] (tanh log : K → K)
    (sat p0 p1 q0 q1 q2 q3 : K) :
    UpdateBit (fieldOps K tanh log sat) (mkGraph 3 2 4 [0, 1, 2, 5])
      { msgChannel := [4, 4, -4], msgBit := [4, 4, -4], msgCheck := [p0, p1],
        msgBit2Check := [q0, q1, q2, q3], msgCheck2Bit := [0, 0, 0, 0] }
    = { msgChannel := [4, 4, -4],
        msgBit := [4 + 2 * atanh (fieldOps K tanh log sat) (p0 / q0)
            + 2 * atanh (fieldOps K tanh log sat) (p1 / q1),
          4 + 2 * atanh (fieldOps K tanh log sat) (p0 / q2),
          -4 + 2 * atanh (fieldOps K tanh log sat) (p1 / q3)],
        msgCheck := [p0, p1],
        msgBit2Check := [q0, q1, q2, q3],
        msgCheck2Bit := [2 * atanh (fieldOps K tanh log sat) (p0 / q0),
          2 * atanh (fieldOps K tanh log sat) (p1 / q1),
          2 * atanh (fieldOps K tanh log sat) (p0 / q2),
          2 * atanh (fieldOps K tanh log sat) (p1 / q3)] } := by
  rw [mkGraph_repetition]
  rfl



theorem round_repetition {K : Type} [LinearOrderedField K] (tanh log : K → K) (sat : K)
    (h1 : 0 < tanh 2) (h2 : tanh 2 < 1) (h3 : tanh (-2) = -tanh 2)
    (h4 : 1 / 2 * log ((1 + tanh 2) / (1 - tanh 2)) = 2)
    (h5 : 1 / 2 * log ((1 + -tanh 2) / (1 - -tanh 2)) = -2) :
    (round (fieldOps K tanh log sat) (mkGraph 3 2 4 [0, 1, 2, 5])
      { msgChannel := [4, 4, -4], msgBit := [4, 4, -4], msgCheck := [0, 0],
        msgBit2Check := [0, 0, 0, 0], msgCheck2Bit := [0, 0, 0, 0] }).msgBit = [4, 8, 0] := by
  have e1 : ((4 : K) - 0) / 2 = 2 := by norm_num
  have e2 : ((-4 : K) - 0) / 2 = -2 := by norm_num
  have ht : tanh 2 ≠ 0 := ne_of_gt h1
  have r1 : 1 * tanh 2 * tanh 2 / tanh 2 = tanh 2 := by field_simp
  have r2 : 1 * tanh 2 * -tanh 2 / tanh 2 = -tanh 2 := by field_simp
  have r3 : 1 * tanh 2 * -tanh 2 / -tanh 2 = tanh 2 := by field_simp
  have a1 : atanh (fieldOps K tanh log sat) (tanh 2) = 2 := by
    rw [atanh_mid tanh log sat _ (by linarith) h2, h4]
  have a2 : atanh (fieldOps K tanh log sat) (-tanh 2) = -2 := by
    rw [atanh_mid tanh log sat _ (by linarith) (by linarith), h5]
  unfold round
  rw [updateCheck_repetition, e1, e2, h3, updateBit_repetition]
  simp only [r1, r2, r3, a1, a2]
  norm_num

theorem decode_repetition {K : Type} [LinearOrderedField K] (tanh log : K → K) (sat : K)
    (h1 : 0 < tanh 2) (h2 : tanh 2 < 1) (h3 : tanh (-2) = -tanh 2)
    (h4 : 1 / 2 * log ((1 + tanh 2) / (1 - tanh 2)) = 2)
    (h5 : 1 / 2 * log ((1 + -tanh 2) / (1 - -tanh 2)) = -2) (n : Nat) :
    (Decode (fieldOps K tanh log sat) (mkGraph 3 2 4 [0, 1, 2, 5])
        (InitMessage (fieldOps K tanh log sat) (mkGraph 3 2 4 [0, 1, 2, 5]))
        [4, 4, -4] (n + 1)).cHat = [0, 0, 0]
    ∧ (Decode (fieldOps K tanh log sat) (mkGraph 3 2 4 [0, 1, 2, 5])
        (InitMessage (fieldOps K tanh log sat) (mkGraph 3 2 4 [0, 1, 2, 5]))
        [4, 4, -4] (n + 1)).nIteration = 1 := by
  have hpos : ¬ (4 : K) < 0 := by norm_num
  have hneg : (-4 : K) < 0 := by norm_num
  have hhd : hardDecision (fieldOps K tanh log sat) [4, 4, -4] = [0, 0, 1] := by
    simp [hardDecision, fieldOps, hpos, hneg]
  have hv0 : IsValid (mkGraph 3 2 4 [0, 1, 2, 5]) [0, 0, 1] = false := by decide
  have hv1 : IsValid (mkGraph 3 2 4 [0, 1, 2, 5]) [0, 0, 0] = true := by decide
  have hstart : startState (fieldOps K tanh log sat) (mkGraph 3 2 4 [0, 1, 2, 5])
      (InitMessage (fieldOps K tanh log sat) (mkGraph 3 2 4 [0, 1, 2, 5])) [4, 4, -4]
      = { msgChannel := [4, 4, -4], msgBit := [4, 4, -4], msgCheck := [0, 0],
          msgBit2Check := [0, 0, 0, 0], msgCheck2Bit := [0, 0, 0, 0] } := by
    rw [mkGraph_repetition]
    rfl
  have hmb := round_repetition tanh log sat h1 h2 h3 h4 h5
  have hhdd : HDD (fieldOps K tanh log sat) (mkGraph 3 2 4 [0, 1, 2, 5])
      (round (fieldOps K tanh log sat) (mkGraph 3 2 4 [0, 1, 2, 5])
        { msgChannel := [4, 4, -4], msgBit := [4, 4, -4], msgCheck := [0, 0],
          msgBit2Check := [0, 0, 0, 0], msgCheck2Bit := [0, 0, 0, 0] }) = [0, 0, 0] := by
    rw [HDD_eq _ _ _ (by rw [hmb, mkGraph_repetition]; rfl), hmb]
    have h8 : ¬ (8 : K) < 0 := by norm_num
    simp [hardDecision, fieldOps, hpos, h8]
  rw [decode_eq _ _ _ [4, 4, -4] (n + 1) (msgShape_initMessage _ _)
    (by rw [mkGraph_repetition]; rfl), hhd, hv0]
  simp only [Bool.false_eq_true, if_false]
  rw [hstart, decode_loop_succ, hhdd, if_pos hv1]
  exact ⟨rfl, rfl⟩

theorem real_atanh_tanh (x : ℝ) :
    1 / 2 * Real.log ((1 + Real.tanh x) / (1 - Real.tanh x)) = x := by
  have hc : 0 < Real.cosh x := Real.cosh_pos x
  have he : 0 < Real.exp (-x) := Real.exp_pos _
  have hq : (1 + Real.tanh x) / (1 - Real.tanh x) = Real.exp (2 * x) := by
    rw [Real.tanh_eq_sinh_div_cosh]
    have h1 : 1 + Real.sinh x / Real.cosh x = Real.exp x / Real.cosh x := by
      rw [← Real.cosh_add_sinh]
      field_simp
    have h2 : 1 - Real.sinh x / Real.cosh x = Real.exp (-x) / Real.cosh x := by
      rw [← Real.cosh_sub_sinh]
      field_simp
    rw [h1, h2, div_div_div_cancel_right₀ (ne_of_gt hc), ← Real.exp_sub]
    congr 1
    ring
  rw [hq, Real.log_exp]
  ring

theorem real_tanh_two_pos : 0 < Real.tanh 2 := by
  rw [Real.tanh_eq_sinh_div_cosh]
  exact div_pos (Real.sinh_pos_iff.mpr (by norm_num)) (Real.cosh_pos 2)

theorem real_tanh_two_lt_one : Real.tanh 2 < 1 := by
  rw [Real.tanh_eq_sinh_div_cosh, div_lt_one (Real.cosh_pos 2), ← sub_pos, Real.cosh_sub_sinh]
  exact Real.exp_pos _

/-- The worked example of the demo program in exact real arithmetic (`tanh` and `log` are the
real functions): the channel values `4 4 -4` give the codeword `0 0 0` after one iteration.
There `msgBit[2] = -4 + 2 atanh (tanh 2)` is exactly `0`. -/
theorem decode_worked_example_exact :
    (mkGraph 3 2 4 [0, 1, 2, 5]).idxBit = [0, 0, 1, 2]
    ∧ (mkGraph 3 2 4 [0, 1, 2, 5]).idxCheck = [0, 1, 0, 1]
    ∧ (Decode (fieldOps ℝ Real.tanh Real.log (1907 / 100)) (mkGraph 3 2 4 [0, 1, 2, 5])
        (InitMessage (fieldOps ℝ Real.tanh Real.log (1907 / 100)) (mkGraph 3 2 4 [0, 1, 2, 5]))
        [4, 4, -4] 10).cHat = [0, 0, 0]
    ∧ (Decode (fieldOps ℝ Real.tanh Real.log (1907 / 100)) (mkGraph 3 2 4 [0, 1, 2, 5])
        (InitMessage (fieldOps ℝ Real.tanh Real.log (1907 / 100)) (mkGraph 3 2 4 [0, 1, 2, 5]))
        [4, 4, -4] 10).nIteration = 1 := by
  have h := decode_repetition Real.tanh Real.log (1907 / 100) real_tanh_two_pos
    real_tanh_two_lt_one (Real.tanh_neg 2) (real_atanh_tanh 2)
    (by rw [← Real.tanh_neg]; exact real_atanh_tanh (-2)) 9
  exact ⟨by decide, by decide, h.1, h.2⟩

/-! ## A zero divisor in the bit update -/

/-- C11. A zero divisor is not saturated: on the graph with two bits joined by one check and
the channel values `0` and `-1`, the first check update leaves `msgBit2Check[0] = 0` and
`msgCheck[0] = 0`, and the bit update that follows stores a NaN in `msgCheck2Bit[0]`, not
`2 * 19.07` or `-2 * 19.07`; the NaN reaches `msgBit[0]`, and `Decode` with a budget of one
round returns these arrays. -/
theorem zero_divisor_gives_nan :
    (UpdateCheck xdOps (mkGraph 2 1 2 [0, 1])
        (startState xdOps (mkGraph 2 1 2 [0, 1]) (InitMessage xdOps (mkGraph 2 1 2 [0, 1]))
          [.fin 0, .fin (-1)])).msgBit2Check.getD 0 xdOps.zero = .fin 0
    ∧ (UpdateCheck xdOps (mkGraph 2 1 2 [0, 1])
        (startState xdOps (mkGraph 2 1 2 [0, 1]) (InitMessage xdOps (mkGraph 2 1 2 [0, 1]))
          [.fin 0, .fin (-1)])).msgCheck.getD 0 xdOps.zero = .fin 0
    ∧ (round xdOps (mkGraph 2 1 2 [0, 1])
        (startState xdOps (mkGraph 2 1 2 [0, 1]) (InitMessage xdOps (mkGraph 2 1 2 [0, 1]))
          [.fin 0, .fin (-1)])).msgCheck2Bit.getD 0 xdOps.zero = .nan
    ∧ (Decode xdOps (mkGraph 2 1 2 [0, 1]) (InitMessage xdOps (mkGraph 2 1 2 [0, 1]))
        [.fin 0, .fin (-1)] 1).nIteration = 1
    ∧ (Decode xdOps (mkGraph 2 1 2 [0, 1]) (InitMessage xdOps (mkGraph 2 1 2 [0, 1]))
        [.fin 0, .fin (-1)] 1).msgs.msgCheck2Bit.getD 0 xdOps.zero = .nan
    ∧ (Decode xdOps (mkGraph 2 1 2 [0, 1]) (InitMessage xdOps (mkGraph 2 1 2 [0, 1]))
        [.fin 0, .fin (-1)] 1).msgs.msgBit.getD 0 xdOps.zero = .nan
    ∧ XDouble.nan ≠ xdOps.mul xdOps.two xdOps.sat
    ∧ XDouble.nan ≠ xdOps.mul xdOps.two (xdOps.neg xdOps.sat) := by
  decide!

/-! ## Bounds-checked execution stays in bounds -/

theorem checked_read_eq {α : Type} (a : List α) (i : Nat) (d : α) (h : i < a.length) :
    Checked.read a i = some (a.getD i d) := by
  unfold Checked.read
  rw [List.getD_eq_getElem?_getD, List.getElem?_eq_getElem h]
  rfl

theorem checked_write_eq {α : Type} (a : List α) (i : Nat) (v : α) (h : i < a.length) :
    Checked.write a i v = some (a.set i v) := by
  unfold Checked.write
  rw [if_pos h]

theorem checked_readAt_eq {α : Type} (a : List α) (i : Int) (d : α) (h0 : 0 ≤ i)
    (h : i.toNat < a.length) : Checked.readAt a i = some (getAt a i d) := by
  unfold Checked.readAt getAt
  rw [if_pos h0, if_pos h0, List.getD_eq_getElem?_getD, List.getElem?_eq_getElem h]
  rfl

theorem checked_writeAt_eq {α : Type} (a : List α) (i : Int) (v : α) (h0 : 0 ≤ i)
    (h : i.toNat < a.length) : Checked.writeAt a i v = some (setAt a i v) := by
  unfold Checked.writeAt setAt
  rw [if_pos ⟨h0, h⟩, if_pos h0]

theorem checked_forLoop_eq {σ : Type} (n : Nat) (body' : Nat → σ → Option σ)
    (body : Nat → σ → σ) (s : σ)
    (h : ∀ k, k < n → body' k (forLoop k body s) = some (body k (forLoop k body s))) :
    Checked.forLoop n body' s = some (forLoop n body s) := by
  induction n with
  | zero => rfl
  | succ n ih =>
    unfold Checked.forLoop
    rw [ih (fun k hk => h k (by omega))]
    exact h n (by omega)

theorem checked_row_loop {α β : Type} (op : β → α → β) (L : List α) (d : α) (row : List Int)
    (n : Nat) (hn : n ≤ row.length) (hr : ∀ x ∈ row, 0 ≤ x ∧ x.toNat < L.length) (a : β) :
    Checked.forLoop n (fun k acc =>
        (Checked.read row k).bind fun e => (Checked.readAt L e).bind fun x => some (op acc x)) a
      = some (forLoop n (fun k acc => op acc (getAt L (row.getD k 0) d)) a) := by
  apply checked_forLoop_eq
  intro k hk
  have hk' : k < row.length := by omega
  have hmem : row.getD k 0 ∈ row := by
    rw [List.getD_eq_getElem?_getD, List.getElem?_eq_getElem hk']
    exact List.getElem_mem hk'
  simp only [checked_read_eq row k 0 hk', Option.some_bind,
    checked_readAt_eq L _ d (hr _ hmem).1 (hr _ hmem).2]

theorem checked_write_loop {α : Type} (n : Nat) (v' : Nat → Option α) (v : Nat → α)
    (a : List α) (hlen : n ≤ a.length) (hv : ∀ k, k < n → v' k = some (v k)) :
    Checked.forLoop n (fun i a => (v' i).bind fun x => Checked.write a i x) a
      = some (forLoop n (fun i a => a.set i (v i)) a) := by
  apply checked_forLoop_eq
  intro k hk
  simp only [hv k hk, Option.some_bind]
  exact checked_write_eq _ k _ (by rw [length_forLoop_set (fun i _ => v i)]; omega)

theorem checked_updateCheck_eq {D : Type} (ops : DoubleOps D) (g : Graph) (m : Messages D)
    (hg : IndexSafe g) (hm : MsgShape g m) :
    Checked.UpdateCheck ops g m = some (UpdateCheck ops g m) := by
  unfold Checked.UpdateCheck
  simp only [Option.bind_eq_bind, Option.pure_def]
  rw [checked_write_loop g.nEdge _
    (fun iEdge => ops.tanh (ops.div
        (ops.sub (getAt m.msgBit (g.idxBit.getD iEdge 0) ops.zero)
          (m.msgCheck2Bit.getD iEdge ops.zero)) ops.two))
    m.msgBit2Check (by rw [hm.msgBit2Check_length])
    (fun k hk => by
      simp only [checked_read_eq g.idxBit k 0 (by rw [hg.idxBit_length]; exact hk),
        Option.some_bind,
        checked_readAt_eq m.msgBit _ ops.zero (hg.idxBit_range k hk).1
          (by rw [hm.msgBit_length]; exact (hg.idxBit_range k hk).2),
        checked_read_eq m.msgCheck2Bit k ops.zero (by rw [hm.msgCheck2Bit_length]; exact hk)])]
  simp only [Option.some_bind]
  rw [checked_write_loop g.nCheck _
    (fun iCheck => forLoop (g.degCheck.getD iCheck 0) (fun iEdge2Check msgCheck_iCheck =>
        ops.mul msgCheck_iCheck
          (getAt (UpdateCheck ops g m).msgBit2Check
            ((g.idxEdge2Check.getD iCheck []).getD iEdge2Check 0) ops.zero))
      ops.one)
    m.msgCheck (by rw [hm.msgCheck_length])
    (fun k hk => by
      simp only [checked_read_eq g.degCheck k 0 (by rw [hg.degCheck_length]; exact hk),
        Option.some_bind,
        checked_read_eq g.idxEdge2Check k [] (by rw [hg.idxEdge2Check_length]; exact hk)]
      exact checked_row_loop ops.mul _ ops.zero _ _ (le_of_eq (hg.rowCheck_length k hk).symm)
        (fun x hx => by
          have := hg.rowCheck_range k hk x hx
          rw [length_forLoop_set (fun i _ => _), hm.msgBit2Check_length]
          exact this) ops.one)]
  rfl

theorem checked_updateBit_eq {D : Type} (ops : DoubleOps D) (g : Graph) (m : Messages D)
    (hg : IndexSafe g) (hm : MsgShape g m) :
    Checked.UpdateBit ops g m = some (UpdateBit ops g m) := by
  unfold Checked.UpdateBit
  simp only [Option.bind_eq_bind, Option.pure_def]
  rw [checked_write_loop g.nEdge _
    (fun iEdge => ops.mul ops.two (atanh ops (ops.div
        (getAt m.msgCheck (g.idxCheck.getD iEdge 0) ops.zero)
        (m.msgBit2Check.getD iEdge ops.zero))))
    m.msgCheck2Bit (by rw [hm.msgCheck2Bit_length])
    (fun k hk => by
      simp only [checked_read_eq g.idxCheck k 0 (by rw [hg.idxCheck_length]; exact hk),
        Option.some_bind,
        checked_readAt_eq m.msgCheck _ ops.zero (hg.idxCheck_range k hk).1
          (by rw [hm.msgCheck_length]; exact (hg.idxCheck_range k hk).2),
        checked_read_eq m.msgBit2Check k ops.zero (by rw [hm.msgBit2Check_length]; exact hk)])]
  simp only [Option.some_bind]
  rw [checked_write_loop g.nBit _
    (fun iBit => forLoop (g.degBit.getD iBit 0) (fun iEdge2Bit msgBit_iBit =>
        ops.add msgBit_iBit
          (getAt (UpdateBit ops g m).msgCheck2Bit
            ((g.idxEdge2Bit.getD iBit []).getD iEdge2Bit 0) ops.zero))
      (m.msgChannel.getD iBit ops.zero))
    m.msgBit (by rw [hm.msgBit_length])
    (fun k hk => by
      simp only [checked_read_eq m.msgChannel k ops.zero (by rw [hm.msgChannel_length]; exact hk),
        checked_read_eq g.degBit k 0 (by rw [hg.degBit_length]; exact hk),
        Option.some_bind,
        checked_read_eq g.idxEdge2Bit k [] (by rw [hg.idxEdge2Bit_length]; exact hk)]
      exact checked_row_loop ops.add _ ops.zero _ _ (le_of_eq (hg.rowBit_length k hk).symm)
        (fun x hx => by
          have := hg.rowBit_range k hk x hx
          rw [length_forLoop_set (fun i _ => _), hm.msgCheck2Bit_length]
          exact this) _)]
  rfl

theorem checked_HDD_eq {D : Type} (ops : DoubleOps D) (g : Graph) (m : Messages D)
    (hm : m.msgBit.length = g.nBit) : Checked.HDD ops g m = some (HDD ops g m) := by
  unfold Checked.HDD
  simp only [Option.bind_eq_bind, Option.pure_def]
  rw [checked_write_loop g.nBit _
    (fun iBit => if ops.lt (m.msgBit.getD iBit ops.zero) ops.zero then 1 else 0)
    (List.replicate g.nBit 0) (by simp)
    (fun k hk => by
      simp only [checked_read_eq m.msgBit k ops.zero (by rw [hm]; exact hk), Option.some_bind])]
  rfl

theorem length_HDD {D : Type} (ops : DoubleOps D) (g : Graph) (m : Messages D) :
    (HDD ops g m).length = g.nBit := by
  unfold HDD
  rw [length_forLoop_set (fun i _ => _)]
  simp

theorem checked_parity_eq (g : Graph) (hg : IndexSafe g) (cHat : List Nat)
    (hc : cHat.length = g.nBit) (iCheck : Nat) (hi : iCheck < g.nCheck) :
    Checked.IsValid.parity g cHat iCheck = some (IsValid.parity g cHat iCheck) := by
  unfold Checked.IsValid.parity IsValid.parity
  simp only [Option.bind_eq_bind, Option.pure_def,
    checked_read_eq g.degCheck iCheck 0 (by rw [hg.degCheck_length]; exact hi),
    Option.some_bind,
    checked_read_eq g.idxEdge2Check iCheck [] (by rw [hg.idxEdge2Check_length]; exact hi)]
  apply checked_forLoop_eq
  intro k hk
  have hk' : k < (g.idxEdge2Check.getD iCheck []).length := by
    rw [hg.rowCheck_length iCheck hi]; exact hk
  have hmem : (g.idxEdge2Check.getD iCheck []).getD k 0 ∈ g.idxEdge2Check.getD iCheck [] := by
    rw [List.getD_eq_getElem?_getD (g.idxEdge2Check.getD iCheck []),
      List.getElem?_eq_getElem hk']
    exact List.getElem_mem hk'
  have he := hg.rowCheck_range iCheck hi _ hmem
  have hb : 0 ≤ getAt g.idxBit ((g.idxEdge2Check.getD iCheck []).getD k 0) 0
      ∧ (getAt g.idxBit ((g.idxEdge2Check.getD iCheck []).getD k 0) 0).toNat < g.nBit := by
    have h1 : getAt g.idxBit ((g.idxEdge2Check.getD iCheck []).getD k 0) 0
        = g.idxBit.getD ((g.idxEdge2Check.getD iCheck []).getD k 0).toNat 0 := by
      unfold getAt
      rw [if_pos he.1]
    rw [h1]
    exact hg.idxBit_range _ he.2
  simp only [checked_read_eq _ k 0 hk', Option.some_bind,
    checked_readAt_eq g.idxBit _ 0 he.1 (by rw [hg.idxBit_length]; exact he.2),
    checked_readAt_eq cHat _ 0 hb.1 (by rw [hc]; exact hb.2)]

theorem checked_isValid_loop_eq (g : Graph) (hg : IndexSafe g) (cHat : List Nat)
    (hc : cHat.length = g.nBit) (r : Nat) :
    ∀ i, i + r ≤ g.nCheck →
      Checked.IsValid.loop g cHat r i = some (IsValid.loop g cHat r i) := by
  induction r with
  | zero => intro i _; rfl
  | succ r ih =>
    intro i hi
    unfold Checked.IsValid.loop IsValid.loop
    rw [checked_parity_eq g hg cHat hc i (by omega)]
    simp only [Option.some_bind]
    split
    · rfl
    · exact ih (i + 1) (by omega)

theorem checked_isValid_eq (g : Graph) (hg : IndexSafe g) (cHat : List Nat)
    (hc : cHat.length = g.nBit) : Checked.IsValid g cHat = some (IsValid g cHat) :=
  checked_isValid_loop_eq g hg cHat hc g.nCheck 0 (by omega)

theorem checked_decode_loop_eq {D : Type} (ops : DoubleOps D) (g : Graph) (hg : IndexSafe g)
    (r : Nat) :
    ∀ (it : Nat) (m : Messages D) (c : List Nat), MsgShape g m →
      Checked.Decode.loop ops g r it m c = some (Decode.loop ops g r it m c) := by
  induction r with
  | zero => intro it m c _; rfl
  | succ r ih =>
    intro it m c hm
    have h1 := msgShape_updateCheck ops g m hm
    have h2 := msgShape_updateBit ops g _ h1
    unfold Checked.Decode.loop Decode.loop
    rw [checked_updateCheck_eq ops g m hg hm]
    simp only [Option.some_bind]
    rw [checked_updateBit_eq ops g _ hg h1]
    simp only [Option.some_bind]
    rw [checked_HDD_eq ops g _ h2.msgBit_length]
    simp only [Option.some_bind]
    rw [checked_isValid_eq g hg _ (length_HDD ops g _)]
    simp only [Option.some_bind]
    split
    · rfl
    · exact ih _ _ _ h2

theorem checked_decode_eq {D : Type} (ops : DoubleOps D) (g : Graph) (hg : IndexSafe g)
    (m : Messages D) (rxLLR : List D) (nIterationMax : Nat) (hm : MsgShape g m)
    (hrx : rxLLR.length = g.nBit) :
    Checked.Decode ops g m rxLLR nIterationMax = some (Decode ops g m rxLLR nIterationMax) := by
  have hc : Checked.UpdateChannel g m rxLLR = some (UpdateChannel g m rxLLR) := by
    unfold Checked.UpdateChannel Checked.memcpy
    simp only [Option.bind_eq_bind, Option.pure_def]
    rw [if_pos ⟨by omega, by rw [hm.msgChannel_length]⟩]
    simp only [Option.some_bind]
    rw [if_pos ⟨by rw [memcpy_eq _ _ _ hm.msgChannel_length hrx, hrx],
      by rw [hm.msgBit_length]⟩]
    rfl
  have h0 : MsgShape g (UpdateChannel g m rxLLR) := by
    rw [updateChannel_eq g m rxLLR hm hrx]
    exact ⟨hrx, hrx, hm.msgCheck_length, hm.msgBit2Check_length, hm.msgCheck2Bit_length⟩
  have h1 : MsgShape g (clearCheck2Bit ops g (UpdateChannel g m rxLLR)) := by
    refine ⟨h0.msgChannel_length, h0.msgBit_length, h0.msgCheck_length,
      h0.msgBit2Check_length, ?_⟩
    show (memset _ ops.zero g.nEdge).length = g.nEdge
    rw [memset_eq _ _ _ h0.msgCheck2Bit_length]
    simp
  unfold Checked.Decode Decode
  rw [hc]
  simp only [Option.some_bind]
  rw [checked_HDD_eq ops g _ h0.msgBit_length]
  simp only [Option.some_bind]
  rw [checked_isValid_eq g hg _ (length_HDD ops g _)]
  simp only [Option.some_bind]
  split
  · rfl
  · unfold Checked.memset
    rw [if_pos (by rw [h0.msgCheck2Bit_length])]
    simp only [Option.some_bind]
    exact checked_decode_loop_eq ops g hg nIterationMax 0 _ _ h1

theorem getD_set_self {α : Type} (a : List α) (i : Nat) (v d : α) (h : i < a.length) :
    (a.set i v).getD i d = v := by
  rw [List.getD_eq_getElem?_getD, List.getElem?_set_self h]
  rfl

theorem checked_calculateDegree_body_eq (idxLinear : List Nat) (k : Nat) (g : Graph)
    (hx : k < idxLinear.length) (hb : k < g.idxBit.length) (hc : k < g.idxCheck.length)
    (hvb : 0 ≤ toInt32 (toUInt32 (idxLinear.getD k 0) / g.nCheck)
      ∧ (toInt32 (toUInt32 (idxLinear.getD k 0) / g.nCheck)).toNat < g.degBit.length)
    (hvc : 0 ≤ toInt32 (toUInt32 (idxLinear.getD k 0) % g.nCheck)
      ∧ (toInt32 (toUInt32 (idxLinear.getD k 0) % g.nCheck)).toNat < g.degCheck.length) :
    Checked.CalculateDegree.body idxLinear k g = some (CalculateDegree.body idxLinear k g) := by
  unfold Checked.CalculateDegree.body CalculateDegree.body
  simp only [Option.bind_eq_bind, Option.pure_def]
  rw [checked_read_eq idxLinear k 0 hx]
  simp only [Option.some_bind]
  rw [checked_write_eq g.idxBit k _ hb]
  simp only [Option.some_bind]
  rw [checked_write_eq g.idxCheck k _ hc]
  simp only [Option.some_bind]
  rw [checked_read_eq (g.idxBit.set k _) k 0 (by rw [List.length_set]; exact hb)]
  simp only [Option.some_bind]
  rw [checked_read_eq (g.idxCheck.set k _) k 0 (by rw [List.length_set]; exact hc)]
  rw [getD_set_self _ _ _ _ hb, getD_set_self _ _ _ _ hc]
  rw [checked_readAt_eq g.degBit _ 0 hvb.1 hvb.2]
  simp only [Option.some_bind]
  rw [checked_writeAt_eq g.degBit _ _ hvb.1 hvb.2]
  simp only [Option.some_bind]
  rw [checked_readAt_eq g.degCheck _ 0 hvc.1 hvc.2]
  simp only [Option.some_bind]
  rw [checked_writeAt_eq g.degCheck _ _ hvc.1 hvc.2]
  simp only [Option.some_bind]

theorem checked_calculateDegree_eq (g0 : Graph) (idxLinear : List Nat)
    (hin : ValidInput g0.nBit g0.nCheck g0.nEdge idxLinear) :
    Checked.CalculateDegree g0 idxLinear = some (CalculateDegree g0 idxLinear) := by
  unfold Checked.CalculateDegree CalculateDegree
  apply checked_forLoop_eq
  intro k hk
  rw [calculateDegree_loop g0 idxLinear k (le_of_lt hk)]
  obtain ⟨b, hb, hbe⟩ := edgeBit_range g0.nBit g0.nCheck g0.nEdge idxLinear hin k hk
  obtain ⟨c, hc, hce⟩ := edgeCheck_range g0.nBit g0.nCheck g0.nEdge idxLinear hin k hk
  unfold edgeBit at hbe
  unfold edgeCheck at hce
  apply checked_calculateDegree_body_eq
  · rw [hin.length_eq]; exact hk
  · simp only [List.length_map, List.length_range]; exact hk
  · simp only [List.length_map, List.length_range]; exact hk
  · show 0 ≤ toInt32 (toUInt32 (idxLinear.getD k 0) / g0.nCheck) ∧ _
    rw [hbe]
    simp only [List.length_map, List.length_range]
    exact ⟨Int.ofNat_nonneg b, by simpa using hb⟩
  · show 0 ≤ toInt32 (toUInt32 (idxLinear.getD k 0) % g0.nCheck) ∧ _
    rw [hce]
    simp only [List.length_map, List.length_range]
    exact ⟨Int.ofNat_nonneg c, by simpa using hc⟩

theorem checked_buildEdge_step_eq (idx : List Int) (k : Nat) (s : List (List Int) × List Nat)
    (hk : k < idx.length) (h0 : 0 ≤ idx.getD k 0)
    (h2 : (idx.getD k 0).toNat < s.2.length) (h1 : (idx.getD k 0).toNat < s.1.length)
    (hcur : getAt s.2 (idx.getD k 0) 0 < (getAt s.1 (idx.getD k 0) []).length) :
    Checked.BuildEdge.step idx k s = some (BuildEdge.step idx k s) := by
  unfold Checked.BuildEdge.step BuildEdge.step
  simp only [Option.bind_eq_bind, Option.pure_def]
  rw [checked_read_eq idx k 0 hk]
  simp only [Option.some_bind]
  rw [checked_readAt_eq s.2 _ 0 h0 h2]
  simp only [Option.some_bind]
  rw [checked_readAt_eq s.1 _ [] h0 h1]
  simp only [Option.some_bind]
  rw [checked_write_eq _ _ _ hcur]
  simp only [Option.some_bind]
  rw [checked_writeAt_eq s.1 _ _ h0 h1]
  simp only [Option.some_bind]
  rw [checked_writeAt_eq s.2 _ _ h0 h2]
  simp only [Option.some_bind]

theorem checked_buildEdge_side (n nEdge : Nat) (f : Nat → Int)
    (hf : ∀ e, e < nEdge → ∃ b, b < n ∧ f e = (b : Int)) (k : Nat) (hk : k < nEdge) :
    Checked.BuildEdge.step ((List.range nEdge).map f) k
      (forLoop k (BuildEdge.step ((List.range nEdge).map f))
        ((List.range n).map (fun b => List.replicate (edgesAt f nEdge b).length (-1)),
          List.replicate n 0))
    = some (BuildEdge.step ((List.range nEdge).map f) k
      (forLoop k (BuildEdge.step ((List.range nEdge).map f))
        ((List.range n).map (fun b => List.replicate (edgesAt f nEdge b).length (-1)),
          List.replicate n 0))) := by
  rw [buildEdge_side n nEdge f k (le_of_lt hk)]
  obtain ⟨b, hb, hfb⟩ := hf k hk
  have hnode : ((List.range nEdge).map f).getD k 0 = (b : Int) := by
    rw [getD_map_range _ _ _ _ hk, hfb]
  have hlt : (edgesAt f k b).length < (edgesAt f nEdge b).length := by
    have h1 := edgesAt_length_mono f b (k + 1) nEdge (by omega)
    rw [edgesAt_succ, List.length_append] at h1
    simp [hfb] at h1
    omega
  apply checked_buildEdge_step_eq
  · simp only [List.length_map, List.length_range]; exact hk
  · rw [hnode]; exact Int.ofNat_nonneg b
  · rw [hnode]; simpa using hb
  · rw [hnode]; simpa using hb
  · rw [hnode]
    show getAt ((List.range n).map (fun b => (edgesAt f k b).length)) (b : Int) 0
      < (getAt ((List.range n).map (fun b => (edgesAt f k b).map Int.ofNat
          ++ List.replicate ((edgesAt f nEdge b).length - (edgesAt f k b).length) (-1)))
        (b : Int) []).length
    rw [getAt_map_range _ _ _ _ hb, getAt_map_range _ _ _ _ hb]
    simp only [List.length_append, List.length_map, List.length_replicate]
    omega

theorem checked_forLoop_prod {σ τ : Type} (n : Nat) (f' : Nat → σ → Option σ)
    (g' : Nat → τ → Option τ) (f : Nat → σ → σ) (g : Nat → τ → τ) (a : σ) (b : τ)
    (hf : ∀ k, k < n → f' k (forLoop k f a) = some (f k (forLoop k f a)))
    (hg : ∀ k, k < n → g' k (forLoop k g b) = some (g k (forLoop k g b))) :
    Checked.forLoop n (fun i (s : σ × τ) =>
        (f' i s.1).bind fun s1 => (g' i s.2).bind fun s2 => some (s1, s2)) (a, b)
      = some (forLoop n (fun i (s : σ × τ) => (f i s.1, g i s.2)) (a, b)) := by
  apply checked_forLoop_eq
  intro k hk
  rw [forLoop_prod]
  simp only [hf k hk, hg k hk, Option.some_bind]

theorem checked_alloc_eq (n : Nat) (deg : List Nat) (h : n ≤ deg.length) :
    Checked.BuildEdge.alloc n deg = some (BuildEdge.alloc n deg) := by
  unfold Checked.BuildEdge.alloc BuildEdge.alloc
  simp only [Option.bind_eq_bind, Option.pure_def]
  exact checked_write_loop n _ (fun i => List.replicate (deg.getD i 0) (-1)) _ (by simp)
    (fun k hk => by
      simp only [checked_read_eq deg k 0 (by omega), Option.some_bind])

theorem checked_mkGraph_eq (nBit nCheck nEdge : Nat) (idxLinear : List Nat)
    (hin : ValidInput nBit nCheck nEdge idxLinear) :
    Checked.mkGraph nBit nCheck nEdge idxLinear = some (mkGraph nBit nCheck nEdge idxLinear) := by
  have hal : ∀ (n : Nat) (f : Nat → Int),
      BuildEdge.alloc n ((List.range n).map (fun b => (edgesAt f nEdge b).length))
        = (List.range n).map (fun b => List.replicate (edgesAt f nEdge b).length (-1)) := by
    intro n f
    rw [alloc_eq]
    apply List.map_congr_left
    intro b hb
    simp at hb
    rw [getD_map_range _ _ _ _ hb]
  unfold Checked.mkGraph mkGraph
  simp only [Option.bind_eq_bind]
  rw [checked_calculateDegree_eq _ idxLinear hin]
  simp only [Option.some_bind]
  rw [calculateDegree_eq]
  unfold Checked.BuildEdge BuildEdge
  simp only [Option.bind_eq_bind, Option.pure_def]
  rw [checked_alloc_eq nBit _ (by simp)]
  simp only [Option.some_bind]
  rw [checked_alloc_eq nCheck _ (by simp)]
  simp only [Option.some_bind]
  rw [hal, hal]
  rw [checked_forLoop_prod nEdge _ _ (BuildEdge.step _) (BuildEdge.step _) _ _
    (checked_buildEdge_side nBit nEdge _ (edgeBit_range nBit nCheck nEdge idxLinear hin))
    (checked_buildEdge_side nCheck nEdge _ (edgeCheck_range nBit nCheck nEdge idxLinear hin))]
  simp only [Option.some_bind]

theorem mkGraph_indexSafe (nBit nCheck nEdge : Nat) (idxLinear : List Nat)
    (hin : ValidInput nBit nCheck nEdge idxLinear) :
    IndexSafe (mkGraph nBit nCheck nEdge idxLinear) := by
  rw [mkGraph_eq]
  refine ⟨by simp, by simp, by simp, by simp, by simp, by simp, ?_, ?_, ?_, ?_, ?_, ?_⟩
  · intro e he
    obtain ⟨b, hb, hbe⟩ := edgeBit_range nBit nCheck nEdge idxLinear hin e he
    show 0 ≤ ((List.range nEdge).map (edgeBit nCheck idxLinear)).getD e 0
      ∧ (((List.range nEdge).map (edgeBit nCheck idxLinear)).getD e 0).toNat < nBit
    rw [getD_map_range _ _ _ _ he, hbe]
    exact ⟨Int.ofNat_nonneg b, by simpa using hb⟩
  · intro e he
    obtain ⟨c, hc, hce⟩ := edgeCheck_range nBit nCheck nEdge idxLinear hin e he
    show 0 ≤ ((List.range nEdge).map (edgeCheck nCheck idxLinear)).getD e 0
      ∧ (((List.range nEdge).map (edgeCheck nCheck idxLinear)).getD e 0).toNat < nCheck
    rw [getD_map_range _ _ _ _ he, hce]
    exact ⟨Int.ofNat_nonneg c, by simpa using hc⟩
  · intro b hb
    show (((List.range nBit).map
        (fun b => (edgesAt (edgeBit nCheck idxLinear) nEdge b).map Int.ofNat)).getD b []).length
      = ((List.range nBit).map
        (fun b => (edgesAt (edgeBit nCheck idxLinear) nEdge b).length)).getD b 0
    rw [getD_map_range _ _ _ _ hb, getD_map_range _ _ _ _ hb, List.length_map]
  · intro c hc
    show (((List.range nCheck).map
        (fun c => (edgesAt (edgeCheck nCheck idxLinear) nEdge c).map Int.ofNat)).getD c []).length
      = ((List.range nCheck).map
        (fun c => (edgesAt (edgeCheck nCheck idxLinear) nEdge c).length)).getD c 0
    rw [getD_map_range _ _ _ _ hc, getD_map_range _ _ _ _ hc, List.length_map]
  · intro b hb x hx
    change x ∈ ((List.range nBit).map
        (fun b => (edgesAt (edgeBit nCheck idxLinear) nEdge b).map Int.ofNat)).getD b [] at hx
    rw [getD_map_range _ _ _ _ hb, List.mem_map] at hx
    obtain ⟨e, he, rfl⟩ := hx
    rw [mem_edgesAt] at he
    exact ⟨Int.ofNat_nonneg e, by simpa using he.1⟩
  · intro c hc x hx
    change x ∈ ((List.range nCheck).map
        (fun c => (edgesAt (edgeCheck nCheck idxLinear) nEdge c).map Int.ofNat)).getD c [] at hx
    rw [getD_map_range _ _ _ _ hc, List.mem_map] at hx
    obtain ⟨e, he, rfl⟩ := hx
    rw [mem_edgesAt] at he
    exact ⟨Int.ofNat_nonneg e, by simpa using he.1⟩

theorem buildEdge_cursor_lt (nBit nCheck nEdge : Nat) (idxLinear : List Nat)
    (hin : ValidInput nBit nCheck nEdge idxLinear) (k : Nat) (hk : k < nEdge) :
    getAt (BuildEdge.loopState (degreeGraph nBit nCheck nEdge idxLinear) k).1.2
        ((degreeGraph nBit nCheck nEdge idxLinear).idxBit.getD k 0) 0
      < getAt (degreeGraph nBit nCheck nEdge idxLinear).degBit
        ((degreeGraph nBit nCheck nEdge idxLinear).idxBit.getD k 0) 0
    ∧ getAt (BuildEdge.loopState (degreeGraph nBit nCheck nEdge idxLinear) k).2.2
        ((degreeGraph nBit nCheck nEdge idxLinear).idxCheck.getD k 0) 0
      < getAt (degreeGraph nBit nCheck nEdge idxLinear).degCheck
        ((degreeGraph nBit nCheck nEdge idxLinear).idxCheck.getD k 0) 0 := by
  have hal : ∀ (n : Nat) (f : Nat → Int),
      BuildEdge.alloc n ((List.range n).map (fun b => (edgesAt f nEdge b).length))
        = (List.range n).map (fun b => List.replicate (edgesAt f nEdge b).length (-1)) := by
    intro n f
    rw [alloc_eq]
    apply List.map_congr_left
    intro b hb
    simp at hb
    rw [getD_map_range _ _ _ _ hb]
  have hlt : ∀ (f : Nat → Int) (b : Nat), f k = (b : Int) →
      (edgesAt f k b).length < (edgesAt f nEdge b).length := by
    intro f b hfb
    have h1 := edgesAt_length_mono f b (k + 1) nEdge (by omega)
    rw [edgesAt_succ, List.length_append] at h1
    simp [hfb] at h1
    omega
  obtain ⟨b, hb, hbe⟩ := edgeBit_range nBit nCheck nEdge idxLinear hin k hk
  obtain ⟨c, hc, hce⟩ := edgeCheck_range nBit nCheck nEdge idxLinear hin k hk
  unfold BuildEdge.loopState degreeGraph
  rw [calculateDegree_eq]
  simp only []
  rw [forLoop_prod, hal, hal, buildEdge_side _ _ _ _ (le_of_lt hk),
    buildEdge_side _ _ _ _ (le_of_lt hk), getD_map_range _ _ _ _ hk, getD_map_range _ _ _ _ hk,
    hbe, hce, getAt_map_range _ _ _ _ hb, getAt_map_range _ _ _ _ hb,
    getAt_map_range _ _ _ _ hc, getAt_map_range _ _ _ _ hc]
  exact ⟨hlt _ b hbe, hlt _ c hce⟩

/-- C20. Index safety: for `int`s `nBit` and `nCheck` and an edge list of `nEdge` entries below
`nBit * nCheck`, construction yields `idxBit[e]` in `[0, nBit)` and `idxCheck[e]` in
`[0, nCheck)` for every edge `e`; whenever the edge loop of `BuildEdge` reaches an edge, the
write cursor of its bit node and of its check node is below that node's degree; every adjacency
entry lies in `[0, nEdge)`; and the bounds-checked construction and the bounds-checked `Decode`
(on message arrays of the allocated sizes and `nBit` channel values) never leave an array: they
return what the unchecked functions return. -/
theorem index_safety {D : Type} (ops : DoubleOps D) (nBit nCheck nEdge : Nat)
    (idxLinear : List Nat) (m : Messages D) (channelLLR : List D) (nIterationMax : Nat)
    (hin : ValidInput nBit nCheck nEdge idxLinear)
    (hm : MsgShape (mkGraph nBit nCheck nEdge idxLinear) m)
    (hrx : channelLLR.length = nBit) :
    (∀ e, e < nEdge →
      (0 ≤ (mkGraph nBit nCheck nEdge idxLinear).idxBit.getD e 0
        ∧ (mkGraph nBit nCheck nEdge idxLinear).idxBit.getD e 0 < (nBit : Int))
      ∧ (0 ≤ (mkGraph nBit nCheck nEdge idxLinear).idxCheck.getD e 0
        ∧ (mkGraph nBit nCheck nEdge idxLinear).idxCheck.getD e 0 < (nCheck : Int)))
    ∧ (∀ k, k < nEdge →
      getAt (BuildEdge.loopState (degreeGraph nBit nCheck nEdge idxLinear) k).1.2
          ((degreeGraph nBit nCheck nEdge idxLinear).idxBit.getD k 0) 0
        < getAt (degreeGraph nBit nCheck nEdge idxLinear).degBit
          ((degreeGraph nBit nCheck nEdge idxLinear).idxBit.getD k 0) 0
      ∧ getAt (BuildEdge.loopState (degreeGraph nBit nCheck nEdge idxLinear) k).2.2
          ((degreeGraph nBit nCheck nEdge idxLinear).idxCheck.getD k 0) 0
        < getAt (degreeGraph nBit nCheck nEdge idxLinear).degCheck
          ((degreeGraph nBit nCheck nEdge idxLinear).idxCheck.getD k 0) 0)
    ∧ (∀ b, b < nBit → ∀ x ∈ (mkGraph nBit nCheck nEdge idxLinear).idxEdge2Bit.getD b [],
      0 ≤ x ∧ x < (nEdge : Int))
    ∧ (∀ c, c < nCheck → ∀ x ∈ (mkGraph nBit nCheck nEdge idxLinear).idxEdge2Check.getD c [],
      0 ≤ x ∧ x < (nEdge : Int))
    ∧ Checked.mkGraph nBit nCheck nEdge idxLinear = some (mkGraph nBit nCheck nEdge idxLinear)
    ∧ Checked.Decode ops (mkGraph nBit nCheck nEdge idxLinear) m channelLLR nIterationMax
      = some (Decode ops (mkGraph nBit nCheck nEdge idxLinear) m channelLLR nIterationMax) := by
  have hs := mkGraph_indexSafe nBit nCheck nEdge idxLinear hin
  have hn : (mkGraph nBit nCheck nEdge idxLinear).nBit = nBit
      ∧ (mkGraph nBit nCheck nEdge idxLinear).nCheck = nCheck
      ∧ (mkGraph nBit nCheck nEdge idxLinear).nEdge = nEdge := by
    rw [mkGraph_eq]
    exact ⟨rfl, rfl, rfl⟩
  have hnat : ∀ (x : Int) (n : Nat), 0 ≤ x ∧ x.toNat < n → 0 ≤ x ∧ x < (n : Int) := by
    intro x n h
    refine ⟨h.1, ?_⟩
    have := h.2
    omega
  refine ⟨fun e he => ⟨?_, ?_⟩, buildEdge_cursor_lt nBit nCheck nEdge idxLinear hin,
    fun b hb' x hx => ?_, fun c hc' x hx => ?_,
    checked_mkGraph_eq nBit nCheck nEdge idxLinear hin,
    checked_decode_eq ops _ hs m channelLLR nIterationMax hm (by rw [hn.1]; exact hrx)⟩
  · have := hs.idxBit_range e (by rw [hn.2.2]; exact he)
    rw [hn.1] at this
    exact hnat _ _ this
  · have := hs.idxCheck_range e (by rw [hn.2.2]; exact he)
    rw [hn.2.1] at this
    exact hnat _ _ this
  · have := hs.rowBit_range b (by rw [hn.1]; exact hb') x hx
    rw [hn.2.2] at this
    exact hnat _ _ this
  · have := hs.rowCheck_range c (by rw [hn.2.1]; exact hc') x hx
    rw [hn.2.2] at this
    exact hnat _ _ this

/-- C20, at the (3, 1) repetition code with the channel values 4, 4, -4 and ten rounds. -/
theorem index_safety_witness :
    ValidInput 3 2 4 [0, 1, 2, 5]
    ∧ (∀ e : Nat, e < 4 →
      (0 ≤ (mkGraph 3 2 4 [0, 1, 2, 5]).idxBit.getD e 0
        ∧ (mkGraph 3 2 4 [0, 1, 2, 5]).idxBit.getD e 0 < ((3 : Nat) : Int))
      ∧ (0 ≤ (mkGraph 3 2 4 [0, 1, 2, 5]).idxCheck.getD e 0
        ∧ (mkGraph 3 2 4 [0, 1, 2, 5]).idxCheck.getD e 0 < ((2 : Nat) : Int)))
    ∧ Checked.mkGraph 3 2 4 [0, 1, 2, 5] = some (mkGraph 3 2 4 [0, 1, 2, 5])
    ∧ Checked.Decode ratOps (mkGraph 3 2 4 [0, 1, 2, 5])
        (InitMessage ratOps (mkGraph 3 2 4 [0, 1, 2, 5])) [4, 4, -4] 10
      = some (Decode ratOps (mkGraph 3 2 4 [0, 1, 2, 5])
        (InitMessage ratOps (mkGraph 3 2 4 [0, 1, 2, 5])) [4, 4, -4] 10) :=
  have h := index_safety ratOps 3 2 4 [0, 1, 2, 5]
    (InitMessage ratOps (mkGraph 3 2 4 [0, 1, 2, 5])) [4, 4, -4] 10
    ⟨by decide, by decide, by decide, by decide⟩ (msgShape_initMessage ratOps _) (by decide)
  ⟨⟨by decide, by decide, by decide, by decide⟩, h.1, h.2.2.2.2.1,
    h.2.2.2.2.2⟩

theorem checked_mkGraph_out_of_range : Checked.mkGraph 1 1 1 [5] = none := by decide

theorem checked_decode_short_input :
    Checked.Decode ratOps (mkGraph 1 1 1 [0]) (InitMessage ratOps (mkGraph 1 1 1 [0])) [] 1
      = none := by
  decide!

/-! ## Rounding to a double stays within bounds -/

theorem log2f_spec : ∀ fuel n : Nat, n ≤ fuel → 0 < n →
    2 ^ log2f fuel n ≤ n ∧ n < 2 ^ (log2f fuel n + 1) := by
  intro fuel
  induction fuel with
  | zero => intro n h1 h2; omega
  | succ f ih =>
    intro n h1 h2
    unfold log2f
    split
    · constructor
      · simpa using h2
      · simpa using (by omega : n < 2)
    · obtain ⟨h3, h4⟩ := ih (n / 2) (by omega) (by omega)
      rw [pow_succ] at h4 ⊢
      rw [pow_succ]
      constructor <;> omega

theorem log2aux_spec : ∀ j n acc : Nat, 0 < n → n < 2 ^ (2 ^ j) →
    ∃ k, log2aux j n acc = acc + k ∧ 2 ^ k ≤ n ∧ n < 2 ^ (k + 1) := by
  intro j
  induction j with
  | zero =>
    intro n acc h1 h2
    refine ⟨0, rfl, ?_, ?_⟩
    · simpa using h1
    · simpa using h2
  | succ j ih =>
    intro n acc h1 h2
    have hM : 0 < 2 ^ (2 ^ j) := Nat.two_pow_pos _
    have h2' : n < 2 ^ (2 ^ j) * 2 ^ (2 ^ j) := by
      rw [← pow_add, ← two_mul, ← pow_succ']
      exact h2
    unfold log2aux
    split
    · rename_i hle
      obtain ⟨k, hk, h3, h4⟩ := ih (n / 2 ^ (2 ^ j)) (acc + 2 ^ j)
        (Nat.div_pos hle hM) (Nat.div_lt_of_lt_mul h2')
      refine ⟨2 ^ j + k, by rw [hk]; omega, ?_, ?_⟩
      · rw [pow_add]
        calc 2 ^ (2 ^ j) * 2 ^ k ≤ 2 ^ (2 ^ j) * (n / 2 ^ (2 ^ j)) := Nat.mul_le_mul_left _ h3
          _ ≤ n := Nat.mul_div_le n _
      · rw [show 2 ^ j + k + 1 = 2 ^ j + (k + 1) by omega, pow_add]
        calc n < 2 ^ (2 ^ j) * (n / 2 ^ (2 ^ j) + 1) := Nat.lt_mul_div_succ n hM
          _ ≤ 2 ^ (2 ^ j) * 2 ^ (k + 1) := Nat.mul_le_mul_left _ h4
    · rename_i hlt
      exact ih n acc h1 (by omega)

theorem bitLog_spec (n : Nat) (h : 0 < n) : 2 ^ bitLog n ≤ n ∧ n < 2 ^ (bitLog n + 1) := by
  unfold bitLog
  by_cases hlt : n < 2 ^ (2 ^ 16)
  · rw [if_pos hlt]
    obtain ⟨k, hk, h1, h2⟩ := log2aux_spec 16 n 0 h hlt
    rw [hk, Nat.zero_add]
    exact ⟨h1, h2⟩
  · rw [if_neg hlt]
    exact log2f_spec n n (le_refl _) h

theorem expOf_spec (x : ℚ) (hx : 0 < x) :
    (2 : ℚ) ^ expOf x ≤ x ∧ x < (2 : ℚ) ^ (expOf x + 1) := by
  have hnum : 0 < x.num := Rat.num_pos.mpr hx
  have hn0 : 0 < x.num.natAbs := Int.natAbs_pos.mpr (ne_of_gt hnum)
  obtain ⟨ha1, ha2⟩ := bitLog_spec x.num.natAbs hn0
  obtain ⟨hb1, hb2⟩ := bitLog_spec x.den x.den_pos
  have hd : (0 : ℚ) < (x.den : ℚ) := by exact_mod_cast x.den_pos
  have hxd : x * (x.den : ℚ) = (x.num.natAbs : ℚ) := by
    have h2 : (x.num.natAbs : ℚ) = (x.num : ℚ) := by
      rw [Nat.cast_natAbs, abs_of_pos hnum]
    rw [h2]
    exact Rat.mul_den_eq_num x
  have ha1' : (2 : ℚ) ^ bitLog x.num.natAbs ≤ (x.num.natAbs : ℚ) := by exact_mod_cast ha1
  have ha2' : (x.num.natAbs : ℚ) < (2 : ℚ) ^ bitLog x.num.natAbs * 2 := by
    rw [← pow_succ]; exact_mod_cast ha2
  have hb1' : (2 : ℚ) ^ bitLog x.den ≤ (x.den : ℚ) := by exact_mod_cast hb1
  have hb2' : (x.den : ℚ) < (2 : ℚ) ^ bitLog x.den * 2 := by
    rw [← pow_succ]; exact_mod_cast hb2
  have hpa : (0 : ℚ) < (2 : ℚ) ^ bitLog x.num.natAbs := by positivity
  have hpb : (0 : ℚ) < (2 : ℚ) ^ bitLog x.den := by positivity
  have he0 : (2 : ℚ) ^ ((bitLog x.num.natAbs : ℤ) - (bitLog x.den : ℤ))
      = (2 : ℚ) ^ bitLog x.num.natAbs / (2 : ℚ) ^ bitLog x.den := by
    rw [zpow_sub₀ (by norm_num : (2 : ℚ) ≠ 0), zpow_natCast, zpow_natCast]
  have hup : x < (2 : ℚ) ^ ((bitLog x.num.natAbs : ℤ) - (bitLog x.den : ℤ) + 1) := by
    rw [zpow_add_one₀ (by norm_num : (2 : ℚ) ≠ 0), he0, div_mul_eq_mul_div, lt_div_iff₀ hpb]
    calc x * (2 : ℚ) ^ bitLog x.den ≤ x * (x.den : ℚ) :=
          mul_le_mul_of_nonneg_left hb1' (le_of_lt hx)
      _ = (x.num.natAbs : ℚ) := hxd
      _ < (2 : ℚ) ^ bitLog x.num.natAbs * 2 := ha2'
  have hlo : (2 : ℚ) ^ ((bitLog x.num.natAbs : ℤ) - (bitLog x.den : ℤ) - 1) ≤ x := by
    rw [zpow_sub_one₀ (by norm_num : (2 : ℚ) ≠ 0), he0, div_mul_eq_mul_div, div_le_iff₀ hpb]
    have h1 : (2 : ℚ) ^ bitLog x.num.natAbs ≤ x * ((2 : ℚ) ^ bitLog x.den * 2) := by
      calc (2 : ℚ) ^ bitLog x.num.natAbs ≤ (x.num.natAbs : ℚ) := ha1'
        _ = x * (x.den : ℚ) := hxd.symm
        _ ≤ x * ((2 : ℚ) ^ bitLog x.den * 2) :=
          mul_le_mul_of_nonneg_left (le_of_lt hb2') (le_of_lt hx)
    linarith
  unfold expOf
  split
  · rename_i h
    exact ⟨h, hup⟩
  · rename_i h
    refine ⟨hlo, ?_⟩
    rw [sub_add_cancel]
    exact lt_of_not_ge h

theorem roundHalfEven_le (t : ℚ) (N : ℤ) (h : t ≤ (N : ℚ)) : roundHalfEven t ≤ N := by
  have hf : (⌊t⌋ : ℚ) ≤ t := Int.floor_le t
  have h1 : ⌊t⌋ ≤ N := by exact_mod_cast le_trans hf h
  have h2 : 0 < t - (⌊t⌋ : ℚ) → ⌊t⌋ + 1 ≤ N := by
    intro hpos
    have : (⌊t⌋ : ℚ) < (N : ℚ) := by linarith
    have : ⌊t⌋ < N := by exact_mod_cast this
    omega
  unfold roundHalfEven
  split
  · exact h1
  · rename_i h3
    have hpos : 0 < t - (⌊t⌋ : ℚ) := by
      have : (1 : ℚ) / 2 ≤ t - (⌊t⌋ : ℚ) := le_of_not_lt h3
      linarith
    split
    · exact h2 hpos
    · split
      · exact h1
      · exact h2 hpos

theorem le_roundHalfEven (t : ℚ) (N : ℤ) (h : (N : ℚ) ≤ t) : N ≤ roundHalfEven t := by
  have h1 : N ≤ ⌊t⌋ := Int.le_floor.mpr h
  unfold roundHalfEven
  split
  · exact h1
  · split
    · omega
    · split
      · exact h1
      · omega

theorem two_zpow_pos (z : ℤ) : (0 : ℚ) < (2 : ℚ) ^ z := zpow_pos (by norm_num) z

theorem roundMag_nonneg (a : ℚ) (ha : 0 < a) : 0 ≤ roundMag a := by
  unfold roundMag
  have hu := two_zpow_pos (max (expOf a) (-1022) - 52)
  have h0 : (0 : ℤ) ≤ roundHalfEven (a / (2 : ℚ) ^ (max (expOf a) (-1022) - 52)) :=
    le_roundHalfEven _ 0 (by
      have : 0 ≤ a / (2 : ℚ) ^ (max (expOf a) (-1022) - 52) := le_of_lt (div_pos ha hu)
      simpa using this)
  have h1 : (0 : ℚ) ≤ (roundHalfEven (a / (2 : ℚ) ^ (max (expOf a) (-1022) - 52)) : ℚ) := by
    exact_mod_cast h0
  exact mul_nonneg h1 (le_of_lt hu)

theorem expOf_lt (a : ℚ) (ha : 0 < a) (E : ℤ) (h : a < (2 : ℚ) ^ (E + 1)) : expOf a ≤ E := by
  have h1 := (expOf_spec a ha).1
  have h2 : (2 : ℚ) ^ expOf a < (2 : ℚ) ^ (E + 1) := lt_of_le_of_lt h1 h
  have h3 := (zpow_lt_zpow_iff_right₀ (by norm_num : (1 : ℚ) < 2)).mp h2
  omega

theorem le_expOf (a : ℚ) (ha : 0 < a) (E : ℤ) (h : (2 : ℚ) ^ E ≤ a) : E ≤ expOf a := by
  have h1 := (expOf_spec a ha).2
  have h2 : (2 : ℚ) ^ E < (2 : ℚ) ^ (expOf a + 1) := lt_of_le_of_lt h h1
  have h3 := (zpow_lt_zpow_iff_right₀ (by norm_num : (1 : ℚ) < 2)).mp h2
  omega

theorem roundMag_le (a B : ℚ) (K : Nat) (E : ℤ) (ha : 0 < a)
    (hB : B = (K : ℚ) * (2 : ℚ) ^ (E - 52)) (hE : -1022 ≤ E) (hlt : a < (2 : ℚ) ^ (E + 1))
    (hle : a ≤ B) : roundMag a ≤ B := by
  have he : max (expOf a) (-1022) ≤ E := max_le (expOf_lt a ha E hlt) hE
  unfold roundMag
  generalize max (expOf a) (-1022) = e at he
  have hu := two_zpow_pos (e - 52)
  obtain ⟨d, hd⟩ : ∃ d : Nat, E - 52 = (e - 52) + (d : ℤ) := ⟨(E - e).toNat, by omega⟩
  have hBu : B = ((K * 2 ^ d : Nat) : ℚ) * (2 : ℚ) ^ (e - 52) := by
    rw [hB, hd, zpow_add₀ (by norm_num : (2 : ℚ) ≠ 0), zpow_natCast]
    push_cast
    ring
  have h1 : a / (2 : ℚ) ^ (e - 52) ≤ (((K * 2 ^ d : Nat) : ℤ) : ℚ) := by
    rw [div_le_iff₀ hu]
    have : (((K * 2 ^ d : Nat) : ℤ) : ℚ) = ((K * 2 ^ d : Nat) : ℚ) := by norm_cast
    rw [this, ← hBu]
    exact hle
  have h2 := roundHalfEven_le _ _ h1
  have h3 : (roundHalfEven (a / (2 : ℚ) ^ (e - 52)) : ℚ) ≤ ((K * 2 ^ d : Nat) : ℚ) := by
    exact_mod_cast h2
  rw [hBu]
  exact mul_le_mul_of_nonneg_right h3 (le_of_lt hu)

theorem le_roundMag (a : ℚ) (E : ℤ) (ha : 0 < a) (hE : -1022 ≤ E) (h : (2 : ℚ) ^ E ≤ a) :
    (2 : ℚ) ^ E ≤ roundMag a := by
  have he := le_expOf a ha E h
  have hspec := (expOf_spec a ha).1
  have hmax : max (expOf a) (-1022) = expOf a := max_eq_left (by omega)
  unfold roundMag
  rw [hmax]
  generalize expOf a = e at he hspec
  have hu := two_zpow_pos (e - 52)
  have hsplit : (2 : ℚ) ^ e = ((2 ^ 52 : Nat) : ℚ) * (2 : ℚ) ^ (e - 52) := by
    have : e = (52 : ℤ) + (e - 52) := by omega
    nth_rewrite 1 [this]
    rw [zpow_add₀ (by norm_num : (2 : ℚ) ≠ 0)]
    norm_num
  have h1 : (((2 ^ 52 : Nat) : ℤ) : ℚ) ≤ a / (2 : ℚ) ^ (e - 52) := by
    rw [le_div_iff₀ hu]
    have : (((2 ^ 52 : Nat) : ℤ) : ℚ) = ((2 ^ 52 : Nat) : ℚ) := by norm_cast
    rw [this, ← hsplit]
    exact hspec
  have h2 := le_roundHalfEven _ _ h1
  have h3 : ((2 ^ 52 : Nat) : ℚ) ≤ (roundHalfEven (a / (2 : ℚ) ^ (e - 52)) : ℚ) := by
    exact_mod_cast h2
  calc (2 : ℚ) ^ E ≤ (2 : ℚ) ^ e := zpow_le_zpow_right₀ (by norm_num) he
    _ = ((2 ^ 52 : Nat) : ℚ) * (2 : ℚ) ^ (e - 52) := hsplit
    _ ≤ (roundHalfEven (a / (2 : ℚ) ^ (e - 52)) : ℚ) * (2 : ℚ) ^ (e - 52) :=
      mul_le_mul_of_nonneg_right h3 (le_of_lt hu)

theorem roundD_of_abs_le (x B : ℚ) (K : Nat) (E : ℤ)
    (hB : B = (K : ℚ) * (2 : ℚ) ^ (E - 52)) (hE : -1022 ≤ E) (hlt : |x| < (2 : ℚ) ^ (E + 1))
    (hle : |x| ≤ B) (hB2 : B < (2 : ℚ) ^ (1024 : ℤ)) :
    ∃ r, roundD x = .fin r ∧ |r| ≤ B ∧ (0 ≤ x → 0 ≤ r) ∧ (x ≤ 0 → r ≤ 0) := by
  by_cases hx : x = 0
  · subst hx
    refine ⟨0, by simp [roundD], ?_, fun _ => le_refl _, fun _ => le_refl _⟩
    simpa using hle
  · have ha : 0 < |x| := abs_pos.mpr hx
    have h1 := roundMag_le |x| B K E ha hB hE hlt hle
    have h0 := roundMag_nonneg |x| ha
    have hno : ¬ (2 : ℚ) ^ (1024 : ℤ) ≤ roundMag |x| := not_le.mpr (lt_of_le_of_lt h1 hB2)
    unfold roundD
    rw [if_neg hx, if_neg hno]
    by_cases hneg : x < 0
    · rw [if_pos hneg]
      refine ⟨_, rfl, ?_, fun h => absurd hneg (not_lt.mpr h), fun _ => by linarith⟩
      rw [abs_neg, abs_of_nonneg h0]
      exact h1
    · rw [if_neg hneg]
      refine ⟨_, rfl, ?_, fun _ => h0, fun h => absurd (lt_of_le_of_ne h hx) hneg⟩
      rw [abs_of_nonneg h0]
      exact h1

theorem roundD_ge (x : ℚ) (E : ℤ) (hE : -1022 ≤ E) (h : (2 : ℚ) ^ E ≤ x) (r : ℚ)
    (hr : roundD x = .fin r) : (2 : ℚ) ^ E ≤ r := by
  have hx : 0 < x := lt_of_lt_of_le (two_zpow_pos E) h
  have h1 := le_roundMag x E hx hE h
  unfold roundD at hr
  rw [if_neg (ne_of_gt hx), abs_of_pos hx, if_neg (not_lt.mpr (le_of_lt hx)),
    if_neg (not_lt.mpr (le_of_lt hx))] at hr
  split at hr
  · exact absurd hr (by simp)
  · injection hr with hr
    rw [← hr]
    exact h1

theorem roundD_abs_lt_one (x r : ℚ) (hr : roundD x = .fin r) (h : |r| < 1) :
    |r| ≤ 1 - (2 : ℚ) ^ (-53 : ℤ) := by
  have hsmall : (2 : ℚ) ^ (-53 : ℤ) ≤ 1 / 2 := by
    rw [show (1 : ℚ) / 2 = (2 : ℚ) ^ (-1 : ℤ) by norm_num]
    exact zpow_le_zpow_right₀ (by norm_num) (by norm_num)
  by_cases hx : x = 0
  · subst hx
    have : r = 0 := by
      have h0 : roundD 0 = .fin 0 := by simp [roundD]
      rw [h0] at hr
      injection hr with hr
      exact hr.symm
    subst this
    rw [abs_zero]
    generalize (2 : ℚ) ^ (-53 : ℤ) = ε at hsmall ⊢
    linarith
  · have ha : 0 < |x| := abs_pos.mpr hx
    have h0 := roundMag_nonneg |x| ha
    have hrm : |r| = roundMag |x| := by
      unfold roundD at hr
      rw [if_neg hx] at hr
      split at hr
      · split at hr <;> exact absurd hr (by simp)
      · injection hr with hr
        rw [← hr]
        split
        · rw [abs_neg, abs_of_nonneg h0]
        · rw [abs_of_nonneg h0]
    rw [hrm] at h ⊢
    have hlt1 : |x| < 1 := by
      by_contra hge
      have := le_roundMag |x| 0 ha (by norm_num) (by simpa using not_lt.mp hge)
      simp at this
      linarith
    by_cases hhalf : |x| < 1 / 2
    · have := roundMag_le |x| (1 / 2) (2 ^ 52) (-1) ha (by norm_num) (by norm_num)
        (by simpa using hlt1) (le_of_lt hhalf)
      generalize (2 : ℚ) ^ (-53 : ℤ) = ε at hsmall ⊢
      linarith
    · have he1 : expOf |x| ≤ -1 := expOf_lt |x| ha (-1) (by simpa using hlt1)
      have he2 : -1 ≤ expOf |x| := le_expOf |x| ha (-1) (by
        rw [show (2 : ℚ) ^ (-1 : ℤ) = 1 / 2 by norm_num]
        exact not_lt.mp hhalf)
      have he : expOf |x| = -1 := by omega
      unfold roundMag at h ⊢
      rw [he] at h ⊢
      rw [show max (-1 : ℤ) (-1022) - 52 = -53 by norm_num] at h ⊢
      have hu := two_zpow_pos (-53)
      have hone : (1 : ℚ) = ((2 ^ 53 : ℤ) : ℚ) * (2 : ℚ) ^ (-53 : ℤ) := by norm_num
      have hn : (roundHalfEven (|x| / (2 : ℚ) ^ (-53 : ℤ)) : ℚ) < ((2 ^ 53 : ℤ) : ℚ) := by
        by_contra hge
        have := mul_le_mul_of_nonneg_right (not_lt.mp hge) (le_of_lt hu)
        rw [← hone] at this
        linarith
      have hn' : roundHalfEven (|x| / (2 : ℚ) ^ (-53 : ℤ)) ≤ 2 ^ 53 - 1 := by
        have : roundHalfEven (|x| / (2 : ℚ) ^ (-53 : ℤ)) < 2 ^ 53 := by exact_mod_cast hn
        omega
      have hn'' : (roundHalfEven (|x| / (2 : ℚ) ^ (-53 : ℤ)) : ℚ) ≤ ((2 ^ 53 - 1 : ℤ) : ℚ) := by
        exact_mod_cast hn'
      calc (roundHalfEven (|x| / (2 : ℚ) ^ (-53 : ℤ)) : ℚ) * (2 : ℚ) ^ (-53 : ℤ)
          ≤ ((2 ^ 53 - 1 : ℤ) : ℚ) * (2 : ℚ) ^ (-53 : ℤ) :=
            mul_le_mul_of_nonneg_right hn'' (le_of_lt hu)
        _ = 1 - (2 : ℚ) ^ (-53 : ℤ) := by norm_num

theorem expm1Q_nonneg (y : ℚ) (hy : 0 ≤ y) (n : Nat) :
    0 ≤ (expm1Q y n).1 ∧ 0 ≤ (expm1Q y n).2 := by
  induction n with
  | zero => exact ⟨by norm_num [expm1Q], by norm_num [expm1Q]⟩
  | succ n ih =>
    have ht : 0 ≤ (expm1Q y n).1 * y / ((n : ℚ) + 1) :=
      div_nonneg (mul_nonneg ih.1 hy) (by positivity)
    exact ⟨ht, add_nonneg ih.2 ht⟩

theorem cut200_nonneg (q : ℚ) (hq : 0 ≤ q) : 0 ≤ cut200 q := by
  unfold cut200
  have h1 : (0 : ℤ) ≤ ⌊q * 2 ^ 200⌋ := Int.floor_nonneg.mpr (by positivity)
  have h2 : (0 : ℚ) ≤ (⌊q * 2 ^ 200⌋ : ℚ) := by exact_mod_cast h1
  positivity

theorem squarings_nonneg (E : ℚ) (hE : 0 ≤ E) (k : Nat) : 0 ≤ squarings E k := by
  cases k with
  | zero => exact hE
  | succ k => exact cut200_nonneg _ (mul_self_nonneg _)

theorem abs_sub_one_div_add_one_le (E : ℚ) (hE : 0 ≤ E) : |(E - 1) / (E + 1)| ≤ 1 := by
  have h1 : (0 : ℚ) < E + 1 := by linarith
  rw [abs_div, abs_of_pos h1, div_le_one h1, abs_le]
  constructor <;> linarith

theorem tanhPos_abs_le (a : ℚ) (ha : 0 ≤ a) : |tanhPos a| ≤ 1 := by
  unfold tanhPos
  split
  · simp
  · split
    · have hS := (expm1Q_nonneg (2 * a) (by linarith) 40).2
      have h2 : (0 : ℚ) < (expm1Q (2 * a) 40).2 + 2 := by linarith
      rw [abs_div, abs_of_nonneg hS, abs_of_pos h2, div_le_one h2]
      linarith
    · apply abs_sub_one_div_add_one_le
      apply squarings_nonneg
      apply cut200_nonneg
      have hS := (expm1Q_nonneg (2 * a / 2 ^ halvings (2 * a) 7)
        (div_nonneg (by linarith) (by positivity)) 40).2
      linarith

theorem tanhQ_abs_le (q : ℚ) : |tanhQ q| ≤ 1 := by
  unfold tanhQ
  split
  · rename_i h
    rw [abs_neg]
    exact tanhPos_abs_le _ (by linarith)
  · rename_i h
    exact tanhPos_abs_le _ (not_lt.mp h)

theorem atanhSeries_bounds (z : ℚ) (h0 : 0 ≤ z) (h1 : z ≤ 1 / 3) (n : Nat) :
    0 ≤ atanhSeries z n ∧ atanhSeries z n ≤ 9 / 8 * (z - z ^ (2 * n + 1)) := by
  induction n with
  | zero => exact ⟨by simp [atanhSeries], by simp [atanhSeries]⟩
  | succ n ih =>
    have hp : 0 ≤ z ^ (2 * n + 1) := pow_nonneg h0 _
    have hd : (1 : ℚ) ≤ 2 * (n : ℚ) + 1 := by
      have : (0 : ℚ) ≤ (n : ℚ) := Nat.cast_nonneg n
      linarith
    have ht0 : 0 ≤ z ^ (2 * n + 1) / (2 * (n : ℚ) + 1) := div_nonneg hp (by linarith)
    have ht1 : z ^ (2 * n + 1) / (2 * (n : ℚ) + 1) ≤ z ^ (2 * n + 1) :=
      div_le_self hp hd
    have hsq : z ^ (2 * (n + 1) + 1) = z ^ (2 * n + 1) * (z * z) := by ring
    have hzz : z * z ≤ 1 / 9 := by nlinarith
    have hstep : z ^ (2 * n + 1) * (z * z) ≤ z ^ (2 * n + 1) * (1 / 9) :=
      mul_le_mul_of_nonneg_left hzz hp
    show 0 ≤ atanhSeries z n + z ^ (2 * n + 1) / (2 * (n : ℚ) + 1)
      ∧ atanhSeries z n + z ^ (2 * n + 1) / (2 * (n : ℚ) + 1)
        ≤ 9 / 8 * (z - z ^ (2 * (n + 1) + 1))
    rw [hsq]
    constructor
    · linarith [ih.1]
    · linarith [ih.2]

theorem ln2Q_bounds : (0 : ℚ) ≤ ln2Q ∧ ln2Q ≤ 6932 / 10000 := by
  decide!

theorem lnQ_abs_le (y : ℚ) (h1 : (2 : ℚ) ^ (-54 : ℤ) ≤ y) (h2 : y ≤ (2 : ℚ) ^ (54 : ℤ)) :
    |lnQ y| ≤ 75 / 2 := by
  have hy : 0 < y := lt_of_lt_of_le (two_zpow_pos _) h1
  obtain ⟨hs1, hs2⟩ := expOf_spec y hy
  have he1 : -54 ≤ expOf y := le_expOf y hy _ h1
  have he2 : expOf y ≤ 54 := expOf_lt y hy 54 (lt_of_le_of_lt h2
    (zpow_lt_zpow_right₀ (by norm_num) (by norm_num)))
  have hp := two_zpow_pos (expOf y)
  have hm1 : 1 ≤ y / (2 : ℚ) ^ expOf y := by
    rw [le_div_iff₀ hp, one_mul]; exact hs1
  have hm2 : y / (2 : ℚ) ^ expOf y < 2 := by
    rw [div_lt_iff₀ hp, ← zpow_one_add₀ (by norm_num : (2 : ℚ) ≠ 0), add_comm]; exact hs2
  have hm54 : expOf y = 54 → y / (2 : ℚ) ^ expOf y = 1 := by
    intro h
    rw [h] at hs1 ⊢
    rw [le_antisymm h2 hs1]
    exact div_self (ne_of_gt (two_zpow_pos _))
  unfold lnQ
  generalize y / (2 : ℚ) ^ expOf y = m at hm1 hm2 hm54
  have hmp : (0 : ℚ) < m + 1 := by linarith
  have hz0 : 0 ≤ (m - 1) / (m + 1) := div_nonneg (by linarith) (le_of_lt hmp)
  have hz1 : (m - 1) / (m + 1) ≤ 1 / 3 := by
    rw [div_le_iff₀ hmp]; linarith
  obtain ⟨hT0, hT1⟩ := atanhSeries_bounds _ hz0 hz1 45
  have hT2 : atanhSeries ((m - 1) / (m + 1)) 45 ≤ 9 / 8 * ((m - 1) / (m + 1)) := by
    have : 0 ≤ ((m - 1) / (m + 1)) ^ (2 * 45 + 1) := pow_nonneg hz0 _
    linarith
  obtain ⟨hL0, hL1⟩ := ln2Q_bounds
  have hce1 : (-54 : ℚ) ≤ (expOf y : ℚ) := by exact_mod_cast he1
  have hce2 : (expOf y : ℚ) ≤ 54 := by exact_mod_cast he2
  rw [abs_le]
  constructor
  · have : (-54 : ℚ) * ln2Q ≤ (expOf y : ℚ) * ln2Q := mul_le_mul_of_nonneg_right hce1 hL0
    nlinarith
  · by_cases h54 : expOf y = 54
    · have hm := hm54 h54
      have hz : (m - 1) / (m + 1) = 0 := by rw [hm]; norm_num
      have : (expOf y : ℚ) = 54 := by exact_mod_cast h54
      rw [hz] at hT2 ⊢
      rw [this]
      linarith
    · have he3 : expOf y ≤ 53 := by omega
      have hce3 : (expOf y : ℚ) ≤ 53 := by exact_mod_cast he3
      have : (expOf y : ℚ) * ln2Q ≤ 53 * ln2Q := mul_le_mul_of_nonneg_right hce3 hL0
      linarith

theorem roundD_within (x B : ℚ) (K : Nat) (E : ℤ)
    (hB : B = (K : ℚ) * (2 : ℚ) ^ (E - 52)) (hE : -1022 ≤ E) (hE2 : E ≤ 1023)
    (hBlt : B < (2 : ℚ) ^ (E + 1)) (hle : |x| ≤ B) :
    ∃ r, roundD x = .fin r ∧ |r| ≤ B := by
  have h1024 : (2 : ℚ) ^ (E + 1) ≤ (2 : ℚ) ^ (1024 : ℤ) :=
    zpow_le_zpow_right₀ (by norm_num) (by omega)
  obtain ⟨r, hr, hb, _⟩ := roundD_of_abs_le x B K E hB hE (lt_of_le_of_lt hle hBlt) hle
    (lt_of_lt_of_le hBlt h1024)
  exact ⟨r, hr, hb⟩

theorem roundD_within_one (x : ℚ) (h : |x| ≤ 1) : ∃ r, roundD x = .fin r ∧ |r| ≤ 1 :=
  roundD_within x 1 (2 ^ 52) 0 (by norm_num) (by norm_num) (by norm_num) (by norm_num) h

theorem f64_sat : f64Ops.sat = .fin (2683863902936105 / 140737488355328) := by
  decide!

theorem roundD_within_sat (x : ℚ) (h : |x| ≤ 2683863902936105 / 140737488355328) :
    ∃ r, roundD x = .fin r ∧ |r| ≤ 2683863902936105 / 140737488355328 :=
  roundD_within x _ 2683863902936105 5 (by norm_num) (by norm_num) (by norm_num)
    (by norm_num) h

theorem roundD_within_two_sat (x : ℚ) (h : |x| ≤ 2 * (2683863902936105 / 140737488355328)) :
    ∃ r, roundD x = .fin r ∧ |r| ≤ 2 * (2683863902936105 / 140737488355328) :=
  roundD_within x _ 2683863902936105 6 (by norm_num) (by norm_num) (by norm_num)
    (by norm_num) h

theorem within_tanh (x : XDouble) : (f64Ops.tanh x).within 1 := by
  cases x with
  | nan => trivial
  | negInf => show |(-1 : ℚ)| ≤ 1; norm_num
  | posInf => show |(1 : ℚ)| ≤ 1; norm_num
  | fin q =>
    obtain ⟨r, hr, hb⟩ := roundD_within_one (tanhQ q) (tanhQ_abs_le q)
    show (roundD (tanhQ q)).within 1
    rw [hr]
    exact hb

theorem within_mul_one (x y : XDouble) (hx : x.within 1) (hy : y.within 1) :
    (f64Ops.mul x y).within 1 := by
  cases x with
  | nan => cases y <;> trivial
  | negInf => exact absurd hx id
  | posInf => exact absurd hx id
  | fin p =>
    cases y with
    | nan => trivial
    | negInf => exact absurd hy id
    | posInf => exact absurd hy id
    | fin q =>
      have hp : |p| ≤ 1 := hx
      have hq : |q| ≤ 1 := hy
      have hpq : |p * q| ≤ 1 := by
        rw [abs_mul]
        calc |p| * |q| ≤ 1 * 1 := mul_le_mul hp hq (abs_nonneg _) (by norm_num)
          _ = 1 := by norm_num
      obtain ⟨r, hr, hb⟩ := roundD_within_one (p * q) hpq
      show (roundD (p * q)).within 1
      rw [hr]
      exact hb

theorem within_two_mul (v : XDouble) (hv : v.within (2683863902936105 / 140737488355328)) :
    (f64Ops.mul f64Ops.two v).within (2 * (2683863902936105 / 140737488355328)) := by
  cases v with
  | nan => trivial
  | negInf => exact absurd hv id
  | posInf => exact absurd hv id
  | fin h =>
    have hh : |h| ≤ 2683863902936105 / 140737488355328 := hv
    have h2 : |2 * h| ≤ 2 * (2683863902936105 / 140737488355328) := by
      rw [abs_mul, abs_of_pos (by norm_num : (0 : ℚ) < 2)]
      linarith
    obtain ⟨r, hr, hb⟩ := roundD_within_two_sat (2 * h) h2
    show (roundD (2 * h)).within _
    rw [hr]
    exact hb

theorem rnd_fin (w : XDouble) (r : ℚ) (h : w.rnd = .fin r) : ∃ q, roundD q = .fin r := by
  cases w with
  | nan => exact absurd h (by simp [XDouble.rnd])
  | negInf => exact absurd h (by simp [XDouble.rnd])
  | posInf => exact absurd h (by simp [XDouble.rnd])
  | fin q => exact ⟨q, h⟩

theorem f64_div_fin (p q : ℚ) (hq : q ≠ 0) : f64Ops.div (.fin p) (.fin q) = roundD (p / q) := by
  show (XDouble.div (.fin p) (.fin q)).rnd = roundD (p / q)
  simp only [XDouble.div, if_neg hq, XDouble.rnd]

theorem f64_log_fin (y : ℚ) (hy : 0 < y) : f64Ops.log (.fin y) = roundD (lnQ y) := by
  show (if y < 0 then XDouble.nan else if y = 0 then XDouble.negInf else roundD (lnQ y)) = _
  rw [if_neg (not_lt.mpr (le_of_lt hy)), if_neg (ne_of_gt hy)]

theorem roundD_one_add (t : ℚ) (h : |t| ≤ 1 - (2 : ℚ) ^ (-53 : ℤ)) :
    ∃ a, roundD (1 + t) = .fin a ∧ (2 : ℚ) ^ (-53 : ℤ) ≤ a ∧ a ≤ 2 := by
  have hε : (0 : ℚ) < (2 : ℚ) ^ (-53 : ℤ) := two_zpow_pos _
  have hlo : (2 : ℚ) ^ (-53 : ℤ) ≤ 1 + t := by
    have := (abs_le.mp h).1
    linarith
  have hhi : 1 + t ≤ 2 := by
    have := (abs_le.mp h).2
    linarith
  have habs : |1 + t| ≤ 2 := by
    rw [abs_of_nonneg (by linarith)]
    exact hhi
  obtain ⟨a, ha, hb⟩ := roundD_within (1 + t) 2 (2 ^ 52) 1 (by norm_num) (by norm_num)
    (by norm_num) (by norm_num) habs
  exact ⟨a, ha, roundD_ge _ _ (by norm_num) hlo a ha, (abs_le.mp hb).2⟩

theorem within_atanh_unclamped (r : ℚ) (hrep : ∃ q, roundD q = .fin r) (h1 : -1 < r)
    (h2 : r < 1) :
    (f64Ops.mul f64Ops.half (f64Ops.log (f64Ops.div (f64Ops.add f64Ops.one (.fin r))
      (f64Ops.sub f64Ops.one (.fin r))))).within (2683863902936105 / 140737488355328) := by
  obtain ⟨q, hq⟩ := hrep
  have hr : |r| ≤ 1 - (2 : ℚ) ^ (-53 : ℤ) :=
    roundD_abs_lt_one q r hq (abs_lt.mpr ⟨h1, h2⟩)
  obtain ⟨a1, ha1, hl1, hu1⟩ := roundD_one_add r hr
  obtain ⟨a2, ha2, hl2, hu2⟩ := roundD_one_add (-r) (by rw [abs_neg]; exact hr)
  have hε : (0 : ℚ) < (2 : ℚ) ^ (-53 : ℤ) := two_zpow_pos _
  have hεv : (2 : ℚ) ^ (-53 : ℤ) = 1 / 9007199254740992 := by norm_num
  rw [hεv] at hl1 hl2
  have hp1 : 0 < a1 := by linarith
  have hp2 : 0 < a2 := by linarith
  have hadd : f64Ops.add f64Ops.one (.fin r) = .fin a1 := ha1
  have hsub : f64Ops.sub f64Ops.one (.fin r) = .fin a2 := ha2
  rw [hadd, hsub, f64_div_fin a1 a2 (ne_of_gt hp2)]
  have hqlo : (2 : ℚ) ^ (-54 : ℤ) ≤ a1 / a2 := by
    rw [le_div_iff₀ hp2]
    have : (2 : ℚ) ^ (-54 : ℤ) = 1 / 18014398509481984 := by norm_num
    rw [this]
    nlinarith
  have hqhi : a1 / a2 ≤ (2 : ℚ) ^ (54 : ℤ) := by
    rw [div_le_iff₀ hp2]
    have : (2 : ℚ) ^ (54 : ℤ) = 18014398509481984 := by norm_num
    rw [this]
    nlinarith
  have hqabs : |a1 / a2| ≤ (2 : ℚ) ^ (54 : ℤ) := by
    rw [abs_of_pos (div_pos hp1 hp2)]
    exact hqhi
  obtain ⟨y, hy, hyb⟩ := roundD_within (a1 / a2) ((2 : ℚ) ^ (54 : ℤ)) (2 ^ 52) 54
    (by norm_num) (by norm_num) (by norm_num) (by norm_num) hqabs
  have hylo := roundD_ge _ _ (by norm_num) hqlo y hy
  have hypos : 0 < y := lt_of_lt_of_le (two_zpow_pos _) hylo
  rw [hy, f64_log_fin y hypos]
  have hln := lnQ_abs_le y hylo (abs_le.mp hyb).2
  obtain ⟨l, hl, hlb⟩ := roundD_within_two_sat (lnQ y) (le_trans hln (by norm_num))
  rw [hl]
  have hhalf : |1 / 2 * l| ≤ 2683863902936105 / 140737488355328 := by
    rw [abs_mul, abs_of_pos (by norm_num : (0 : ℚ) < 1 / 2)]
    linarith
  obtain ⟨h, hh, hhb⟩ := roundD_within_sat (1 / 2 * l) hhalf
  show (roundD (1 / 2 * l)).within _
  rw [hh]
  exact hhb

theorem within_atanh (v : XDouble) (hv : ∀ r, v = .fin r → ∃ q, roundD q = .fin r) :
    (atanh f64Ops v).within (2683863902936105 / 140737488355328) := by
  cases v with
  | nan =>
    have : atanh f64Ops .nan = .nan := by decide!
    rw [this]
    trivial
  | negInf =>
    have : atanh f64Ops .negInf = .fin (-(2683863902936105 / 140737488355328)) := by decide!
    rw [this]
    show |(-(2683863902936105 / 140737488355328) : ℚ)| ≤ _
    exact abs_le.mpr ⟨by norm_num, by norm_num⟩
  | posInf =>
    have : atanh f64Ops .posInf = .fin (2683863902936105 / 140737488355328) := by decide!
    rw [this]
    show |(2683863902936105 / 140737488355328 : ℚ)| ≤ _
    exact abs_le.mpr ⟨by norm_num, by norm_num⟩
  | fin r =>
    have hc1 : f64Ops.le (.fin r) (f64Ops.neg f64Ops.one) = decide (r ≤ -1) := rfl
    have hc2 : f64Ops.le f64Ops.one (.fin r) = decide (1 ≤ r) := rfl
    unfold atanh
    rw [hc1, hc2]
    simp only [decide_eq_true_eq]
    split
    · rw [f64_sat]
      show |(-(2683863902936105 / 140737488355328) : ℚ)| ≤ _
      exact abs_le.mpr ⟨by norm_num, by norm_num⟩
    · rename_i h1
      split
      · rw [f64_sat]
        show |(2683863902936105 / 140737488355328 : ℚ)| ≤ _
        exact abs_le.mpr ⟨by norm_num, by norm_num⟩
      · rename_i h2
        exact within_atanh_unclamped r (hv r rfl) (not_le.mp h1) (not_le.mp h2)

theorem within_getAt (l : List XDouble) (i : Int) (B : ℚ) (hB : 0 ≤ B)
    (h : ∀ x ∈ l, x.within B) : (getAt l i f64Ops.zero).within B := by
  have h0 : (f64Ops.zero).within B := by
    show |(0 : ℚ)| ≤ B
    simpa using hB
  unfold getAt
  split
  · rw [List.getD_eq_getElem?_getD]
    cases hx : l[i.toNat]? with
    | none => exact h0
    | some x => exact h x (List.getElem?_mem hx)
  · exact h0

theorem within_forLoop_mul (y : Nat → XDouble) (n : Nat) (h : ∀ k, (y k).within 1) :
    (forLoop n (fun k acc => f64Ops.mul acc (y k)) f64Ops.one).within 1 := by
  induction n with
  | zero =>
    show |(1 : ℚ)| ≤ 1
    norm_num
  | succ n ih =>
    rw [forLoop_succ]
    exact within_mul_one _ _ ih (h n)

/-! ## Runs in double arithmetic -/

/-- C10 as stated fails: on the graph with two bits, one check and the single edge between
bit 0 and check 0, the channel values `-1 100` need one round; after its bit update
`msgBit[1]` is the channel value `100` of the isolated bit 1 and `msgCheck2Bit[0]` is twice
the saturation value: both exceed `19.07`. -/
theorem saturation_bound_counterexample :
    (Decode f64Ops (mkGraph 2 1 1 [0]) (InitMessage f64Ops (mkGraph 2 1 1 [0]))
        [.fin (-1), .fin 100] 10).nIteration = 1
    ∧ (Decode f64Ops (mkGraph 2 1 1 [0]) (InitMessage f64Ops (mkGraph 2 1 1 [0]))
        [.fin (-1), .fin 100] 10).msgs.msgBit.getD 1 f64Ops.zero = .fin 100
    ∧ (Decode f64Ops (mkGraph 2 1 1 [0]) (InitMessage f64Ops (mkGraph 2 1 1 [0]))
        [.fin (-1), .fin 100] 10).msgs.msgCheck2Bit.getD 0 f64Ops.zero
      = .fin (2 * (2683863902936105 / 140737488355328))
    ∧ (1907 / 100 : ℚ) < |100|
    ∧ (1907 / 100 : ℚ) < |2 * (2683863902936105 / 140737488355328)| := by
  decide!

/-- C10, amended. Saturation bound in double arithmetic: for every graph and message arrays of
the allocated sizes, every value a check update writes to `msgBit2Check` or `msgCheck` is a
NaN or at most `1` in absolute value, and every value a bit update writes to `msgCheck2Bit` is
a NaN or at most twice the saturation value in absolute value, the saturation value being the
double `19.07`, which is `2683863902936105 / 2 ^ 47`.  Nothing is said of `msgBit`, which
carries the channel value. -/
theorem message_bounds (g : Graph) (m : Messages XDouble) (hm : MsgShape g m) :
    (∀ x ∈ (UpdateCheck f64Ops g m).msgBit2Check, x.within 1)
    ∧ (∀ x ∈ (UpdateCheck f64Ops g m).msgCheck, x.within 1)
    ∧ (∀ x ∈ (UpdateBit f64Ops g m).msgCheck2Bit,
      x.within (2 * (2683863902936105 / 140737488355328)))
    ∧ f64Ops.sat = .fin (2683863902936105 / 140737488355328) := by
  have h1 : ∀ x ∈ (UpdateCheck f64Ops g m).msgBit2Check, x.within 1 := by
    intro x hx
    rw [updateCheck_msgBit2Check _ g m hm.msgBit2Check_length] at hx
    obtain ⟨e, _, rfl⟩ := List.mem_map.mp hx
    exact within_tanh _
  refine ⟨h1, ?_, ?_, f64_sat⟩
  · intro x hx
    rw [updateCheck_msgCheck _ g m hm.msgCheck_length] at hx
    obtain ⟨c, _, rfl⟩ := List.mem_map.mp hx
    exact within_forLoop_mul _ _ (fun k => within_getAt _ _ 1 (by norm_num) h1)
  · intro x hx
    rw [updateBit_msgCheck2Bit _ g m hm.msgCheck2Bit_length] at hx
    obtain ⟨e, _, rfl⟩ := List.mem_map.mp hx
    exact within_two_mul _ (within_atanh _ (fun r hr => rnd_fin _ r hr))

/-- C10, amended, on the (3, 1) repetition code with the channel values 4, 4, -4: the first
check update and the bit update after it. -/
theorem message_bounds_witness :
    MsgShape (mkGraph 3 2 4 [0, 1, 2, 5])
      (startState f64Ops (mkGraph 3 2 4 [0, 1, 2, 5])
        (InitMessage f64Ops (mkGraph 3 2 4 [0, 1, 2, 5])) [.fin 4, .fin 4, .fin (-4)])
    ∧ (∀ x ∈ (UpdateCheck f64Ops (mkGraph 3 2 4 [0, 1, 2, 5])
        (startState f64Ops (mkGraph 3 2 4 [0, 1, 2, 5])
          (InitMessage f64Ops (mkGraph 3 2 4 [0, 1, 2, 5]))
          [.fin 4, .fin 4, .fin (-4)])).msgCheck, x.within 1)
    ∧ (∀ x ∈ (UpdateBit f64Ops (mkGraph 3 2 4 [0, 1, 2, 5])
        (UpdateCheck f64Ops (mkGraph 3 2 4 [0, 1, 2, 5])
          (startState f64Ops (mkGraph 3 2 4 [0, 1, 2, 5])
            (InitMessage f64Ops (mkGraph 3 2 4 [0, 1, 2, 5]))
            [.fin 4, .fin 4, .fin (-4)]))).msgCheck2Bit,
      x.within (2 * (2683863902936105 / 140737488355328))) :=
  ⟨msgShape_startState f64Ops _ _ _ (msgShape_initMessage f64Ops _) (by decide),
    (message_bounds (mkGraph 3 2 4 [0, 1, 2, 5])
      (startState f64Ops (mkGraph 3 2 4 [0, 1, 2, 5])
        (InitMessage f64Ops (mkGraph 3 2 4 [0, 1, 2, 5])) [.fin 4, .fin 4, .fin (-4)])
      (msgShape_startState f64Ops _ _ _ (msgShape_initMessage f64Ops _) (by decide))).2.1,
    (message_bounds (mkGraph 3 2 4 [0, 1, 2, 5])
      (UpdateCheck f64Ops (mkGraph 3 2 4 [0, 1, 2, 5])
        (startState f64Ops (mkGraph 3 2 4 [0, 1, 2, 5])
          (InitMessage f64Ops (mkGraph 3 2 4 [0, 1, 2, 5])) [.fin 4, .fin 4, .fin (-4)]))
      (msgShape_updateCheck f64Ops _ _
        (msgShape_startState f64Ops _ _ _ (msgShape_initMessage f64Ops _) (by decide)))).2.2.1⟩

end MPDec
